import Mathlib

/-!
# pronunciation_ai: the drilling session and its similarity scorer

A shallow embedding of `static/js/drillingSession.js` (class `PronounceTrainer`) and
`static/js/newDrillingSession.js` (class `SimpleDrillingSession`).

* JavaScript strings are lists of code units (`JsString`).
* JavaScript arrays are lists; a read outside the array is `none` (`undefined`).
* Numbers produced by the similarity scorers are exact rationals.
* The fluency score is computed in doubles: each operation rounds its exact result
  (`toDouble`).
* The object `wordsBySound` of `generatePracticePlan` is modelled twice: as a list of
  properties in creation order, for sounds that are ordinary property names, and with the
  properties inherited from `Object.prototype` and the key order of `Object.keys`
  (`generatePracticePlanExact`), for every sound.
* DOM rendering, timers and speech synthesis are outside the model.
-/

namespace PronunciationAI

/-! ## Strings and arrays -/

/-- A JavaScript string as the sequence of its code units, one `Char` per code unit (so
the strings covered are those of the Basic Multilingual Plane). -/
abbrev JsString := List Char

/-- The method `String.prototype.includes`: `t` starts at some position of `s`. -/
def includes (s t : JsString) : Bool :=
  s.tails.any (fun u => t.isPrefixOf u)

/-- The method `String.prototype.charAt`: the one-unit string at `k`, or the empty string. -/
def charAt (s : JsString) (k : Nat) : JsString :=
  match s[k]? with
  | some c => [c]
  | none => []

/-- The assignment `arr[i] = v` on an array without holes: it overwrites an existing
element, appends at index `arr.length`, and is outside the model (`none`) beyond that. -/
def jsSet {α : Type} (arr : List α) (i : Nat) (v : α) : Option (List α) :=
  if i < arr.length then some (arr.set i v)
  else if i = arr.length then some (arr ++ [v])
  else none

/-- A matrix as a JavaScript array of arrays of numbers. -/
abbrev Matrix := List (List Nat)

/-- The read `matrix[i][j]`; `none` when the row or the cell is `undefined`. -/
def getCell (m : Matrix) (i j : Nat) : Option Nat :=
  match m[i]? with
  | none => none
  | some row => row[j]?

/-- The assignment `matrix[i][j] = v`; `none` when the row `matrix[i]` is `undefined`. -/
def setCell (m : Matrix) (i j v : Nat) : Option Matrix :=
  match m[i]? with
  | none => none
  | some row =>
    match jsSet row j v with
    | none => none
    | some row' => some (m.set i row')

/-- The loop `for (let k = lo; k < lo + n; k++) body`, threading the state through the
iterations; it stops with `none` as soon as one iteration does. -/
def forLoop {σ : Type} (body : Nat → σ → Option σ) : Nat → Nat → σ → Option σ
  | 0, _, s => some s
  | n + 1, lo, s =>
    match body lo s with
    | none => none
    | some s' => forLoop body n (lo + 1) s'

/-! ## `PronounceTrainer.compareWordsRoughly` (drillingSession.js, lines 640-677) -/

namespace PronounceTrainer

/-- The body of the inner loop of `compareWordsRoughly`: the assignment to `matrix[i][j]`. -/
def levCell (str1 str2 : JsString) (i j : Nat) (matrix : Matrix) : Option Matrix :=
  let cost := if str1[i - 1]? = str2[j - 1]? then 0 else 1
  match getCell matrix (i - 1) j, getCell matrix i (j - 1), getCell matrix (i - 1) (j - 1) with
  | some up, some left, some diag =>
    setCell matrix i j (min (min (up + 1) (left + 1)) (diag + cost))
  | _, _, _ => none

/-- The matrix of `compareWordsRoughly` after its three loops. -/
def levMatrix (str1 str2 : JsString) : Option Matrix :=
  let len1 := str1.length
  let len2 := str2.length
  let matrix : Matrix := List.replicate (len1 + 1) (List.replicate (len2 + 1) 0)
  match forLoop (fun i m => setCell m i 0 i) (len1 + 1) 0 matrix with
  | none => none
  | some matrix =>
    match forLoop (fun j m => setCell m 0 j j) (len2 + 1) 0 matrix with
    | none => none
    | some matrix =>
      forLoop (fun i m => forLoop (fun j m => levCell str1 str2 i j m) len2 1 m) len1 1 matrix

/-- The similarity score `compareWordsRoughly(str1, str2)`; `none` would be a value that is
not a number. -/
def compareWordsRoughly (str1 str2 : JsString) : Option ℚ :=
  if str1.length = 0 ∨ str2.length = 0 then some 0
  else if str1 = str2 then some 1
  else if includes str2 str1 then some (9 / 10)
  else
    let len1 := str1.length
    let len2 := str2.length
    match levMatrix str1 str2 with
    | none => none
    | some matrix =>
      match getCell matrix len1 len2 with
      | none => none
      | some d =>
        let maxLen := max len1 len2
        some (if maxLen > 0 then 1 - (d : ℚ) / (maxLen : ℚ) else 1)

end PronounceTrainer

/-! ## `SimpleDrillingSession` (newDrillingSession.js, lines 457-505) -/

namespace SimpleDrillingSession

/-- The body of the inner loop of `levenshteinDistance`. -/
def levCell (str1 str2 : JsString) (i j : Nat) (matrix : Matrix) : Option Matrix :=
  if charAt str2 (i - 1) = charAt str1 (j - 1) then
    match getCell matrix (i - 1) (j - 1) with
    | some diag => setCell matrix i j diag
    | none => none
  else
    match getCell matrix (i - 1) (j - 1), getCell matrix i (j - 1), getCell matrix (i - 1) j with
    | some diag, some left, some up =>
      setCell matrix i j (min (min (diag + 1) (left + 1)) (up + 1))
    | _, _, _ => none

/-- The matrix of `levenshteinDistance` after its three loops. -/
def levMatrix (str1 str2 : JsString) : Option Matrix :=
  match forLoop (fun i m => jsSet m i [i]) (str2.length + 1) 0 ([] : Matrix) with
  | none => none
  | some matrix =>
    match forLoop (fun j m => setCell m 0 j j) (str1.length + 1) 0 matrix with
    | none => none
    | some matrix =>
      forLoop (fun i m => forLoop (fun j m => levCell str1 str2 i j m) str1.length 1 m)
        str2.length 1 matrix

/-- The method `levenshteinDistance(str1, str2)`: the cell `matrix[str2.length][str1.length]`. -/
def levenshteinDistance (str1 str2 : JsString) : Option Nat :=
  match levMatrix str1 str2 with
  | none => none
  | some matrix => getCell matrix str2.length str1.length

/-- The similarity score `compareWordsRoughly(str1, str2)` of `SimpleDrillingSession`. -/
def compareWordsRoughly (str1 str2 : JsString) : Option ℚ :=
  if str1 = str2 then some 1
  else
    let longer := if str1.length > str2.length then str1 else str2
    let shorter := if str1.length > str2.length then str2 else str1
    if longer.length = 0 then some 1
    else if includes longer shorter then some (4 / 5)
    else
      match levenshteinDistance str1 str2 with
      | none => none
      | some editDistance => some (((longer.length : ℚ) - (editDistance : ℚ)) / (longer.length : ℚ))

end SimpleDrillingSession



/-! ## The table computed by the two edit-distance loops -/

/-- The table that a row-by-row fill with borders `table 0 j = j`, `table i 0 = i` and the
cell rule `cell i j up left diag` produces. -/
def table (cell : Nat → Nat → Nat → Nat → Nat → Nat) : Nat → Nat → Nat
  | 0, j => j
  | i + 1, 0 => i + 1
  | i + 1, j + 1 =>
    cell (i + 1) (j + 1) (table cell i (j + 1)) (table cell (i + 1) j) (table cell i j)

/-- The cells of rows `0..R`, columns `0..C` that are final when the nested loops are about
to write cell `(i, j)` hold the values of `table cell`. -/
def Filled (cell : Nat → Nat → Nat → Nat → Nat → Nat) (R C i j : Nat) (m : Matrix) : Prop :=
  ∀ i' j', i' ≤ R → j' ≤ C → (i' = 0 ∨ j' = 0 ∨ i' < i ∨ (i' = i ∧ j' < j)) →
    getCell m i' j' = some (table cell i' j')

/-- The cell rule of `PronounceTrainer.compareWordsRoughly`. -/
def PronounceTrainer.cellRule (str1 str2 : JsString) (i j up left diag : Nat) : Nat :=
  min (min (up + 1) (left + 1)) (diag + (if str1[i - 1]? = str2[j - 1]? then 0 else 1))

/-- The cell rule of `SimpleDrillingSession.levenshteinDistance` (rows follow `str2`). -/
def SimpleDrillingSession.cellRule (str1 str2 : JsString) (i j up left diag : Nat) : Nat :=
  if charAt str2 (i - 1) = charAt str1 (j - 1) then diag
  else min (min (diag + 1) (left + 1)) (up + 1)

/-! ## The data model of the drilling session (drillingSession.js) -/

/-- A difficult-word record `{ word, sound, pronunciation, type }`. -/
structure WordRecord where
  word : JsString
  sound : JsString
  pronunciation : JsString
  type : JsString
  deriving DecidableEq

/-- An entry of `sessionResults`: `{ word, sound, attemptsNeeded, spoken }`. -/
structure DrillAttemptResult where
  word : JsString
  sound : JsString
  attemptsNeeded : Nat
  spoken : Bool
  deriving DecidableEq

/-- An entry `{ sound, words }` of a day of the practice plan. -/
structure SoundGroup where
  sound : JsString
  words : List JsString
  deriving DecidableEq

/-- A day `{ day, sounds }` of the practice plan. -/
structure DayPlan where
  day : Nat
  sounds : List SoundGroup
  deriving DecidableEq

/-- The practice plan `{ days, schedule }`; `startDate` is added when the plan is saved. -/
structure PracticePlan where
  days : Nat
  schedule : List DayPlan
  startDate : Option JsString
  deriving DecidableEq

/-- The object handed to `onSessionComplete`. -/
structure SessionSummary where
  totalWords : Nat
  perfectWords : Nat
  successRate : ℚ
  results : List DrillAttemptResult
  practicePlan : Option PracticePlan
  deriving DecidableEq

/-- The record `sessionData.lastSession` written by `saveSessionData`. -/
structure LastSession where
  timestamp : JsString
  difficultList : List WordRecord
  currentWordIndex : Nat
  results : List DrillAttemptResult
  completed : Bool
  deriving DecidableEq

/-- The object kept in `localStorage`; an absent property is `none`. Stringifying and
parsing it as JSON is taken to be lossless, so the store holds the object itself. -/
structure SessionData where
  lastSession : Option LastSession
  practicePlan : Option PracticePlan
  deriving DecidableEq

/-- The key-value store `localStorage`, most recent write first. -/
abbrev Storage := List (String × SessionData)

/-- The call `localStorage.getItem(key)`; `none` is `null`. -/
def Storage.getItem (store : Storage) (key : String) : Option SessionData :=
  match store.find? (fun kv => kv.1 = key) with
  | some kv => some kv.2
  | none => none

/-- The call `localStorage.setItem(key, value)`. -/
def Storage.setItem (store : Storage) (key : String) (value : SessionData) : Storage :=
  (key, value) :: store.filter (fun kv => kv.1 ≠ key)

/-- The value of the expression `JSON.parse(localStorage.getItem(key) || '{}')`. -/
def Storage.parseItem (store : Storage) (key : String) : SessionData :=
  match store.getItem key with
  | some data => data
  | none => { lastSession := none, practicePlan := none }

/-- The fields of a `PronounceTrainer` object that its session logic reads or writes,
together with its surroundings: the summaries handed to `onSessionComplete` (a listener is
taken to be registered), the `localStorage` and the time stamp `new Date().toISOString()`.
The field `hasRecognitionManager` says whether `recognitionManager` is set. -/
structure PronounceTrainer where
  difficultList : List WordRecord
  currentWordIndex : Nat
  attemptsPerWord : Nat
  currentAttempt : Nat
  sessionActive : Bool
  sessionResults : List DrillAttemptResult
  hasUserSpoken : Bool
  isListening : Bool
  hasRecognitionManager : Bool
  sessionCompleteEvents : List SessionSummary
  localStorage : Storage
  now : JsString
  deriving DecidableEq

/-! ## Platform string methods used by `verifyPronunciation` -/

/-- The lower case of one code unit, as far as the letters `a` to `z` are concerned: `A` to
`Z` become `a` to `z`, U+0130 becomes `i` followed by the combining dot U+0307, and the
Kelvin sign U+212A becomes `k`. Every other code unit is kept as it is; where its lower case
differs from it, neither holds a letter `a` to `z`. -/
def lowerCaseUnit (c : Char) : JsString :=
  if c.toNat = 0x130 then ['i', Char.ofNat 0x307]
  else if c.toNat = 0x212A then ['k']
  else [c.toLower]

/-- The method `String.prototype.toLowerCase`, code unit by code unit. -/
def toLowerCase (s : JsString) : JsString :=
  s.flatMap lowerCaseUnit

/-- The white space and line terminators that `String.prototype.trim` removes. -/
def isTrimmed (c : Char) : Bool :=
  c.toNat ∈ [0x9, 0xA, 0xB, 0xC, 0xD, 0x20, 0xA0, 0x1680, 0x2000, 0x2001, 0x2002, 0x2003,
    0x2004, 0x2005, 0x2006, 0x2007, 0x2008, 0x2009, 0x200A, 0x2028, 0x2029, 0x202F, 0x205F,
    0x3000, 0xFEFF]

/-- The method `String.prototype.trim`. -/
def trim (s : JsString) : JsString :=
  ((s.dropWhile isTrimmed).reverse.dropWhile isTrimmed).reverse

/-! ## The session logic of `PronounceTrainer` (drillingSession.js) -/

namespace PronounceTrainer

/-- The state set up by `constructor()`. -/
def create (localStorage : Storage) (now : JsString) : PronounceTrainer :=
  { difficultList := []
    currentWordIndex := 0
    attemptsPerWord := 3
    currentAttempt := 0
    sessionActive := false
    sessionResults := []
    hasUserSpoken := false
    isListening := false
    hasRecognitionManager := false
    sessionCompleteEvents := []
    localStorage := localStorage
    now := now }

/-- The object `wordsBySound` of `generatePracticePlan`, as the list of its properties in
creation order: each word is pushed onto the array stored under its sound. This is the
loop on sounds that are ordinary property names, like the sounds of the dataset and
`unknown`; `groupLoopExact` is the loop on every sound, also on a name that
`Object.prototype` defines. -/
def groupBySound (difficultWords : List DrillAttemptResult) : List (JsString × List JsString) :=
  difficultWords.foldl (fun wordsBySound wordData =>
    let wordsBySound :=
      if wordsBySound.any (fun kv => kv.1 = wordData.sound) then wordsBySound
      else wordsBySound ++ [(wordData.sound, [])]
    wordsBySound.map (fun kv =>
      if kv.1 = wordData.sound then (kv.1, kv.2 ++ [wordData.word]) else kv)) []

/-- The method `generatePracticePlan(difficultWords)` on sounds that are ordinary property
names, which `Object.keys` lists in creation order; `none` is `null`. The method on every
input is `generatePracticePlanExact`, and `generatePracticePlanExact_of_plain` shows that
the two agree on ordinary property names. -/
def generatePracticePlan (difficultWords : List DrillAttemptResult) : Option PracticePlan :=
  if difficultWords.length = 0 then none
  else
    let wordsBySound := groupBySound difficultWords
    let sounds := wordsBySound.map (fun kv => kv.1)
    let schedule := (List.range' 1 5).map (fun day =>
      { day := day
        sounds := (sounds.enum.filter (fun p => p.1 % 5 = (day - 1) % 5)).map (fun p =>
          { sound := p.2
            words := match wordsBySound.find? (fun kv => kv.1 = p.2) with
              | some kv => kv.2
              | none => [] }) })
    some { days := 5, schedule := schedule, startDate := none }

/-- The method `saveSessionData(completed)`: it reads the key `drillingSessionData` and
writes the key `Data`. -/
def saveSessionData (s : PronounceTrainer) (completed : Bool) : PronounceTrainer :=
  let sessionData := s.localStorage.parseItem "drillingSessionData"
  let sessionData := { sessionData with
    lastSession := some
      { timestamp := s.now
        difficultList := s.difficultList
        currentWordIndex := s.currentWordIndex
        results := s.sessionResults
        completed := completed } }
  let sessionData :=
    if completed ∧ s.sessionResults.length > 0 then
      let difficultWords := s.sessionResults.filter (fun result => result.attemptsNeeded > 2)
      if difficultWords.length > 0 then
        { sessionData with
          practicePlan := match generatePracticePlan difficultWords with
            | some plan => some { plan with startDate := some s.now }
            | none => none }
      else sessionData
    else sessionData
  { s with localStorage := s.localStorage.setItem "Data" sessionData }

/-- The method `loadPreviousSessionData()`; `none` is `null`. -/
def loadPreviousSessionData (s : PronounceTrainer) : Option LastSession :=
  (s.localStorage.parseItem "drillingSessionData").lastSession

/-- The method `getCurrentPracticePlan()`; `none` is `null`. -/
def getCurrentPracticePlan (s : PronounceTrainer) : Option PracticePlan :=
  (s.localStorage.parseItem "drillingSessionData").practicePlan

/-- The summary that `completeSession()` computes from `sessionResults`. -/
def sessionSummary (sessionResults : List DrillAttemptResult) : SessionSummary :=
  let totalWords : Nat := sessionResults.length
  let perfectWords : Nat :=
    (sessionResults.filter (fun result => result.attemptsNeeded = 1)).length
  let successRate : ℚ :=
    if totalWords > 0 then ((perfectWords : ℚ) / (totalWords : ℚ)) * 100 else 0
  let difficultWords := sessionResults.filter (fun result => result.attemptsNeeded > 2)
  let practicePlan := generatePracticePlan difficultWords
  { totalWords := totalWords
    perfectWords := perfectWords
    successRate := successRate
    results := sessionResults
    practicePlan := practicePlan }

/-- The method `completeSession()`: the session ends, the summary goes to
`onSessionComplete`, and the session is saved as completed. -/
def completeSession (s : PronounceTrainer) : PronounceTrainer :=
  let s := { s with sessionActive := false }
  let s := { s with
    sessionCompleteEvents := s.sessionCompleteEvents ++ [sessionSummary s.sessionResults] }
  saveSessionData s true

/-- The method `trainNextWord()`: past the last word it completes the session, otherwise it
only renders the current word. -/
def trainNextWord (s : PronounceTrainer) : PronounceTrainer :=
  if s.currentWordIndex ≥ s.difficultList.length then completeSession s else s

/-- The method `initialize(difficultList, recognitionManager)`. -/
def initSession (s : PronounceTrainer) (difficultList : List WordRecord)
    (hasRecognitionManager : Bool) : PronounceTrainer :=
  { s with
    difficultList := difficultList
    hasRecognitionManager := hasRecognitionManager
    currentWordIndex := 0
    currentAttempt := 0
    sessionResults := []
    sessionActive := false
    isListening := false }

/-- The method `startSession()`. -/
def startSession (s : PronounceTrainer) : PronounceTrainer :=
  if s.difficultList.length = 0 then s
  else
    let s := { s with sessionActive := true, currentWordIndex := 0, currentAttempt := 0 }
    let s := trainNextWord s
    saveSessionData s false

/-- The method `nextWord()`; `none` is the `TypeError` raised by `currentWord.word` when
`difficultList[currentWordIndex]` is `undefined`. -/
def nextWord (s : PronounceTrainer) : Option PronounceTrainer :=
  match s.difficultList[s.currentWordIndex]? with
  | none => none
  | some currentWord =>
    let hasSpoken : Bool := s.currentAttempt > 0
    let result : DrillAttemptResult :=
      { word := currentWord.word
        sound := currentWord.sound
        attemptsNeeded := if hasSpoken then s.currentAttempt + 1 else 3
        spoken := hasSpoken }
    let s := { s with sessionResults := s.sessionResults ++ [result] }
    let s := { s with
      currentWordIndex := s.currentWordIndex + 1
      currentAttempt := 0
      hasUserSpoken := false }
    let s := if s.currentWordIndex ≥ s.difficultList.length then completeSession s
      else trainNextWord s
    some (saveSessionData s false)

/-- The method `recordAttempt(success)`. -/
def recordAttempt (s : PronounceTrainer) (success : Bool) : Option PronounceTrainer :=
  if !s.sessionActive then some s
  else
    let s := { s with hasUserSpoken := true }
    if success then nextWord s
    else
      let s := { s with currentAttempt := s.currentAttempt + 1 }
      if s.currentAttempt ≥ s.attemptsPerWord then nextWord s else some s

/-- A sequence of `recordAttempt` calls, one per element of `attempts`. -/
def recordAttempts (s : PronounceTrainer) : List Bool → Option PronounceTrainer
  | [] => some s
  | success :: attempts =>
    match recordAttempt s success with
    | none => none
    | some s' => recordAttempts s' attempts

/-- The method `actuallyStartListening()`. -/
def actuallyStartListening (s : PronounceTrainer) : PronounceTrainer :=
  { s with isListening := true }

/-- The method `startListening()`, the recognition manager being idle. -/
def startListening (s : PronounceTrainer) : PronounceTrainer :=
  if !s.sessionActive || !s.hasRecognitionManager then s
  else actuallyStartListening s

/-- The value of `isCorrect` in `verifyPronunciation`:
`transcriptLower.includes(targetWord) || similarity > 0.7`. A similarity that is not a
number fails the comparison. -/
def isCorrect (targetWord transcriptLower : JsString) : Bool :=
  includes transcriptLower targetWord ||
    (match compareWordsRoughly targetWord transcriptLower with
      | some similarity => decide (similarity > 7 / 10)
      | none => false)

/-- The method `verifyPronunciation(transcript)`. -/
def verifyPronunciation (s : PronounceTrainer) (transcript : JsString) :
    Option PronounceTrainer :=
  if !s.sessionActive || !s.isListening || s.currentWordIndex ≥ s.difficultList.length then
    some s
  else
    match s.difficultList[s.currentWordIndex]? with
    | none => none
    | some currentWord =>
      let targetWord := trim (toLowerCase currentWord.word)
      let transcriptLower := trim (toLowerCase transcript)
      let s := { s with hasUserSpoken := true }
      recordAttempt s (isCorrect targetWord transcriptLower)

/-- One spoken attempt: `startListening()` followed by the transcript reaching
`verifyPronunciation`. -/
def speak (s : PronounceTrainer) (transcript : JsString) : Option PronounceTrainer :=
  verifyPronunciation (startListening s) transcript

/-- A sequence of spoken attempts. -/
def speakAll (s : PronounceTrainer) : List JsString → Option PronounceTrainer
  | [] => some s
  | transcript :: transcripts =>
    match speak s transcript with
    | none => none
    | some s' => speakAll s' transcripts

/-! ### Notions used to state what the session logic does -/

/-- The result that `nextWord` pushes for the word `w` after `attempt` counted attempts. -/
def pushedResult (w : WordRecord) (attempt : Nat) : DrillAttemptResult :=
  let hasSpoken : Bool := attempt > 0
  { word := w.word
    sound := w.sound
    attemptsNeeded := if hasSpoken then attempt + 1 else 3
    spoken := hasSpoken }

/-- The state `s'` is the state `s` advanced past its current word with the result `r`
recorded: the session stays active exactly when a word is left, and otherwise the summary
of the results has been handed to `onSessionComplete`. -/
def Advanced (s : PronounceTrainer) (r : DrillAttemptResult) (s' : PronounceTrainer) : Prop :=
  s'.difficultList = s.difficultList ∧
  s'.attemptsPerWord = s.attemptsPerWord ∧
  s'.hasRecognitionManager = s.hasRecognitionManager ∧
  s'.currentWordIndex = s.currentWordIndex + 1 ∧
  s'.currentAttempt = 0 ∧
  s'.sessionResults = s.sessionResults ++ [r] ∧
  s'.sessionActive =
    (s.sessionActive && decide (s.currentWordIndex + 1 < s.difficultList.length)) ∧
  s'.sessionCompleteEvents =
    (if s.currentWordIndex + 1 < s.difficultList.length then s.sessionCompleteEvents
     else s.sessionCompleteEvents ++ [sessionSummary (s.sessionResults ++ [r])])

/-- How one word is driven: matched after `failures` failed attempts (fewer than three), or
exhausted by three failed attempts. -/
inductive WordOutcome where
  | matched (failures : Fin 3)
  | exhausted

/-- The `recordAttempt` calls that drive one word. -/
def WordOutcome.attempts : WordOutcome → List Bool
  | .matched failures => List.replicate failures.val false ++ [true]
  | .exhausted => [false, false, false]

/-- The `recordAttempt` calls that drive the words of a session in turn. -/
def driveCalls : List WordOutcome → List Bool
  | [] => []
  | o :: outcomes => o.attempts ++ driveCalls outcomes

end PronounceTrainer

/-! ## The words of the end-to-end scenario B of the specification -/

/-- The word list `[{word: "think", sound: "/θ/"}]`. -/
def scenarioWords : List WordRecord :=
  [{ word := ['t', 'h', 'i', 'n', 'k'], sound := ['/', 'θ', '/'], pronunciation := [],
     type := ['p', 'r', 'a', 'c', 't', 'i', 'c', 'e'] }]

/-- The session of scenario B right after `initialize` and `startSession`, on a fresh
trainer with an empty `localStorage`. -/
def scenarioStart : PronounceTrainer :=
  PronounceTrainer.startSession
    (PronounceTrainer.initSession (PronounceTrainer.create [] []) scenarioWords true)

/-! ## The sound dataset (pronunciationData.js) -/

/-- An entry `{ sound, pronunciation, exampleWords }` of `pronunciationData`. -/
structure SoundCategory where
  sound : JsString
  pronunciation : JsString
  exampleWords : List JsString
  deriving DecidableEq

/-- An element `{ word, sound, pronunciation }` of the array built by `getAllExampleWords`. -/
structure ExampleWord where
  word : JsString
  sound : JsString
  pronunciation : JsString
  deriving DecidableEq

/-- The object `{ sound, pronunciation }` returned by `getSoundForWord`. -/
structure SoundInfo where
  sound : JsString
  pronunciation : JsString
  deriving DecidableEq

/-- A category of the dataset, its strings given as literals. -/
def category (sound pronunciation : String) (exampleWords : List String) : SoundCategory :=
  { sound := sound.toList
    pronunciation := pronunciation.toList
    exampleWords := exampleWords.map String.toList }

/-- The constant `pronunciationData`. -/
def pronunciationData : List SoundCategory :=
  [ category "/θ/" "th as in thin"
      ["theater", "theme", "thick", "thief", "think", "thirst", "thirty", "thermal", "thorn",
       "thought", "three", "thrill", "thumb", "thunder", "thanks"],
    category "/ð/" "th as in this"
      ["another", "brother", "father", "gather", "leather", "mother", "other", "rather",
       "that", "there", "these", "they", "those", "together", "weather"],
    category "/r/" "r as in run"
      ["rabbit", "race", "rain", "rat", "red", "ribbon", "rid", "rip", "ripe", "river", "road",
       "roar", "roast", "rock", "round", "ruler"],
    category "/l/" "l as in light"
      ["love", "list", "leaf", "lake", "lemon", "lamp", "laugh", "like", "life", "long", "land",
       "loss", "late", "left", "load"],
    category "/ʒ/" "zh as in measure"
      ["pleasure", "treasure", "vision", "leisure", "genre", "fusion", "erosion", "measure",
       "closure", "exposure", "composure", "seizure", "occasion", "delusion"],
    category "/ʃ/" "sh as in she"
      ["ship", "shine", "sugar", "shoe", "shout", "short", "shelter", "share", "shore", "shame",
       "shy", "shift", "shape", "shoot", "shower"],
    category "/ŋ/" "ng as in sing"
      ["banging", "belonging", "bring", "hanging", "king", "longing", "ring", "sing", "song",
       "spring", "string", "strong", "swing", "thing"],
    category "/æ/" "short a as in cat"
      ["bat", "cat", "clap", "fat", "flat", "hat", "lap", "mat", "pat", "rat", "sat", "slap",
       "spat", "that", "trap"],
    category "/ʊ/" "short u as in book"
      ["book", "brook", "cook", "could", "foot", "hook", "look", "nook", "put", "should",
       "shook", "soot", "took", "wood", "would"],
    category "/ə/" "uh as in sofa"
      ["about", "agenda", "banana", "cabin", "camera", "circus", "comma", "focus", "idea",
       "nation", "potion", "reason", "salad", "sofa", "teacher"],
    category "/tʃ/" "ch as in chair"
      ["chair", "cheese", "choose", "chain", "child", "church", "chart", "chief", "chapter",
       "chimney", "cherish", "chick", "chest", "charm", "chisel"],
    category "/dʒ/" "j as in judge"
      ["judge", "jam", "joy", "jungle", "jacket", "joke", "juice", "journey", "jump", "jealous",
       "journal", "juncture", "junction", "adjust", "adjoin"],
    category "/v/" "v as in very"
      ["vivid", "voice", "velvet", "vote", "van", "visit", "value", "view", "vision", "vow",
       "vulture", "viable", "vital", "evolve", "reverse"],
    category "/z/" "z as in zebra"
      ["buzz", "zip", "zone", "zero", "zebra", "quiz", "dizzy", "lazy", "pizza", "puzzle",
       "size", "prize", "fizz", "sneeze", "freeze"],
    category "/h/" "h as in hat"
      ["hello", "happy", "house", "heart", "hair", "help", "heal", "huge", "hope", "hill",
       "hot", "hat", "hold", "hunt", "haste"] ]

/-- The function `getAllExampleWords()`. -/
def getAllExampleWords : List ExampleWord :=
  pronunciationData.flatMap (fun item =>
    item.exampleWords.map (fun word =>
      { word := word, sound := item.sound, pronunciation := item.pronunciation }))

/-- The function `getSoundForWord(word)`; `none` is `null`. -/
def getSoundForWord (word : JsString) : Option SoundInfo :=
  match pronunciationData.find? (fun category =>
      category.exampleWords.contains (toLowerCase word)) with
  | some category => some { sound := category.sound, pronunciation := category.pronunciation }
  | none => none

/-! ## Numbers: the arithmetic of doubles -/

/-- The integer nearest to `x`, a tie going to the even one. -/
def roundHalfEven (x : ℚ) : ℤ :=
  if x - ⌊x⌋ < 1 / 2 then ⌊x⌋
  else if x - ⌊x⌋ > 1 / 2 then ⌊x⌋ + 1
  else if ⌊x⌋ % 2 = 0 then ⌊x⌋ else ⌊x⌋ + 1

/-- The double nearest to the real number `x`, a tie going to the even significand: the
rounding of IEEE 754 binary64 that every arithmetic operation of the code applies to its
exact result. The significand has 53 bits, scaled by the power of two of `x`. The range of
the exponent is not modelled: the numbers met here lie between `2⁻³²` and 100, or are 0. -/
def toDouble (x : ℚ) : ℚ :=
  if x = 0 then 0
  else (roundHalfEven (x / 2 ^ (Int.log 2 |x| - 52)) : ℚ) * 2 ^ (Int.log 2 |x| - 52)

/-! ## The transcript analyser of `SpeechRecognitionManager` (speechRecognition.js) -/

/-- The values that the `status` of a transcript item takes. -/
inductive Status where
  | neutral
  | correct
  | incorrect
  | stutter
  | interim
  deriving DecidableEq

/-- An item `{ word, status }` of the transcript. -/
structure TranscriptItem where
  word : JsString
  status : Status
  deriving DecidableEq

/-- The values of `RECOGNITION_STATUS`. -/
inductive RecognitionStatus where
  | ready
  | listening
  | processing
  | error
  deriving DecidableEq

/-- The fields of a `SpeechRecognitionManager` that its logic reads or writes;
`hasRecognition` says whether `recognition` is set, and `randomCalls` counts the calls of
`Math.random()` made so far. -/
structure SpeechRecognitionManager where
  hasRecognition : Bool
  isListening : Bool
  manualStop : Bool
  transcript : List TranscriptItem
  currentStatus : RecognitionStatus
  difficultList : List WordRecord
  randomCalls : Nat
  deriving DecidableEq

/-- The expression `word.toLowerCase().replace(/[^a-z]/g, '')`. -/
def cleaned (word : JsString) : JsString :=
  (toLowerCase word).filter (fun c => decide ('a' ≤ c ∧ c ≤ 'z'))

/-- The expression `segment.split(/\s+/).filter(word => word.length > 0)`: the maximal runs
of code units that are not white space, `current` being the run read so far. -/
def splitWords : JsString → JsString → List JsString
  | [], current => if current.length > 0 then [current] else []
  | c :: rest, current =>
    if isTrimmed c then
      (if current.length > 0 then [current] else []) ++ splitWords rest []
    else splitWords rest (current ++ [c])

namespace SpeechRecognitionManager

/-- The state set up by `constructor()` in a browser that supports speech recognition. -/
def create : SpeechRecognitionManager :=
  { hasRecognition := true
    isListening := false
    manualStop := false
    transcript := []
    currentStatus := RecognitionStatus.ready
    difficultList := []
    randomCalls := 0 }

/-- The statement `this.transcript.push({ word, status })`. -/
def pushItem (s : SpeechRecognitionManager) (word : JsString) (status : Status) :
    SpeechRecognitionManager :=
  { s with transcript := s.transcript ++ [{ word := word, status := status }] }

/-- The statement `this.difficultList.push(record)`. -/
def pushDifficult (s : SpeechRecognitionManager) (record : WordRecord) :
    SpeechRecognitionManager :=
  { s with difficultList := s.difficultList ++ [record] }

/-- The sound information chosen for a word outside the dataset: the first category with an
example word starting with `firstLetter`, else the first category, else `none`. -/
def closestSound (firstLetter : JsString) : Option SoundInfo :=
  match pronunciationData.find? (fun category =>
      (category.exampleWords.find? (fun word =>
        charAt (toLowerCase word) 0 = firstLetter)).isSome) with
  | some category => some { sound := category.sound, pronunciation := category.pronunciation }
  | none =>
    match pronunciationData with
    | first :: _ => some { sound := first.sound, pronunciation := first.pronunciation }
    | [] => none

/-- The body of `words.forEach` in `processTranscriptSegment`, for one word. The value of
`Math.random()` at its `n`-th call is `random n`. -/
def processWord (random : Nat → ℚ) (s : SpeechRecognitionManager) (word : JsString) :
    SpeechRecognitionManager :=
  let cleanWord := cleaned word
  if cleanWord.length = 0 then s
  else
    match getAllExampleWords.find? (fun ew => toLowerCase ew.word = cleanWord) with
    | some matchingExampleWord =>
      let randomValue := random s.randomCalls
      let s := { s with randomCalls := s.randomCalls + 1 }
      if randomValue > 6 / 10 then
        pushItem
          (pushDifficult s
            { word := cleanWord
              sound := matchingExampleWord.sound
              pronunciation := matchingExampleWord.pronunciation
              type := "pronunciation".toList })
          word Status.incorrect
      else pushItem s word Status.correct
    | none =>
      if cleanWord.length > 3 then
        let randomValue := random s.randomCalls
        let s := { s with randomCalls := s.randomCalls + 1 }
        if randomValue > 85 / 100 then
          let soundInfo := closestSound (charAt cleanWord 0)
          pushItem
            (pushDifficult s
              { word := cleanWord
                sound := match soundInfo with
                  | some info => info.sound
                  | none => "unknown".toList
                pronunciation := match soundInfo with
                  | some info => info.pronunciation
                  | none => "unknown".toList
                type := "general".toList })
            word Status.incorrect
        else pushItem s word Status.neutral
      else pushItem s word Status.neutral

/-- The statements that mark the items `i - 1` and `i` as stutter and add the word to the
difficult list if no record has it yet. -/
def markStutter (s : SpeechRecognitionManager) (i : Nat) (currentWord : JsString) :
    Option SpeechRecognitionManager :=
  match s.transcript[i - 1]?, s.transcript[i]? with
  | some prev, some current =>
    let transcript := s.transcript.set (i - 1) { prev with status := Status.stutter }
    let transcript := transcript.set i { current with status := Status.stutter }
    let s := { s with transcript := transcript }
    match s.difficultList.find? (fun cw => cw.word = currentWord) with
    | some _ => some s
    | none =>
      let soundInfo := getSoundForWord currentWord
      some (pushDifficult s
        { word := currentWord
          sound := match soundInfo with
            | some info => info.sound
            | none => "unknown".toList
          pronunciation := match soundInfo with
            | some info => info.pronunciation
            | none => "unknown".toList
          type := "stutter".toList })
  | _, _ => none

/-- The body of the loop of `detectStuttering` for the index `i`; `none` is the `TypeError`
of reading `word` on an item that is `undefined`. -/
def stutterStep (i : Nat) (s : SpeechRecognitionManager) : Option SpeechRecognitionManager :=
  match s.transcript[i - 1]?, s.transcript[i]? with
  | some prev, some current =>
    let prevWord := cleaned prev.word
    let currentWord := cleaned current.word
    match (if prevWord = currentWord then markStutter s i currentWord else some s) with
    | none => none
    | some s =>
      if currentWord.length > 3 ∧ prevWord.length < currentWord.length then
        if prevWord.isPrefixOf currentWord then markStutter s i currentWord else some s
      else some s
  | _, _ => none

/-- The method `detectStuttering()`: the loop `for (i = 1; i < transcript.length; i++)`. -/
def detectStuttering (s : SpeechRecognitionManager) : Option SpeechRecognitionManager :=
  forLoop stutterStep (s.transcript.length - 1) 1 s

/-- The method `processTranscriptSegment(segment)`. -/
def processTranscriptSegment (random : Nat → ℚ) (s : SpeechRecognitionManager)
    (segment : JsString) : Option SpeechRecognitionManager :=
  let words := splitWords segment []
  detectStuttering (words.foldl (processWord random) s)

end SpeechRecognitionManager

namespace SpeechRecognitionManager

/-- The record pushed by `analyzeTranscript` for a selected word. -/
def analysisRecord (word : JsString) : WordRecord :=
  match getAllExampleWords.find? (fun ew => toLowerCase ew.word = word) with
  | some matchingExampleWord =>
    { word := word
      sound := matchingExampleWord.sound
      pronunciation := matchingExampleWord.pronunciation
      type := "pronunciation".toList }
  | none =>
    let soundInfo := getSoundForWord word
    { word := word
      sound := match soundInfo with
        | some info => info.sound
        | none => "unknown".toList
      pronunciation := match soundInfo with
        | some info => info.pronunciation
        | none => "unknown".toList
      type := "pronunciation".toList }

/-- The `while` loop of `analyzeTranscript`, run for at most `fuel` iterations; `none` when
the loop has not finished by then, or when the drawn index is outside `wordsToAnalyze`
(no value of `Math.random()`, which lies in `[0, 1)`, gives such an index). -/
def selectLoop (random : Nat → ℚ) (wordsToAnalyze : List JsString) (numChallenging : Nat) :
    Nat → List Int → SpeechRecognitionManager → Option SpeechRecognitionManager
  | fuel, selectedIndices, s =>
    if selectedIndices.length < numChallenging ∧
        selectedIndices.length < wordsToAnalyze.length then
      match fuel with
      | 0 => none
      | fuel + 1 =>
        let randomIndex : Int := ⌊random s.randomCalls * (wordsToAnalyze.length : ℚ)⌋
        let s := { s with randomCalls := s.randomCalls + 1 }
        if selectedIndices.contains randomIndex then
          selectLoop random wordsToAnalyze numChallenging fuel selectedIndices s
        else
          match (if 0 ≤ randomIndex then wordsToAnalyze[randomIndex.toNat]? else none) with
          | none => none
          | some word =>
            selectLoop random wordsToAnalyze numChallenging fuel
              (selectedIndices ++ [randomIndex]) (pushDifficult s (analysisRecord word))
    else some s

/-- The first part of `analyzeTranscript()`: when no difficult word was found, some words
of the transcript are selected at random. -/
def analyzeSelection (random : Nat → ℚ) (fuel : Nat) (s : SpeechRecognitionManager) :
    Option SpeechRecognitionManager :=
  if s.difficultList.length = 0 ∧ s.transcript.length > 0 then
    let wordsToAnalyze :=
      ((s.transcript.filter (fun item => item.status ≠ Status.interim)).map
        (fun item => cleaned item.word)).filter (fun word => word.length > 3)
    if wordsToAnalyze.length > 0 then
      let numChallenging := min ⌈(wordsToAnalyze.length : ℚ) / 5⌉₊ 3
      selectLoop random wordsToAnalyze numChallenging fuel [] s
    else some s
  else some s

/-- The final pass of `analyzeTranscript()`:
`filter((word, index, self) => index === self.findIndex(w => w.word === word.word))`. -/
def uniqueWords (difficultList : List WordRecord) : List WordRecord :=
  (difficultList.enum.filter (fun p =>
    decide (difficultList.findIdx? (fun w => w.word = p.2.word) = some p.1))).map
      (fun p => p.2)

/-- The method `analyzeTranscript()`, its loop run for at most `fuel` iterations. -/
def analyzeTranscript (random : Nat → ℚ) (fuel : Nat) (s : SpeechRecognitionManager) :
    Option SpeechRecognitionManager :=
  match analyzeSelection random fuel s with
  | none => none
  | some s => some { s with difficultList := uniqueWords s.difficultList }

/-- The function `Math.round`: the nearest integer, a half rounded up. It is exact on a
double. -/
def mathRound (x : ℚ) : Int :=
  ⌊x + 1 / 2⌋

/-- The method `calculateFluencyScore()`. The two counts are integers below `2³²`, hence
doubles; the quotient, the product and the difference of
`100 - (incorrectCount / finalWords * 100)` are each rounded to a double. -/
def calculateFluencyScore (s : SpeechRecognitionManager) : Int :=
  if s.transcript.length = 0 then 0
  else
    let finalWordsArray := s.transcript.filter (fun item => item.status ≠ Status.interim)
    let finalWords := finalWordsArray.length
    if finalWords = 0 then 0
    else
      let incorrectCount := (s.transcript.filter (fun item =>
        item.status = Status.incorrect ∨ item.status = Status.stutter)).length
      let baseScore : ℚ :=
        max 0 (toDouble (100 -
          toDouble (toDouble ((incorrectCount : ℚ) / (finalWords : ℚ)) * 100)))
      let hasRealSpeech := finalWordsArray.any (fun word => word.word.length > 2)
      if !hasRealSpeech then 0
      else mathRound baseScore

/-! ### Notions used to state what the analyser does -/

/-- The entries of a difficult list whose word no earlier entry has: the first occurrences,
in their original order. -/
def firstOccurrences : List WordRecord → List WordRecord
  | [] => []
  | record :: rest =>
    record :: (firstOccurrences rest).filter (fun other => other.word ≠ record.word)

end SpeechRecognitionManager

namespace SpeechRecognitionManager

/-- The number of transcript items that are not interim. -/
def finalCount (s : SpeechRecognitionManager) : Nat :=
  (s.transcript.filter (fun item => item.status ≠ Status.interim)).length

/-- The number of transcript items with status incorrect or stutter. -/
def errorCount (s : SpeechRecognitionManager) : Nat :=
  (s.transcript.filter (fun item =>
    item.status = Status.incorrect ∨ item.status = Status.stutter)).length

/-- Some transcript item that is not interim has a word longer than 2 code units. -/
def hasRealSpeech (s : SpeechRecognitionManager) : Prop :=
  ∃ item ∈ s.transcript, item.status ≠ Status.interim ∧ item.word.length > 2

/-- The double that the expression `100 - (k / n * 100)` evaluates to. -/
def doubleScore (k n : Nat) : ℚ :=
  toDouble (100 - toDouble (toDouble ((k : ℚ) / (n : ℚ)) * 100))

end SpeechRecognitionManager

/-- A transcript of 200 final items, 109 of them incorrect. -/
def sampleHalf : SpeechRecognitionManager :=
  { SpeechRecognitionManager.create with
    transcript :=
      List.replicate 109 { word := "think".toList, status := Status.incorrect } ++
        List.replicate 91 { word := "think".toList, status := Status.correct } }

/-- A transcript of three final items, one of them incorrect. -/
def sampleTranscript : SpeechRecognitionManager :=
  { SpeechRecognitionManager.create with
    transcript :=
      [{ word := "the".toList, status := Status.neutral },
       { word := "cat".toList, status := Status.incorrect },
       { word := "sat".toList, status := Status.correct }] }

/-- A manager whose difficult list holds the word `cat` twice, around the word `sat`. -/
def sampleDuplicates : SpeechRecognitionManager :=
  { SpeechRecognitionManager.create with
    difficultList :=
      [{ word := "cat".toList, sound := "/æ/".toList, pronunciation := [],
         type := "pronunciation".toList },
       { word := "sat".toList, sound := "/æ/".toList, pronunciation := [],
         type := "pronunciation".toList },
       { word := "cat".toList, sound := "/æ/".toList, pronunciation := [],
         type := "stutter".toList }] }

/-! ## Notions used to state what `generatePracticePlan` does -/

/-- The distinct elements of a list in first-seen order. -/
def firstSeen : List JsString → List JsString
  | [] => []
  | x :: xs => x :: (firstSeen xs).filter (fun y => y ≠ x)

/-- The words of the input that have the given sound, in input order. -/
def wordsOfSound (difficultWords : List DrillAttemptResult) (sound : JsString) :
    List JsString :=
  (difficultWords.filter (fun r => r.sound = sound)).map (fun r => r.word)

/-- The sound groups of a plan, over all its days. -/
def planGroups (plan : PracticePlan) : List SoundGroup :=
  plan.schedule.flatMap (fun day => day.sounds)

/-- The `(sound, word)` entries that a plan lists, over all its days and sound groups. -/
def planEntries (plan : PracticePlan) : List (JsString × JsString) :=
  (planGroups plan).flatMap (fun g => g.words.map (fun w => (g.sound, w)))

/-- The sound groups of the day `day`: the distinct sounds, in first-seen order, whose index
is congruent to `day - 1` modulo 5, each with the input words of that sound. -/
def daySounds (difficultWords : List DrillAttemptResult) (day : Nat) : List SoundGroup :=
  ((firstSeen (difficultWords.map (fun r => r.sound))).enum.filter
    (fun p => p.1 % 5 = (day - 1) % 5)).map
      (fun p => { sound := p.2, words := wordsOfSound difficultWords p.2 })

/-- Six difficult-word results with six distinct sounds. -/
def sampleResults : List DrillAttemptResult :=
  [{ word := "think".toList, sound := "/θ/".toList, attemptsNeeded := 3, spoken := true },
   { word := "rat".toList, sound := "/r/".toList, attemptsNeeded := 3, spoken := true },
   { word := "love".toList, sound := "/l/".toList, attemptsNeeded := 4, spoken := true },
   { word := "ship".toList, sound := "/ʃ/".toList, attemptsNeeded := 3, spoken := false },
   { word := "king".toList, sound := "/ŋ/".toList, attemptsNeeded := 3, spoken := true },
   { word := "cat".toList, sound := "/æ/".toList, attemptsNeeded := 4, spoken := true },
   { word := "thick".toList, sound := "/θ/".toList, attemptsNeeded := 3, spoken := true }]

/-- Two results for the word `rat`, once under the sound `/r/` and once under `/æ/`, as
the dataset lists it in both categories. -/
def sampleTwoSounds : List DrillAttemptResult :=
  [{ word := "rat".toList, sound := "/r/".toList, attemptsNeeded := 3, spoken := true },
   { word := "rat".toList, sound := "/æ/".toList, attemptsNeeded := 3, spoken := true }]

/-! ## The end-to-end scenarios A and C of the specification -/

/-- The record `{word: "cat", sound: "/æ/"}` of scenario A, with the pronunciation hint of
the dataset. -/
def catRecord : WordRecord :=
  { word := "cat".toList, sound := "/æ/".toList,
    pronunciation := "short a as in cat".toList, type := "pronunciation".toList }

/-- The record that the word `sat` gets when it is drawn incorrect. -/
def satRecord : WordRecord :=
  { word := "sat".toList, sound := "/æ/".toList,
    pronunciation := "short a as in cat".toList, type := "pronunciation".toList }

/-- The status of an example word, from its draw. -/
def drawnStatus (r : ℚ) : Status :=
  if r > 6 / 10 then Status.incorrect else Status.correct

/-- The state after the segment `the cat sat`, from the draws for `cat` and `sat`. -/
def afterTheCatSat (random : Nat → ℚ) : SpeechRecognitionManager :=
  { SpeechRecognitionManager.create with
    transcript :=
      [{ word := "the".toList, status := Status.neutral },
       { word := "cat".toList, status := drawnStatus (random 0) },
       { word := "sat".toList, status := drawnStatus (random 1) }]
    difficultList :=
      (if random 0 > 6 / 10 then [catRecord] else []) ++
        (if random 1 > 6 / 10 then [satRecord] else [])
    randomCalls := 2 }

/-! ## Vocabulary for the effect of `detectStuttering` -/

/-- The item with its status replaced by `stutter`. -/
def toStutter (item : TranscriptItem) : TranscriptItem :=
  { item with status := Status.stutter }

/-- The two tests of the loop body of `detectStuttering` on an adjacent pair: the cleaned
words are identical, or the later one is longer than 3 and than the earlier one and starts
with it. -/
def stutterPair (prev current : TranscriptItem) : Bool :=
  decide (cleaned prev.word = cleaned current.word) ||
    (decide ((cleaned current.word).length > 3 ∧
        (cleaned prev.word).length < (cleaned current.word).length) &&
      (cleaned prev.word).isPrefixOf (cleaned current.word))

/-- Whether the items `m` and `m + 1` of a transcript pass one of the two tests. -/
def pairAt (tr : List TranscriptItem) (m : Nat) : Bool :=
  match tr[m]?, tr[m + 1]? with
  | some prev, some current => stutterPair prev current
  | _, _ => false

/-- Whether the item `m` belongs to a pair that passes a test and that the loop has
visited before it reaches the index `k`. -/
def touched (tr : List TranscriptItem) (k m : Nat) : Bool :=
  (decide (m + 1 < k) && pairAt tr m) ||
    (match m with
     | 0 => false
     | m' + 1 => decide (m' + 1 < k) && pairAt tr m')

/-- The record that `detectStuttering` adds for a word outside the dataset. -/
def unknownStutterRecord (word : JsString) : WordRecord :=
  { word := word, sound := "unknown".toList, pronunciation := "unknown".toList,
    type := "stutter".toList }

/-- The state after the segment `I I want want water` when no draw exceeds 0.85. -/
def afterStutterScenario : SpeechRecognitionManager :=
  { SpeechRecognitionManager.create with
    transcript :=
      [{ word := "I".toList, status := Status.stutter },
       { word := "I".toList, status := Status.stutter },
       { word := "want".toList, status := Status.stutter },
       { word := "want".toList, status := Status.stutter },
       { word := "water".toList, status := Status.neutral }]
    difficultList := [unknownStutterRecord "i".toList, unknownStutterRecord "want".toList]
    randomCalls := 3 }

/-- A state whose transcript holds the cut-off `th` followed by `think`. -/
def thThink : SpeechRecognitionManager :=
  { SpeechRecognitionManager.create with
    transcript :=
      [{ word := "th".toList, status := Status.neutral },
       { word := "think".toList, status := Status.neutral }] }

/-- A state whose transcript holds `thin` followed by `water`. -/
def thinWater : SpeechRecognitionManager :=
  { SpeechRecognitionManager.create with
    transcript :=
      [{ word := "thin".toList, status := Status.correct },
       { word := "water".toList, status := Status.neutral }] }

/-! ## The standard Levenshtein edit distance -/

/-- One single-character edit: an insertion, a deletion or a substitution at any position
of the string. -/
inductive EditStep : JsString → JsString → Prop
  | insert (pre suf : JsString) (c : Char) : EditStep (pre ++ suf) (pre ++ c :: suf)
  | delete (pre suf : JsString) (c : Char) : EditStep (pre ++ c :: suf) (pre ++ suf)
  | substitute (pre suf : JsString) (c d : Char) : EditStep (pre ++ c :: suf) (pre ++ d :: suf)

/-- The string `a` is turned into `b` by `n` single-character edits. -/
inductive EditsIn : Nat → JsString → JsString → Prop
  | done (a : JsString) : EditsIn 0 a a
  | step {n : Nat} {a b c : JsString} : EditStep a b → EditsIn n b c → EditsIn (n + 1) a c

/-- The number `d` is the Levenshtein distance of `a` and `b`: the minimum number of
single-character insertions, deletions and substitutions that turn `a` into `b`. -/
def IsLevenshtein (a b : JsString) (d : Nat) : Prop :=
  EditsIn d a b ∧ ∀ n, EditsIn n a b → d ≤ n

/-- The recurrence of the edit-distance table, read on two strings from their heads (the
table of the loops reads the prefixes from their last characters). -/
def lev : JsString → JsString → Nat
  | [], ys => ys.length
  | x :: xs, [] => xs.length + 1
  | x :: xs, y :: ys =>
    min (min (lev xs (y :: ys) + 1) (lev (x :: xs) ys + 1))
      (lev xs ys + (if x = y then 0 else 1))

/-- A manager with an empty difficult list whose transcript holds `think` and `water`. -/
def sampleSpoken : SpeechRecognitionManager :=
  { SpeechRecognitionManager.create with
    transcript :=
      [{ word := "think".toList, status := Status.neutral },
       { word := "water".toList, status := Status.neutral }] }

/-! ## Sequences of calls on a drilling session -/

/-- A call made on a trainer after `initialize`: `startSession()` or
`recordAttempt(success)`. -/
inductive TrainerCall where
  | startSession
  | recordAttempt (success : Bool)
  deriving DecidableEq

/-- One call; `none` is an exception raised by the call. -/
def PronounceTrainer.call (s : PronounceTrainer) : TrainerCall → Option PronounceTrainer
  | .startSession => some (PronounceTrainer.startSession s)
  | .recordAttempt success => PronounceTrainer.recordAttempt s success

/-- A sequence of calls, in order; it stops at the first exception. -/
def PronounceTrainer.runCalls (s : PronounceTrainer) : List TrainerCall → Option PronounceTrainer
  | [] => some s
  | c :: calls =>
    match PronounceTrainer.call s c with
    | none => none
    | some s' => PronounceTrainer.runCalls s' calls

/-- The bounds that an active session keeps: the current word exists and the attempt
counter is below the cap. -/
def PronounceTrainer.InBounds (s : PronounceTrainer) : Prop :=
  s.sessionActive = true →
    s.currentWordIndex < s.difficultList.length ∧ s.currentAttempt < s.attemptsPerWord

/-- A state on which stutter detection has nothing left to do: every adjacent pair that
passes one of the two tests has both items marked and a record for its later word. -/
def Settled (s : SpeechRecognitionManager) : Prop :=
  ∀ m p c, s.transcript[m]? = some p → s.transcript[m + 1]? = some c →
    stutterPair p c = true →
    p.status = Status.stutter ∧ c.status = Status.stutter ∧
      ∃ r ∈ s.difficultList, r.word = cleaned c.word

/-! ## `getRandomPracticeWords` (script.js, lines 555-580) -/

/-- A value passed to `getSoundForWord`: a string, or an element `{ word, sound,
pronunciation }` of the array that `getAllExampleWords()` returns. -/
inductive WordValue where
  | str (s : JsString)
  | obj (ew : ExampleWord)
  deriving DecidableEq

/-- An exception raised by the code. -/
inductive JsError where
  | typeError
  deriving DecidableEq

/-- The record pushed by `getRandomPracticeWords`; its `word` is the array element itself. -/
structure PracticeRecord where
  word : WordValue
  sound : JsString
  pronunciation : JsString
  type : JsString
  deriving DecidableEq

/-- The function `getSoundForWord(word)` on any value: its loop evaluates
`word.toLowerCase()` for the first category, which raises a `TypeError` when `word` is an
object, an object having no method `toLowerCase`. -/
def getSoundForWordValue (word : WordValue) : Except JsError (Option SoundInfo) :=
  match word with
  | .str s => .ok (getSoundForWord s)
  | .obj _ =>
    match pronunciationData with
    | [] => .ok none
    | _ :: _ => .error JsError.typeError

/-- The loop `for (let i = 0; i < Math.min(count, shuffled.length); i++)` of
`getRandomPracticeWords`, from the elements of `shuffled` that are left and the number of
iterations that `count` still allows. -/
def practiceLoop : List ExampleWord → Nat → List PracticeRecord →
    Except JsError (List PracticeRecord)
  | [], _, selectedWords => .ok selectedWords
  | _ :: _, 0, selectedWords => .ok selectedWords
  | word :: rest, count + 1, selectedWords =>
    match getSoundForWordValue (.obj word) with
    | .error e => .error e
    | .ok soundCategory =>
      practiceLoop rest count (selectedWords ++
        [{ word := .obj word
           sound := match soundCategory with
             | some info => info.sound
             | none => "/unknown/".toList
           pronunciation := match soundCategory with
             | some info => info.pronunciation
             | none => "Practice pronunciation".toList
           type := "practice".toList }])

/-- The function `getRandomPracticeWords(count)`; `shuffled` is the array
`getAllExampleWords()` as the call `sort(() => 0.5 - Math.random())` has reordered it. -/
def getRandomPracticeWords (shuffled : List ExampleWord) (count : Nat) :
    Except JsError (List PracticeRecord) :=
  practiceLoop shuffled count []

/-! ## What `processTranscriptSegment` is to do with each token -/

/-- The outcome of one token that gets a transcript item: the status of the item, the
record added to the difficult list if any, and whether a random draw was used. -/
structure TokenOutcome where
  status : Status
  record : Option WordRecord
  drew : Bool
  deriving DecidableEq

/-- The outcome prescribed for the token `token` when `r` is the next random draw; `none`
when the token gets no item, its cleaned form being empty. A token whose cleaned form is a
dataset example word is incorrect iff `r > 0.6`, else correct, and on incorrect it gets a
record of type pronunciation with the sound of the first dataset entry for that word. A
token outside the dataset with a cleaned form longer than 3 is incorrect iff `r > 0.85`,
else neutral, and on incorrect it gets a record of type general (with the sound that
`closestSound` resolves from its first letter). Every other token is neutral, adds no record
and uses no draw. -/
def tokenOutcome (token : JsString) (r : ℚ) : Option TokenOutcome :=
  if cleaned token = [] then none
  else
    match getAllExampleWords.find? (fun ew => ew.word = cleaned token) with
    | some entry =>
      if r > 6 / 10 then
        some { status := Status.incorrect
               record := some { word := cleaned token, sound := entry.sound,
                                pronunciation := entry.pronunciation,
                                type := "pronunciation".toList }
               drew := true }
      else some { status := Status.correct, record := none, drew := true }
    | none =>
      if (cleaned token).length > 3 then
        if r > 85 / 100 then
          some { status := Status.incorrect
                 record := some
                   { word := cleaned token
                     sound := match SpeechRecognitionManager.closestSound
                         (charAt (cleaned token) 0) with
                       | some info => info.sound
                       | none => "unknown".toList
                     pronunciation := match SpeechRecognitionManager.closestSound
                         (charAt (cleaned token) 0) with
                       | some info => info.pronunciation
                       | none => "unknown".toList
                     type := "general".toList }
                 drew := true }
        else some { status := Status.neutral, record := none, drew := true }
      else some { status := Status.neutral, record := none, drew := false }

/-- The items and records prescribed for a sequence of tokens, and the number of draws
used afterwards, when `n` draws were used before and `random k` is the `k`-th draw: the
tokens take the draws in token order. -/
def segmentOutcome (random : Nat → ℚ) :
    Nat → List JsString → List TranscriptItem × List WordRecord × Nat
  | n, [] => ([], [], n)
  | n, token :: rest =>
    match tokenOutcome token (random n) with
    | none => segmentOutcome random n rest
    | some o =>
      let tail := segmentOutcome random (if o.drew then n + 1 else n) rest
      ({ word := token, status := o.status } :: tail.1, o.record.toList ++ tail.2.1, tail.2.2)

/-! ## The recognition lifecycle of `SpeechRecognitionManager` (speechRecognition.js) -/

/-- The value of `event.error` of a recognition error event; `other` is any string that
the `switch` of `handleRecognitionError` does not list. -/
inductive ErrorKind where
  | noSpeech
  | aborted
  | audioCapture
  | network
  | notAllowed
  | serviceNotAllowed
  | badGrammar
  | languageNotSupported
  | other (kind : JsString)
  deriving DecidableEq

/-- A callback handed to `setTimeout` and not yet run. -/
inductive Timer where
  | restartAfterEnd
  | restartAfterError
  | analyze
  deriving DecidableEq

/-- A `SpeechRecognitionManager` together with its surroundings: whether the platform
recognition object is started, the pending `setTimeout` callbacks in the order of their
scheduling, the messages handed to `onError`, the statuses handed to `onStatusChange`, and
the numbers of calls of `recognition.start()` and `recognition.stop()`. The listeners are
taken to be registered and not to write to the manager. -/
structure RecognitionSession where
  manager : SpeechRecognitionManager
  platformActive : Bool
  timers : List Timer
  errors : List JsString
  statusChanges : List RecognitionStatus
  recognitionStarts : Nat
  recognitionStops : Nat
  deriving DecidableEq

/-- The message that `handleRecognitionError` chooses for an error kind. -/
def errorMessage : ErrorKind → JsString
  | .noSpeech => "No speech was detected. Please try again.".toList
  | .aborted => "Speech recognition was aborted.".toList
  | .audioCapture => "No microphone was found or microphone is disabled.".toList
  | .network => "Network error occurred. Please check your internet connection.".toList
  | .notAllowed =>
    "Microphone access was not allowed. Please enable microphone access.".toList
  | .serviceNotAllowed => "Speech recognition service is not allowed.".toList
  | .badGrammar => "Error in speech recognition grammar.".toList
  | .languageNotSupported => "The language specified is not supported.".toList
  | .other _ => "An error occurred with the speech recognition.".toList

/-- The flag `canRestart` that `handleRecognitionError` sets for an error kind. -/
def canRestart : ErrorKind → Bool
  | .noSpeech => true
  | .aborted => true
  | .network => true
  | _ => false

namespace RecognitionSession

/-- A manager in a browser that supports speech recognition, listening after `start()` and
the platform event `start`. -/
def listeningSession : RecognitionSession :=
  { manager := { SpeechRecognitionManager.create with
      isListening := true
      currentStatus := RecognitionStatus.listening }
    platformActive := true
    timers := []
    errors := []
    statusChanges := [RecognitionStatus.listening]
    recognitionStarts := 1
    recognitionStops := 0 }

/-- The method `updateStatus(status)`. -/
def updateStatus (rt : RecognitionSession) (status : RecognitionStatus) : RecognitionSession :=
  { rt with
    manager := { rt.manager with currentStatus := status }
    statusChanges := rt.statusChanges ++ [status] }

/-- The platform call `recognition.start()`; `none` is the `InvalidStateError` that the
platform raises when the object is started already. -/
def recognitionStart (rt : RecognitionSession) : Option RecognitionSession :=
  if rt.platformActive then none
  else some { rt with platformActive := true, recognitionStarts := rt.recognitionStarts + 1 }

/-- The handler `recognition.onstart`. -/
def onstart (rt : RecognitionSession) : RecognitionSession :=
  updateStatus { rt with manager := { rt.manager with isListening := true } }
    RecognitionStatus.listening

/-- The handler `recognition.onend`: the restart callback is handed to `setTimeout`, or
else the status goes back to ready. -/
def onend (rt : RecognitionSession) : RecognitionSession :=
  let rt := { rt with manager := { rt.manager with isListening := false } }
  if !rt.manager.manualStop ∧ rt.manager.currentStatus = RecognitionStatus.listening then
    { rt with timers := rt.timers ++ [Timer.restartAfterEnd] }
  else if rt.manager.currentStatus ≠ RecognitionStatus.error ∧
      rt.manager.currentStatus ≠ RecognitionStatus.processing then
    updateStatus rt RecognitionStatus.ready
  else rt

/-- The callback that `onend` hands to `setTimeout`; an exception of `recognition.start()`
ends it before `isListening` is set. -/
def restartAfterEnd (rt : RecognitionSession) : RecognitionSession :=
  if !rt.manager.isListening ∧ !rt.manager.manualStop then
    match recognitionStart rt with
    | none => rt
    | some rt => { rt with manager := { rt.manager with isListening := true } }
  else rt

/-- The method `handleRecognitionError(event)`, for `event.error = kind`. -/
def handleRecognitionError (rt : RecognitionSession) (kind : ErrorKind) : RecognitionSession :=
  let rt := updateStatus rt RecognitionStatus.error
  let rt := { rt with errors := rt.errors ++ [errorMessage kind] }
  if canRestart kind ∧ !rt.manager.manualStop ∧
      rt.manager.currentStatus = RecognitionStatus.listening then
    { rt with timers := rt.timers ++ [Timer.restartAfterError] }
  else rt

/-- The callback that `handleRecognitionError` hands to `setTimeout`; it catches an
exception of `recognition.start()`. -/
def restartAfterError (rt : RecognitionSession) : RecognitionSession :=
  if !rt.manager.isListening ∧ !rt.manager.manualStop then
    let rt := updateStatus rt RecognitionStatus.listening
    match recognitionStart rt with
    | none => rt
    | some rt => rt
  else rt

/-- The method `stop()`, up to the scheduling of its analysis callback. -/
def stop (rt : RecognitionSession) : RecognitionSession :=
  if rt.manager.hasRecognition ∧ rt.manager.isListening then
    let rt := { rt with manager := { rt.manager with manualStop := true } }
    let rt := updateStatus rt RecognitionStatus.processing
    { rt with
      recognitionStops := rt.recognitionStops + 1
      timers := rt.timers ++ [Timer.analyze] }
  else rt

end RecognitionSession

/-- Something that happens to a manager between two calls of `start()`: a platform event
`start`, `end` or `error`, or the run of a pending restart callback. -/
inductive SessionEvent where
  | started
  | ended
  | error (kind : ErrorKind)
  | restartAfterEndFires
  | restartAfterErrorFires
  deriving DecidableEq

namespace RecognitionSession

/-- The effect of one event. With the events `end` and `error` the platform object is no
longer started; a callback runs only if it is pending, and is then no longer pending. -/
def step (rt : RecognitionSession) : SessionEvent → RecognitionSession
  | .started => onstart rt
  | .ended => onend { rt with platformActive := false }
  | .error kind => handleRecognitionError { rt with platformActive := false } kind
  | .restartAfterEndFires =>
    if Timer.restartAfterEnd ∈ rt.timers then
      restartAfterEnd { rt with timers := rt.timers.erase Timer.restartAfterEnd }
    else rt
  | .restartAfterErrorFires =>
    if Timer.restartAfterError ∈ rt.timers then
      restartAfterError { rt with timers := rt.timers.erase Timer.restartAfterError }
    else rt

/-- The effect of a sequence of events, in order. -/
def run (rt : RecognitionSession) (events : List SessionEvent) : RecognitionSession :=
  events.foldl step rt

end RecognitionSession

/-! ## `handleRecognitionResult` (speechRecognition.js, lines 166-193) -/

/-- A recognition result `results[i]`: the transcript of its first alternative,
`results[i][0].transcript`, and its flag `isFinal`. -/
structure RecognitionResult where
  transcript : JsString
  isFinal : Bool
  deriving DecidableEq

/-- A recognition result event `{ resultIndex, results }`. -/
structure ResultEvent where
  resultIndex : Nat
  results : List RecognitionResult
  deriving DecidableEq

namespace SpeechRecognitionManager

/-- The loop of `handleRecognitionResult` over the results that are left: a final result is
processed as a segment, the transcript of any other result is added to
`interimTranscript`. -/
def resultLoop (random : Nat → ℚ) :
    List RecognitionResult → SpeechRecognitionManager → JsString →
      Option (SpeechRecognitionManager × JsString)
  | [], s, interimTranscript => some (s, interimTranscript)
  | result :: rest, s, interimTranscript =>
    let transcript := trim result.transcript
    if result.isFinal then
      match processTranscriptSegment random s transcript with
      | none => none
      | some s => resultLoop random rest s interimTranscript
    else resultLoop random rest s (interimTranscript ++ [' '] ++ transcript)

/-- The method `handleRecognitionResult(event)`: the new state and, when there is interim
text, the array `[...this.transcript, ...interimItems]` handed to `onTranscriptUpdate`. -/
def handleRecognitionResult (random : Nat → ℚ) (s : SpeechRecognitionManager)
    (event : ResultEvent) :
    Option (SpeechRecognitionManager × Option (List TranscriptItem)) :=
  match resultLoop random (event.results.drop event.resultIndex) s [] with
  | none => none
  | some (s, interimTranscript) =>
    some (s,
      if interimTranscript.length > 0 then
        some (s.transcript ++ (splitWords interimTranscript []).map (fun word =>
          ({ word := word, status := Status.interim } : TranscriptItem)))
      else none)

end SpeechRecognitionManager

/-- The transcript `after` keeps the items of `before`: each of them is still there with
its word, and with its status or the status stutter; and no item after them is interim. -/
def KeepsItems (before after : List TranscriptItem) : Prop :=
  (∀ (m : Nat) (item : TranscriptItem), before[m]? = some item →
    ∃ item' : TranscriptItem, after[m]? = some item' ∧ item'.word = item.word ∧
      (item'.status = item.status ∨ item'.status = Status.stutter)) ∧
  (∀ (m : Nat) (item' : TranscriptItem), before.length ≤ m → after[m]? = some item' →
    item'.status ≠ Status.interim)

/-- A result event with the final segment `the cat sat` followed by the interim text
`on the`. -/
def sampleEvent : ResultEvent :=
  { resultIndex := 0
    results := [{ transcript := "the cat sat".toList, isFinal := true },
                { transcript := " on the ".toList, isFinal := false }] }

/-! ## `generatePracticePlan` on every input: the object `wordsBySound` -/

/-- The property names that every object inherits from `Object.prototype`. -/
def objectPrototypeNames : List JsString :=
  ["constructor".toList, "hasOwnProperty".toList, "isPrototypeOf".toList,
   "propertyIsEnumerable".toList, "toLocaleString".toList, "toString".toList,
   "valueOf".toList, "__defineGetter__".toList, "__defineSetter__".toList,
   "__lookupGetter__".toList, "__lookupSetter__".toList, "__proto__".toList]

/-- The number that a property name denotes when the name is an array index: a decimal
numeral without a leading zero, of a value below `2³² - 1`. -/
def arrayIndex (key : JsString) : Option Nat :=
  let value := key.foldl (fun n c => 10 * n + (c.toNat - 48)) 0
  if key ≠ [] ∧ key.all Char.isDigit = true ∧ (key.head? ≠ some '0' ∨ key = ['0']) ∧
      value < 2 ^ 32 - 1 then some value
  else none

/-- What reading a property of the object `wordsBySound` gives: the array stored under an
own property, a function or object inherited from `Object.prototype`, or `undefined`. -/
inductive PropertyValue where
  | array (words : List JsString)
  | inherited
  | undefined
  deriving DecidableEq

/-- The expression `wordsBySound[key]`, the object being given by its own properties in
creation order. -/
def getProperty (wordsBySound : List (JsString × List JsString)) (key : JsString) :
    PropertyValue :=
  match wordsBySound.find? (fun kv => kv.1 = key) with
  | some kv => PropertyValue.array kv.2
  | none => if key ∈ objectPrototypeNames then PropertyValue.inherited
            else PropertyValue.undefined

/-- The function `Object.keys`: the own property names that are array indices in ascending
numeric order, then the other names in creation order. -/
def objectKeys (wordsBySound : List (JsString × List JsString)) : List JsString :=
  let keys := wordsBySound.map (fun kv => kv.1)
  (keys.filter (fun key => (arrayIndex key).isSome)).insertionSort
      (fun a b => (arrayIndex a).getD 0 ≤ (arrayIndex b).getD 0) ++
    keys.filter (fun key => ¬ (arrayIndex key).isSome)

namespace PronounceTrainer

/-- The body of the grouping loop of `generatePracticePlan` for one word: an array is
created under the sound when reading the sound gives `undefined`, and the word is pushed
onto what reading the sound then gives. An inherited value is truthy and has no method
`push`, so the call raises a `TypeError`. -/
def groupStepExact (wordsBySound : List (JsString × List JsString))
    (wordData : DrillAttemptResult) : Except JsError (List (JsString × List JsString)) :=
  let wordsBySound :=
    match getProperty wordsBySound wordData.sound with
    | PropertyValue.undefined => wordsBySound ++ [(wordData.sound, [])]
    | _ => wordsBySound
  match getProperty wordsBySound wordData.sound with
  | PropertyValue.array _ =>
    Except.ok (wordsBySound.map (fun kv =>
      if kv.1 = wordData.sound then (kv.1, kv.2 ++ [wordData.word]) else kv))
  | _ => Except.error JsError.typeError

/-- The grouping loop `difficultWords.forEach(...)` of `generatePracticePlan`, from the
object built so far. -/
def groupLoopExact : List DrillAttemptResult → List (JsString × List JsString) →
    Except JsError (List (JsString × List JsString))
  | [], wordsBySound => Except.ok wordsBySound
  | wordData :: rest, wordsBySound =>
    match groupStepExact wordsBySound wordData with
    | Except.ok wordsBySound => groupLoopExact rest wordsBySound
    | Except.error e => Except.error e

/-- The method `generatePracticePlan(difficultWords)` on every input; `none` is `null`, and
an error is the exception that ends the call. -/
def generatePracticePlanExact (difficultWords : List DrillAttemptResult) :
    Except JsError (Option PracticePlan) :=
  if difficultWords.length = 0 then Except.ok none
  else
    match groupLoopExact difficultWords [] with
    | Except.error e => Except.error e
    | Except.ok wordsBySound =>
      let sounds := objectKeys wordsBySound
      let schedule := (List.range' 1 5).map (fun day =>
        { day := day
          sounds := (sounds.enum.filter (fun p => p.1 % 5 = (day - 1) % 5)).map (fun p =>
            { sound := p.2
              words := match getProperty wordsBySound p.2 with
                | PropertyValue.array words => words
                | _ => [] }) })
      Except.ok (some { days := 5, schedule := schedule, startDate := none })

end PronounceTrainer

/-- The order in which `Object.keys` lists the sounds of an input: the distinct sounds that
are array indices by ascending number, then the other distinct sounds in first-seen
order. -/
def soundOrder (difficultWords : List DrillAttemptResult) : List JsString :=
  ((firstSeen (difficultWords.map (fun r => r.sound))).filter
      (fun s => (arrayIndex s).isSome)).insertionSort
      (fun a b => (arrayIndex a).getD 0 ≤ (arrayIndex b).getD 0) ++
    (firstSeen (difficultWords.map (fun r => r.sound))).filter
      (fun s => ¬ (arrayIndex s).isSome)

/-- A result whose sound is the property name `constructor`. -/
def sampleInherited : List DrillAttemptResult :=
  [{ word := "think".toList, sound := "constructor".toList, attemptsNeeded := 3,
     spoken := true }]

/-- Two results, the sound of the first being `b` and that of the second `1`. -/
def sampleIndexSound : List DrillAttemptResult :=
  [{ word := "bat".toList, sound := "b".toList, attemptsNeeded := 3, spoken := true },
   { word := "one".toList, sound := "1".toList, attemptsNeeded := 3, spoken := true }]

/-! ## Arrays, cells and loops: basic facts -/

theorem forLoop_inv {σ : Type} (body : Nat → σ → Option σ) (P : Nat → σ → Prop) :
    ∀ (n lo : Nat) (s : σ), P lo s →
      (∀ k t, lo ≤ k → k < lo + n → P k t → ∃ t', body k t = some t' ∧ P (k + 1) t') →
      ∃ s', forLoop body n lo s = some s' ∧ P (lo + n) s' := by
  intro n
  induction n with
  | zero => intro lo s h0 _; exact ⟨s, rfl, by simpa using h0⟩
  | succ n ih =>
    intro lo s h0 hstep
    obtain ⟨t, ht, hP⟩ := hstep lo s (Nat.le_refl _) (by omega) h0
    obtain ⟨s', hs', hP'⟩ := ih (lo + 1) t hP (fun k u hk1 hk2 hPk =>
      hstep k u (by omega) (by omega) hPk)
    refine ⟨s', ?_, ?_⟩
    · simp only [forLoop, ht]; exact hs'
    · have : lo + (n + 1) = lo + 1 + n := by omega
      rw [this]; exact hP'

theorem jsSet_get_self {α : Type} (arr arr' : List α) (i : Nat) (v : α)
    (h : jsSet arr i v = some arr') : arr'[i]? = some v := by
  unfold jsSet at h
  split_ifs at h with h1 h2
  · cases h; simp [List.getElem?_set, h1]
  · cases h; subst h2; simp

theorem jsSet_get_other {α : Type} (arr arr' : List α) (i k : Nat) (v x : α)
    (h : jsSet arr i v = some arr') (hk : k ≠ i) (hx : arr[k]? = some x) : arr'[k]? = some x := by
  unfold jsSet at h
  split_ifs at h with h1 h2
  · cases h; rw [List.getElem?_set_ne (Ne.symm hk)]; exact hx
  · cases h
    have hlt : k < arr.length := by
      by_contra hc
      rw [List.getElem?_eq_none (by omega)] at hx
      cases hx
    rw [List.getElem?_append_left hlt]; exact hx

theorem jsSet_isSome {α : Type} (arr : List α) (i : Nat) (v : α) (h : i ≤ arr.length) :
    ∃ arr', jsSet arr i v = some arr' := by
  unfold jsSet
  split_ifs with h1 h2
  · exact ⟨_, rfl⟩
  · exact ⟨_, rfl⟩
  · omega

theorem getCell_setCell_self (m m' : Matrix) (i j v : Nat) (h : setCell m i j v = some m') :
    getCell m' i j = some v := by
  unfold setCell at h
  cases hrow : m[i]? with
  | none => simp [hrow] at h
  | some row =>
    simp only [hrow] at h
    cases hset : jsSet row j v with
    | none => simp [hset] at h
    | some row' =>
      simp only [hset, Option.some.injEq] at h
      subst h
      have hi : i < m.length := by
        by_contra hc
        rw [List.getElem?_eq_none (by omega)] at hrow
        cases hrow
      unfold getCell
      simp only [List.getElem?_set, hi, if_true]
      exact jsSet_get_self row row' j v hset

theorem getCell_setCell_other (m m' : Matrix) (i j v i' j' x : Nat)
    (h : setCell m i j v = some m') (hne : i' ≠ i ∨ j' ≠ j) (hx : getCell m i' j' = some x) :
    getCell m' i' j' = some x := by
  unfold setCell at h
  cases hrow : m[i]? with
  | none => simp [hrow] at h
  | some row =>
    simp only [hrow] at h
    cases hset : jsSet row j v with
    | none => simp [hset] at h
    | some row' =>
      simp only [hset, Option.some.injEq] at h
      subst h
      have hi : i < m.length := by
        by_contra hc
        rw [List.getElem?_eq_none (by omega)] at hrow
        cases hrow
      unfold getCell at hx ⊢
      by_cases hii : i' = i
      · subst hii
        simp only [List.getElem?_set, hi, if_true]
        simp only [hrow] at hx
        have hj : j' ≠ j := by
          rcases hne with h1 | h1
          · exact absurd rfl h1
          · exact h1
        exact jsSet_get_other row row' j j' v x hset hj hx
      · rw [List.getElem?_set_ne (Ne.symm hii)]; exact hx

theorem setCell_isSome (m : Matrix) (i j v x : Nat) (hj : 1 ≤ j)
    (h : getCell m i (j - 1) = some x) : ∃ m', setCell m i j v = some m' := by
  unfold getCell at h
  unfold setCell
  cases hrow : m[i]? with
  | none => simp [hrow] at h
  | some row =>
    simp only [hrow] at h
    have hlt : j - 1 < row.length := by
      by_contra hc
      rw [List.getElem?_eq_none (by omega)] at h
      cases h
    obtain ⟨row', hrow'⟩ := jsSet_isSome row j v (by omega)
    exact ⟨m.set i row', by simp [hrow']⟩


theorem table_succ_succ (cell : Nat → Nat → Nat → Nat → Nat → Nat) (i j : Nat) :
    table cell (i + 1) (j + 1) =
      cell (i + 1) (j + 1) (table cell i (j + 1)) (table cell (i + 1) j) (table cell i j) := by
  rw [table]

theorem table_zero_left (cell : Nat → Nat → Nat → Nat → Nat → Nat) (j : Nat) :
    table cell 0 j = j := by
  rw [table]

theorem table_zero_right (cell : Nat → Nat → Nat → Nat → Nat → Nat) (i : Nat) :
    table cell i 0 = i := by
  cases i with
  | zero => rw [table]
  | succ i => rw [table]

/-- One iteration of the inner loop writes the next cell of the table. -/
theorem Filled_step (cell : Nat → Nat → Nat → Nat → Nat → Nat)
    (body : Nat → Nat → Matrix → Option Matrix) (R C i j : Nat) (m : Matrix)
    (hbody : ∀ i j m up left diag, getCell m (i - 1) j = some up →
      getCell m i (j - 1) = some left → getCell m (i - 1) (j - 1) = some diag →
      body i j m = setCell m i j (cell i j up left diag))
    (hi1 : 1 ≤ i) (hiR : i ≤ R) (hj1 : 1 ≤ j) (hjC : j ≤ C) (hm : Filled cell R C i j m) :
    ∃ m', body i j m = some m' ∧ Filled cell R C i (j + 1) m' := by
  have hup := hm (i - 1) j (by omega) hjC (by omega)
  have hleft := hm i (j - 1) hiR (by omega) (by omega)
  have hdiag := hm (i - 1) (j - 1) (by omega) (by omega) (by omega)
  obtain ⟨m', hm'⟩ := setCell_isSome m i j
    (cell i j (table cell (i - 1) j) (table cell i (j - 1)) (table cell (i - 1) (j - 1)))
    _ hj1 hleft
  refine ⟨m', ?_, ?_⟩
  · rw [hbody i j m _ _ _ hup hleft hdiag]; exact hm'
  · intro i' j' hi' hj' hdone
    by_cases hij : i' = i ∧ j' = j
    · obtain ⟨rfl, rfl⟩ := hij
      rw [getCell_setCell_self m m' _ _ _ hm']
      obtain ⟨i0, rfl⟩ : ∃ i0, i' = i0 + 1 := ⟨i' - 1, by omega⟩
      obtain ⟨j0, rfl⟩ : ∃ j0, j' = j0 + 1 := ⟨j' - 1, by omega⟩
      rw [table_succ_succ]
      simp
    · have hne : i' ≠ i ∨ j' ≠ j := by
        by_cases h1 : i' = i
        · right; intro h2; exact hij ⟨h1, h2⟩
        · left; exact h1
      apply getCell_setCell_other m m' i j _ i' j' _ hm' hne
      apply hm i' j' hi' hj'
      omega

/-- The nested loops fill every cell with the value of `table cell`. -/
theorem fill_correct (cell : Nat → Nat → Nat → Nat → Nat → Nat)
    (body : Nat → Nat → Matrix → Option Matrix) (R C : Nat) (m : Matrix)
    (hbody : ∀ i j m up left diag, getCell m (i - 1) j = some up →
      getCell m i (j - 1) = some left → getCell m (i - 1) (j - 1) = some diag →
      body i j m = setCell m i j (cell i j up left diag))
    (hrow : ∀ j, j ≤ C → getCell m 0 j = some j)
    (hcol : ∀ i, i ≤ R → getCell m i 0 = some i) :
    ∃ m', forLoop (fun i m => forLoop (fun j m => body i j m) C 1 m) R 1 m = some m' ∧
      ∀ i j, i ≤ R → j ≤ C → getCell m' i j = some (table cell i j) := by
  have h0 : Filled cell R C 1 1 m := by
    intro i' j' hi' hj' hdone
    by_cases hz : i' = 0
    · subst hz; rw [table_zero_left]; exact hrow j' hj'
    · have hj0 : j' = 0 := by omega
      subst hj0; rw [table_zero_right]; exact hcol i' hi'
  obtain ⟨m', hm', hF⟩ := forLoop_inv (fun i m => forLoop (fun j m => body i j m) C 1 m)
    (fun i m => Filled cell R C i 1 m) R 1 m h0 (by
      intro i t hi1 hiR ht
      obtain ⟨t', ht', hF'⟩ := forLoop_inv (fun j m => body i j m)
        (fun j m => Filled cell R C i j m) C 1 t ht (by
          intro j u hj1 hjC hu
          exact Filled_step cell body R C i j u hbody hi1 (by omega) hj1 (by omega) hu)
      refine ⟨t', ht', ?_⟩
      intro i' j' hi' hj' hdone
      apply hF' i' j' hi' hj'
      omega)
  refine ⟨m', hm', ?_⟩
  intro i j hi hj
  apply hF i j hi hj
  omega


theorem setCell_isSome_of_get (m : Matrix) (i j v x : Nat) (h : getCell m i j = some x) :
    ∃ m', setCell m i j v = some m' := by
  unfold getCell at h
  unfold setCell
  cases hrow : m[i]? with
  | none => simp [hrow] at h
  | some row =>
    simp only [hrow] at h
    have hlt : j < row.length := by
      by_contra hc
      rw [List.getElem?_eq_none (by omega)] at h
      cases h
    obtain ⟨row', hrow'⟩ := jsSet_isSome row j v (by omega)
    exact ⟨m.set i row', by simp [hrow']⟩

/-- The loop `for (j = 0; j <= C; j++) matrix[0][j] = j` sets the first row and keeps the
first column. -/
theorem rowLoop_correct (R C : Nat) (m : Matrix)
    (h00 : ∃ x, getCell m 0 0 = some x)
    (hcol : ∀ i, 1 ≤ i → i ≤ R → getCell m i 0 = some i) :
    ∃ m', forLoop (fun j m => setCell m 0 j j) (C + 1) 0 m = some m' ∧
      (∀ j, j ≤ C → getCell m' 0 j = some j) ∧ (∀ i, i ≤ R → getCell m' i 0 = some i) := by
  obtain ⟨m', hm', hP⟩ := forLoop_inv (fun j m => setCell m 0 j j)
    (fun k m => (∃ x, getCell m 0 0 = some x) ∧
      (∀ i, 1 ≤ i → i ≤ R → getCell m i 0 = some i) ∧ (∀ j, j < k → getCell m 0 j = some j))
    (C + 1) 0 m ⟨h00, hcol, fun j hj => absurd hj (Nat.not_lt_zero j)⟩ (by
      intro k t _ _ ht
      obtain ⟨⟨x, hx⟩, htc, htr⟩ := ht
      have hsome : ∃ t', setCell t 0 k k = some t' := by
        by_cases hk : k = 0
        · subst hk; exact setCell_isSome_of_get t 0 0 0 x hx
        · exact setCell_isSome t 0 k k (k - 1) (by omega) (htr (k - 1) (by omega))
      obtain ⟨t', ht'⟩ := hsome
      refine ⟨t', ht', ?_, ?_, ?_⟩
      · by_cases hk : k = 0
        · subst hk; exact ⟨0, getCell_setCell_self t t' 0 0 0 ht'⟩
        · exact ⟨x, getCell_setCell_other t t' 0 k k 0 0 x ht' (Or.inr (Ne.symm hk)) hx⟩
      · intro i hi1 hiR
        exact getCell_setCell_other t t' 0 k k i 0 i ht' (Or.inl (by omega)) (htc i hi1 hiR)
      · intro j hj
        by_cases hjk : j = k
        · subst hjk; exact getCell_setCell_self t t' 0 j j ht'
        · exact getCell_setCell_other t t' 0 k k 0 j j ht' (Or.inr hjk) (htr j (by omega)))
  obtain ⟨_, hc, hr⟩ := hP
  refine ⟨m', hm', fun j hj => hr j (by omega), ?_⟩
  intro i hi
  by_cases hz : i = 0
  · subst hz; exact hr 0 (by omega)
  · exact hc i (by omega) hi

theorem getCell_replicate (R C i j : Nat) (hi : i ≤ R) (hj : j ≤ C) :
    getCell (List.replicate (R + 1) (List.replicate (C + 1) 0)) i j = some 0 := by
  unfold getCell
  rw [List.getElem?_replicate]
  simp only [show i < R + 1 by omega, if_true]
  rw [List.getElem?_replicate]
  simp only [show j < C + 1 by omega, if_true]

/-- The loop `for (i = 0; i <= R; i++) matrix[i][0] = i` on the zero-filled matrix of
`PronounceTrainer.compareWordsRoughly`. -/
theorem PronounceTrainer.trainer_colLoop_correct (R C : Nat) :
    ∃ m', forLoop (fun i m => setCell m i 0 i) (R + 1) 0
        (List.replicate (R + 1) (List.replicate (C + 1) 0)) = some m' ∧
      (∀ i, i ≤ R → getCell m' i 0 = some i) := by
  obtain ⟨m', hm', hP⟩ := forLoop_inv (fun i m => setCell m i 0 i)
    (fun k m => (∀ i, i ≤ R → ∃ x, getCell m i 0 = some x) ∧
      (∀ i, i < k → getCell m i 0 = some i))
    (R + 1) 0 (List.replicate (R + 1) (List.replicate (C + 1) 0))
    ⟨fun i hi => ⟨0, getCell_replicate R C i 0 hi (Nat.zero_le _)⟩,
      fun i hi => absurd hi (Nat.not_lt_zero i)⟩ (by
      intro k t _ hk ht
      obtain ⟨hdef, hdone⟩ := ht
      obtain ⟨x, hx⟩ := hdef k (by omega)
      obtain ⟨t', ht'⟩ := setCell_isSome_of_get t k 0 k x hx
      refine ⟨t', ht', ?_, ?_⟩
      · intro i hi
        by_cases hik : i = k
        · subst hik; exact ⟨i, getCell_setCell_self t t' i 0 i ht'⟩
        · obtain ⟨y, hy⟩ := hdef i hi
          exact ⟨y, getCell_setCell_other t t' k 0 k i 0 y ht' (Or.inl hik) hy⟩
      · intro i hi
        by_cases hik : i = k
        · subst hik; exact getCell_setCell_self t t' i 0 i ht'
        · exact getCell_setCell_other t t' k 0 k i 0 i ht' (Or.inl hik) (hdone i (by omega)))
  exact ⟨m', hm', fun i hi => hP.2 i (by omega)⟩

/-- The loop `for (i = 0; i <= R; i++) matrix[i] = [i]` on the empty array of
`SimpleDrillingSession.levenshteinDistance`. -/
theorem SimpleDrillingSession.simple_colLoop_correct (R : Nat) :
    ∃ m', forLoop (fun i (m : Matrix) => jsSet m i [i]) (R + 1) 0 ([] : Matrix) = some m' ∧
      (∀ i, i ≤ R → getCell m' i 0 = some i) := by
  obtain ⟨m', hm', hP⟩ := forLoop_inv (fun i (m : Matrix) => jsSet m i [i])
    (fun k m => m.length = k ∧ (∀ i, i < k → m[i]? = some [i]))
    (R + 1) 0 ([] : Matrix) ⟨rfl, fun i hi => absurd hi (Nat.not_lt_zero i)⟩ (by
      intro k t _ _ ht
      obtain ⟨hlen, hdone⟩ := ht
      obtain ⟨t', ht'⟩ := jsSet_isSome t k [k] (by omega)
      refine ⟨t', ht', ?_, ?_⟩
      · unfold jsSet at ht'
        simp only [hlen, Nat.lt_irrefl, if_false, if_true, Option.some.injEq] at ht'
        subst ht'; simp [hlen]
      · intro i hi
        by_cases hik : i = k
        · subst hik; exact jsSet_get_self t t' i [i] ht'
        · exact jsSet_get_other t t' k i [k] [i] ht' hik (hdone i (by omega)))
  refine ⟨m', hm', ?_⟩
  intro i hi
  unfold getCell
  rw [hP.2 i (by omega)]
  rfl


/-- A cell rule that never exceeds `diag + 1` keeps the table below `max i j`. -/
theorem table_le_max (cell : Nat → Nat → Nat → Nat → Nat → Nat)
    (hcell : ∀ i j up left diag, cell i j up left diag ≤ diag + 1) :
    ∀ i j, table cell i j ≤ max i j := by
  intro i
  induction i with
  | zero => intro j; rw [table_zero_left]; exact le_max_right 0 j
  | succ i ih =>
    intro j
    cases j with
    | zero => rw [table_zero_right]; exact le_max_left (i + 1) 0
    | succ j =>
      rw [table_succ_succ]
      have h1 := hcell (i + 1) (j + 1) (table cell i (j + 1)) (table cell (i + 1) j)
        (table cell i j)
      have h2 := ih j
      have h3 : max (i + 1) (j + 1) = max i j + 1 := by omega
      omega

theorem PronounceTrainer.trainer_cellRule_le (str1 str2 : JsString) (i j up left diag : Nat) :
    PronounceTrainer.cellRule str1 str2 i j up left diag ≤ diag + 1 := by
  unfold PronounceTrainer.cellRule
  split_ifs <;> omega

theorem SimpleDrillingSession.simple_cellRule_le (str1 str2 : JsString) (i j up left diag : Nat) :
    SimpleDrillingSession.cellRule str1 str2 i j up left diag ≤ diag + 1 := by
  unfold SimpleDrillingSession.cellRule
  split_ifs <;> omega

/-- The three loops of `PronounceTrainer.compareWordsRoughly` end with every cell holding
the value of the table of its cell rule. -/
theorem PronounceTrainer.trainer_levMatrix_correct (str1 str2 : JsString) :
    ∃ m, PronounceTrainer.levMatrix str1 str2 = some m ∧
      ∀ i j, i ≤ str1.length → j ≤ str2.length →
        getCell m i j = some (table (PronounceTrainer.cellRule str1 str2) i j) := by
  obtain ⟨m1, hm1, hc1⟩ := PronounceTrainer.trainer_colLoop_correct str1.length str2.length
  obtain ⟨m2, hm2, hr2, hc2⟩ := rowLoop_correct str1.length str2.length m1
    ⟨0, hc1 0 (Nat.zero_le _)⟩ (fun i _ hi => hc1 i hi)
  obtain ⟨m3, hm3, hfill⟩ := fill_correct (PronounceTrainer.cellRule str1 str2)
    (PronounceTrainer.levCell str1 str2) str1.length str2.length m2 (by
      intro i j m up left diag hup hleft hdiag
      simp only [PronounceTrainer.levCell, hup, hleft, hdiag, PronounceTrainer.cellRule])
    hr2 hc2
  refine ⟨m3, ?_, hfill⟩
  simp only [PronounceTrainer.levMatrix, hm1, hm2]
  exact hm3

/-- The three loops of `SimpleDrillingSession.levenshteinDistance` end with every cell
holding the value of the table of its cell rule. -/
theorem SimpleDrillingSession.simple_levMatrix_correct (str1 str2 : JsString) :
    ∃ m, SimpleDrillingSession.levMatrix str1 str2 = some m ∧
      ∀ i j, i ≤ str2.length → j ≤ str1.length →
        getCell m i j = some (table (SimpleDrillingSession.cellRule str1 str2) i j) := by
  obtain ⟨m1, hm1, hc1⟩ := SimpleDrillingSession.simple_colLoop_correct str2.length
  obtain ⟨m2, hm2, hr2, hc2⟩ := rowLoop_correct str2.length str1.length m1
    ⟨0, hc1 0 (Nat.zero_le _)⟩ (fun i _ hi => hc1 i hi)
  obtain ⟨m3, hm3, hfill⟩ := fill_correct (SimpleDrillingSession.cellRule str1 str2)
    (SimpleDrillingSession.levCell str1 str2) str2.length str1.length m2 (by
      intro i j m up left diag hup hleft hdiag
      simp only [SimpleDrillingSession.levCell, hup, hleft, hdiag,
        SimpleDrillingSession.cellRule]
      split_ifs <;> rfl)
    hr2 hc2
  refine ⟨m3, ?_, hfill⟩
  simp only [SimpleDrillingSession.levMatrix, hm1, hm2]
  exact hm3

/-- The method `levenshteinDistance` always returns a number: the corner of the table. -/
theorem SimpleDrillingSession.levenshteinDistance_eq (str1 str2 : JsString) :
    SimpleDrillingSession.levenshteinDistance str1 str2 =
      some (table (SimpleDrillingSession.cellRule str1 str2) str2.length str1.length) := by
  obtain ⟨m, hm, hfill⟩ := SimpleDrillingSession.simple_levMatrix_correct str1 str2
  simp only [SimpleDrillingSession.levenshteinDistance, hm]
  exact hfill _ _ (Nat.le_refl _) (Nat.le_refl _)


/-- The method `includes` decides whether `t` is a contiguous substring of `s`. -/
theorem includes_iff_substring (s t : JsString) : includes s t = true ↔ t <:+: s := by
  unfold includes
  rw [List.any_eq_true, List.infix_iff_prefix_suffix]
  constructor
  · rintro ⟨u, hu, hp⟩
    exact ⟨u, List.isPrefixOf_iff_prefix.mp hp, (List.mem_tails u s).mp hu⟩
  · rintro ⟨u, hp, hu⟩
    exact ⟨u, (List.mem_tails u s).mpr hu, List.isPrefixOf_iff_prefix.mpr hp⟩

theorem includes_nil (s : JsString) : includes s [] = true :=
  (includes_iff_substring s []).mpr List.nil_infix

/-- The substring shortcut of `PronounceTrainer.compareWordsRoughly`. -/
theorem PronounceTrainer.compareWordsRoughly_of_includes (str1 str2 : JsString)
    (h1 : str1 ≠ []) (h2 : str2 ≠ []) (hne : str1 ≠ str2) (hinc : includes str2 str1 = true) :
    PronounceTrainer.compareWordsRoughly str1 str2 = some (9 / 10) := by
  have hl1 : str1.length ≠ 0 := fun h => h1 (List.length_eq_zero.mp h)
  have hl2 : str2.length ≠ 0 := fun h => h2 (List.length_eq_zero.mp h)
  unfold PronounceTrainer.compareWordsRoughly
  rw [if_neg (by simp [hl1, hl2]), if_neg hne, if_pos hinc]

/-- The edit-distance branch of `PronounceTrainer.compareWordsRoughly`. -/
theorem PronounceTrainer.trainer_compareWordsRoughly_of_distance (str1 str2 : JsString)
    (h1 : str1 ≠ []) (h2 : str2 ≠ []) (hne : str1 ≠ str2) (hinc : includes str2 str1 = false) :
    PronounceTrainer.compareWordsRoughly str1 str2 =
      some (1 - (table (PronounceTrainer.cellRule str1 str2) str1.length str2.length : ℚ) /
        ((max str1.length str2.length : Nat) : ℚ)) := by
  have hl1 : str1.length ≠ 0 := fun h => h1 (List.length_eq_zero.mp h)
  have hl2 : str2.length ≠ 0 := fun h => h2 (List.length_eq_zero.mp h)
  obtain ⟨m, hm, hfill⟩ := PronounceTrainer.trainer_levMatrix_correct str1 str2
  have hd := hfill str1.length str2.length (Nat.le_refl _) (Nat.le_refl _)
  have hmax : max str1.length str2.length > 0 := by omega
  unfold PronounceTrainer.compareWordsRoughly
  rw [if_neg (by simp [hl1, hl2]), if_neg hne, if_neg (by simp [hinc])]
  simp only [hm, hd, hmax, if_true]

/-- The edit-distance branch of `SimpleDrillingSession.compareWordsRoughly`. -/
theorem SimpleDrillingSession.simple_compareWordsRoughly_of_distance (str1 str2 : JsString)
    (hne : str1 ≠ str2)
    (hinc : includes (if str1.length > str2.length then str1 else str2)
      (if str1.length > str2.length then str2 else str1) = false) :
    SimpleDrillingSession.compareWordsRoughly str1 str2 =
      some ((((max str1.length str2.length : Nat) : ℚ) -
          (table (SimpleDrillingSession.cellRule str1 str2) str2.length str1.length : ℚ)) /
        ((max str1.length str2.length : Nat) : ℚ)) := by
  have hlonger : (if str1.length > str2.length then str1 else str2).length =
      max str1.length str2.length := by
    split_ifs with h
    · exact (max_eq_left (by omega)).symm
    · exact (max_eq_right (by omega)).symm
  have hpos : max str1.length str2.length ≠ 0 := by
    intro h0
    have ha : str1.length = 0 := by omega
    have hb : str2.length = 0 := by omega
    rw [List.length_eq_zero] at ha hb
    exact hne (ha.trans hb.symm)
  unfold SimpleDrillingSession.compareWordsRoughly
  rw [if_neg hne]
  simp only [hlonger, hpos, if_false, hinc, SimpleDrillingSession.levenshteinDistance_eq]
  simp

theorem unit_interval_of_le (d n : Nat) (hn : 0 < n) (hd : d ≤ n) :
    (0 : ℚ) ≤ 1 - (d : ℚ) / (n : ℚ) ∧ 1 - (d : ℚ) / (n : ℚ) ≤ 1 := by
  have hn' : (0 : ℚ) < (n : ℚ) := by exact_mod_cast hn
  have hd' : (d : ℚ) ≤ (n : ℚ) := by exact_mod_cast hd
  have h0 : (0 : ℚ) ≤ (d : ℚ) / (n : ℚ) := div_nonneg (by positivity) (le_of_lt hn')
  have h1 : (d : ℚ) / (n : ℚ) ≤ 1 := (div_le_one hn').mpr hd'
  constructor <;> linarith


/-! ## The similarity scorers: range, empty strings, identity, substring shortcut -/

/-- The edit distance computed by `PronounceTrainer.compareWordsRoughly` never exceeds the
length of the longer string. -/
theorem PronounceTrainer.trainer_distance_le (str1 str2 : JsString) :
    table (PronounceTrainer.cellRule str1 str2) str1.length str2.length ≤
      max str1.length str2.length :=
  table_le_max _ (PronounceTrainer.trainer_cellRule_le str1 str2) _ _

/-- The edit distance computed by `SimpleDrillingSession.levenshteinDistance` never exceeds
the length of the longer string. -/
theorem SimpleDrillingSession.simple_distance_le (str1 str2 : JsString) :
    table (SimpleDrillingSession.cellRule str1 str2) str2.length str1.length ≤
      max str1.length str2.length := by
  have h := table_le_max _ (SimpleDrillingSession.simple_cellRule_le str1 str2)
    str2.length str1.length
  rw [max_comm] at h
  exact h

/-- `PronounceTrainer.compareWordsRoughly` returns a number between 0 and 1. -/
theorem PronounceTrainer.trainer_compare_range (a b : JsString) :
    ∃ q, PronounceTrainer.compareWordsRoughly a b = some q ∧ 0 ≤ q ∧ q ≤ 1 := by
  by_cases h1 : a = []
  · exact ⟨0, by simp [PronounceTrainer.compareWordsRoughly, h1], le_refl _, zero_le_one⟩
  by_cases h2 : b = []
  · exact ⟨0, by simp [PronounceTrainer.compareWordsRoughly, h2], le_refl _, zero_le_one⟩
  have hl1 : a.length ≠ 0 := fun h => h1 (List.length_eq_zero.mp h)
  have hl2 : b.length ≠ 0 := fun h => h2 (List.length_eq_zero.mp h)
  by_cases hne : a = b
  · refine ⟨1, ?_, zero_le_one, le_refl _⟩
    unfold PronounceTrainer.compareWordsRoughly
    rw [if_neg (by simp [hl1, hl2]), if_pos hne]
  cases hinc : includes b a with
  | true =>
    exact ⟨9 / 10, PronounceTrainer.compareWordsRoughly_of_includes a b h1 h2 hne hinc,
      by norm_num, by norm_num⟩
  | false =>
    refine ⟨_, PronounceTrainer.trainer_compareWordsRoughly_of_distance a b h1 h2 hne hinc, ?_⟩
    exact unit_interval_of_le _ _ (by omega) (PronounceTrainer.trainer_distance_le a b)

/-- `SimpleDrillingSession.compareWordsRoughly` returns a number between 0 and 1. -/
theorem SimpleDrillingSession.simple_compare_range (a b : JsString) :
    ∃ q, SimpleDrillingSession.compareWordsRoughly a b = some q ∧ 0 ≤ q ∧ q ≤ 1 := by
  by_cases hne : a = b
  · exact ⟨1, by simp [SimpleDrillingSession.compareWordsRoughly, hne], zero_le_one, le_refl _⟩
  have hpos : 0 < max a.length b.length := by
    by_contra h0
    have ha : a.length = 0 := by omega
    have hb : b.length = 0 := by omega
    rw [List.length_eq_zero] at ha hb
    exact hne (ha.trans hb.symm)
  cases hinc : includes (if a.length > b.length then a else b)
      (if a.length > b.length then b else a) with
  | true =>
    refine ⟨4 / 5, ?_, by norm_num, by norm_num⟩
    have hlonger : (if a.length > b.length then a else b).length ≠ 0 := by
      split_ifs with h <;> omega
    unfold SimpleDrillingSession.compareWordsRoughly
    rw [if_neg hne]
    simp only [hlonger, if_false, hinc, if_true]
  | false =>
    refine ⟨_, SimpleDrillingSession.simple_compareWordsRoughly_of_distance a b hne hinc, ?_⟩
    have hd := SimpleDrillingSession.simple_distance_le a b
    have hn : (0 : ℚ) < ((max a.length b.length : Nat) : ℚ) := by exact_mod_cast hpos
    have hd' : (table (SimpleDrillingSession.cellRule a b) b.length a.length : ℚ) ≤
        ((max a.length b.length : Nat) : ℚ) := by exact_mod_cast hd
    constructor
    · apply div_nonneg _ (le_of_lt hn)
      linarith
    · rw [div_le_one hn]
      have : (0 : ℚ) ≤ (table (SimpleDrillingSession.cellRule a b) b.length a.length : ℚ) := by
        positivity
      linarith

/-- Claim C7: for every pair of strings both `compareWordsRoughly` methods return a number in
the closed interval from 0 to 1, and the edit distance each of them computes is at most the
length of the longer string. -/
theorem compareWordsRoughly_in_unit_interval (a b : JsString) :
    (∃ q, PronounceTrainer.compareWordsRoughly a b = some q ∧ 0 ≤ q ∧ q ≤ 1) ∧
    (∃ q, SimpleDrillingSession.compareWordsRoughly a b = some q ∧ 0 ≤ q ∧ q ≤ 1) ∧
    (∃ m d, PronounceTrainer.levMatrix a b = some m ∧
      getCell m a.length b.length = some d ∧ d ≤ max a.length b.length) ∧
    (∃ d, SimpleDrillingSession.levenshteinDistance a b = some d ∧
      d ≤ max a.length b.length) := by
  refine ⟨PronounceTrainer.trainer_compare_range a b,
    SimpleDrillingSession.simple_compare_range a b, ?_, ?_⟩
  · obtain ⟨m, hm, hfill⟩ := PronounceTrainer.trainer_levMatrix_correct a b
    exact ⟨m, _, hm, hfill _ _ (Nat.le_refl _) (Nat.le_refl _),
      PronounceTrainer.trainer_distance_le a b⟩
  · exact ⟨_, SimpleDrillingSession.levenshteinDistance_eq a b,
      SimpleDrillingSession.simple_distance_le a b⟩

/-- Claim C8, as the code has it: `PronounceTrainer.compareWordsRoughly` returns 0 whenever
one of its arguments is the empty string, while `SimpleDrillingSession.compareWordsRoughly`
has no such guard and returns 1 for two empty strings. -/
theorem compareWordsRoughly_empty (s : JsString) :
    PronounceTrainer.compareWordsRoughly [] s = some 0 ∧
    PronounceTrainer.compareWordsRoughly s [] = some 0 ∧
    SimpleDrillingSession.compareWordsRoughly [] [] = some 1 := by
  refine ⟨?_, ?_, ?_⟩
  · simp [PronounceTrainer.compareWordsRoughly]
  · simp [PronounceTrainer.compareWordsRoughly]
  · simp [SimpleDrillingSession.compareWordsRoughly]

/-- Claim C8 fails for `SimpleDrillingSession`: the similarity of the empty string with
itself is 1, and with the string `cat` it is 4/5 in either order, never 0. -/
theorem compareWordsRoughly_empty_counterexample :
    SimpleDrillingSession.compareWordsRoughly [] [] = some 1 ∧
    SimpleDrillingSession.compareWordsRoughly [] ['c', 'a', 't'] = some (4 / 5) ∧
    SimpleDrillingSession.compareWordsRoughly ['c', 'a', 't'] [] = some (4 / 5) ∧
    ¬ (∀ s : JsString, SimpleDrillingSession.compareWordsRoughly [] s = some 0 ∧
        SimpleDrillingSession.compareWordsRoughly s [] = some 0) := by
  have h1 : SimpleDrillingSession.compareWordsRoughly [] [] = some 1 := by
    simp [SimpleDrillingSession.compareWordsRoughly]
  refine ⟨h1, ?_, ?_, ?_⟩
  · simp [SimpleDrillingSession.compareWordsRoughly, includes_nil]
  · simp [SimpleDrillingSession.compareWordsRoughly, includes_nil]
  · intro h
    have h2 := (h []).1
    rw [h1] at h2
    exact absurd (Option.some.inj h2) (by norm_num)

/-- Claim C9: for every non-empty string `x` both `compareWordsRoughly` methods return 1 on
the pair `(x, x)`. -/
theorem compareWordsRoughly_self (x : JsString) (hx : x ≠ []) :
    PronounceTrainer.compareWordsRoughly x x = some 1 ∧
    SimpleDrillingSession.compareWordsRoughly x x = some 1 := by
  have hl : x.length ≠ 0 := fun h => hx (List.length_eq_zero.mp h)
  constructor
  · unfold PronounceTrainer.compareWordsRoughly
    rw [if_neg (by simp [hl]), if_pos rfl]
  · unfold SimpleDrillingSession.compareWordsRoughly
    rw [if_pos rfl]

/-- Witness of claim C9 at the word `think`. -/
theorem compareWordsRoughly_self_witness :
    ['t', 'h', 'i', 'n', 'k'] ≠ ([] : JsString) ∧
    PronounceTrainer.compareWordsRoughly ['t', 'h', 'i', 'n', 'k'] ['t', 'h', 'i', 'n', 'k'] =
      some 1 ∧
    SimpleDrillingSession.compareWordsRoughly ['t', 'h', 'i', 'n', 'k']
      ['t', 'h', 'i', 'n', 'k'] = some 1 :=
  ⟨by decide, compareWordsRoughly_self ['t', 'h', 'i', 'n', 'k'] (by decide)⟩

/-- Claim C10: when `a` and `b` are non-empty, differ, and `a` is a contiguous substring of
`b`, `PronounceTrainer.compareWordsRoughly a b` is exactly 9/10. -/
theorem compareWordsRoughly_substring (a b : JsString) (ha : a ≠ []) (hb : b ≠ [])
    (hne : a ≠ b) (hsub : a <:+: b) :
    PronounceTrainer.compareWordsRoughly a b = some (9 / 10) :=
  PronounceTrainer.compareWordsRoughly_of_includes a b ha hb hne
    ((includes_iff_substring b a).mpr hsub)

/-- Witness of claim C10: `compareWordsRoughly("cat", "category")` is 9/10. -/
theorem compareWordsRoughly_substring_witness :
    (['c', 'a', 't'] : JsString) ≠ [] ∧
    (['c', 'a', 't', 'e', 'g', 'o', 'r', 'y'] : JsString) ≠ [] ∧
    (['c', 'a', 't'] : JsString) ≠ ['c', 'a', 't', 'e', 'g', 'o', 'r', 'y'] ∧
    (['c', 'a', 't'] : JsString) <:+: ['c', 'a', 't', 'e', 'g', 'o', 'r', 'y'] ∧
    PronounceTrainer.compareWordsRoughly ['c', 'a', 't']
      ['c', 'a', 't', 'e', 'g', 'o', 'r', 'y'] = some (9 / 10) :=
  ⟨by decide, by decide, by decide, ⟨[], ['e', 'g', 'o', 'r', 'y'], rfl⟩,
    compareWordsRoughly_substring ['c', 'a', 't'] ['c', 'a', 't', 'e', 'g', 'o', 'r', 'y']
      (by decide) (by decide) (by decide) ⟨[], ['e', 'g', 'o', 'r', 'y'], rfl⟩⟩

/-! ## The session logic of `PronounceTrainer`: what each method does to the state -/

namespace PronounceTrainer

/-- The fields of a session that `saveSessionData` leaves alone. -/
theorem saveSessionData_fields (s : PronounceTrainer) (completed : Bool) :
    (saveSessionData s completed).difficultList = s.difficultList ∧
    (saveSessionData s completed).currentWordIndex = s.currentWordIndex ∧
    (saveSessionData s completed).attemptsPerWord = s.attemptsPerWord ∧
    (saveSessionData s completed).currentAttempt = s.currentAttempt ∧
    (saveSessionData s completed).sessionActive = s.sessionActive ∧
    (saveSessionData s completed).sessionResults = s.sessionResults ∧
    (saveSessionData s completed).sessionCompleteEvents = s.sessionCompleteEvents :=
  ⟨rfl, rfl, rfl, rfl, rfl, rfl, rfl⟩

/-- What `completeSession` does to the fields of a session. -/
theorem completeSession_fields (s : PronounceTrainer) :
    (completeSession s).difficultList = s.difficultList ∧
    (completeSession s).currentWordIndex = s.currentWordIndex ∧
    (completeSession s).attemptsPerWord = s.attemptsPerWord ∧
    (completeSession s).currentAttempt = s.currentAttempt ∧
    (completeSession s).sessionActive = false ∧
    (completeSession s).sessionResults = s.sessionResults ∧
    (completeSession s).sessionCompleteEvents =
      s.sessionCompleteEvents ++ [sessionSummary s.sessionResults] :=
  ⟨rfl, rfl, rfl, rfl, rfl, rfl, rfl⟩

/-- What `nextWord` does when the current word exists. -/
theorem nextWord_spec (s : PronounceTrainer) (w : WordRecord)
    (hw : s.difficultList[s.currentWordIndex]? = some w) :
    ∃ s', nextWord s = some s' ∧ Advanced s (pushedResult w s.currentAttempt) s' := by
  unfold nextWord Advanced
  simp only [hw]
  refine ⟨_, rfl, ?_⟩
  by_cases hlast : s.currentWordIndex + 1 < s.difficultList.length
  · have hge : ¬ (s.currentWordIndex + 1 ≥ s.difficultList.length) := by omega
    simp only [hge, if_false, trainNextWord, hlast, if_true, decide_True, Bool.and_true]
    exact ⟨rfl, rfl, rfl, rfl, rfl, rfl, rfl, rfl⟩
  · have hge : s.currentWordIndex + 1 ≥ s.difficultList.length := by omega
    simp only [hge, if_true, hlast, if_false, decide_False, Bool.and_false]
    exact ⟨rfl, rfl, rfl, rfl, rfl, rfl, rfl, rfl⟩

/-- Outside a session `recordAttempt` changes nothing. -/
theorem recordAttempt_inactive (s : PronounceTrainer) (success : Bool)
    (hact : s.sessionActive = false) : recordAttempt s success = some s := by
  simp [recordAttempt, hact]

/-- A successful attempt records the current word and advances. -/
theorem recordAttempt_true_spec (s : PronounceTrainer) (w : WordRecord)
    (hact : s.sessionActive = true) (hw : s.difficultList[s.currentWordIndex]? = some w) :
    ∃ s', recordAttempt s true = some s' ∧ Advanced s (pushedResult w s.currentAttempt) s' := by
  obtain ⟨s', hs', hadv⟩ := nextWord_spec { s with hasUserSpoken := true } w hw
  refine ⟨s', ?_, hadv⟩
  have h1 : ¬ ((!s.sessionActive) = true) := by simp [hact]
  simp only [recordAttempt, h1, if_false, if_true]
  exact hs'

/-- A failed attempt below the cap only counts the attempt. -/
theorem recordAttempt_false_retry (s : PronounceTrainer) (hact : s.sessionActive = true)
    (hlt : s.currentAttempt + 1 < s.attemptsPerWord) :
    recordAttempt s false =
      some { s with hasUserSpoken := true, currentAttempt := s.currentAttempt + 1 } := by
  have hge : ¬ (s.currentAttempt + 1 ≥ s.attemptsPerWord) := by omega
  simp [recordAttempt, hact, hge]

/-- A failed attempt that reaches the cap records the current word, with the counter
already incremented, and advances. -/
theorem recordAttempt_false_exhaust (s : PronounceTrainer) (w : WordRecord)
    (hact : s.sessionActive = true) (hge : s.attemptsPerWord ≤ s.currentAttempt + 1)
    (hw : s.difficultList[s.currentWordIndex]? = some w) :
    ∃ s', recordAttempt s false = some s' ∧
      Advanced s (pushedResult w (s.currentAttempt + 1)) s' := by
  obtain ⟨s', hs', hadv⟩ := nextWord_spec
    { s with hasUserSpoken := true, currentAttempt := s.currentAttempt + 1 } w hw
  refine ⟨s', ?_, hadv⟩
  have hge' : s.currentAttempt + 1 ≥ s.attemptsPerWord := hge
  have h1 : ¬ ((!s.sessionActive) = true) := by simp [hact]
  simp only [recordAttempt, h1, if_false, Bool.false_eq_true, hge', if_true]
  exact hs'

theorem recordAttempts_append (xs ys : List Bool) :
    ∀ s : PronounceTrainer, recordAttempts s (xs ++ ys) =
      match recordAttempts s xs with
      | none => none
      | some s' => recordAttempts s' ys := by
  induction xs with
  | nil => intro s; rfl
  | cons x xs ih =>
    intro s
    simp only [List.cons_append, recordAttempts]
    cases recordAttempt s x with
    | none => rfl
    | some s1 => exact ih s1

/-- Driving the current word of an active session, by any outcome, records exactly one
result for it, carrying its word and sound, and advances. -/
theorem driveWord_spec (s : PronounceTrainer) (w : WordRecord) (o : WordOutcome)
    (hact : s.sessionActive = true) (h3 : s.attemptsPerWord = 3) (h0 : s.currentAttempt = 0)
    (hw : s.difficultList[s.currentWordIndex]? = some w) :
    ∃ s' r, recordAttempts s o.attempts = some s' ∧ Advanced s r s' ∧
      r.word = w.word ∧ r.sound = w.sound := by
  have retry : ∀ t : PronounceTrainer, t.sessionActive = true → t.attemptsPerWord = 3 →
      t.currentAttempt + 1 < 3 → recordAttempt t false =
        some { t with hasUserSpoken := true, currentAttempt := t.currentAttempt + 1 } :=
    fun t ha h3' hlt => recordAttempt_false_retry t ha (by omega)
  have step : ∀ (t t' : PronounceTrainer) (b : Bool) (rest : List Bool),
      recordAttempt t b = some t' → recordAttempts t (b :: rest) = recordAttempts t' rest := by
    intro t t' b rest h
    simp only [recordAttempts, h]
  have e1 := retry s hact h3 (by omega)
  have e2 := retry { s with hasUserSpoken := true, currentAttempt := s.currentAttempt + 1 }
    hact h3 (by show s.currentAttempt + 1 + 1 < 3; omega)
  cases o with
  | exhausted =>
    obtain ⟨s', hs', hadv⟩ := recordAttempt_false_exhaust
      { s with hasUserSpoken := true, currentAttempt := s.currentAttempt + 1 + 1 } w hact
      (by show s.attemptsPerWord ≤ s.currentAttempt + 1 + 1 + 1; omega) hw
    exact ⟨s', _, (step _ _ _ _ e1).trans ((step _ _ _ _ e2).trans ((step _ _ _ _ hs').trans rfl)),
      hadv, rfl, rfl⟩
  | matched k =>
    obtain ⟨k, hk⟩ := k
    have hk' : k = 0 ∨ k = 1 ∨ k = 2 := by omega
    rcases hk' with rfl | rfl | rfl
    · obtain ⟨s', hs', hadv⟩ := recordAttempt_true_spec s w hact hw
      exact ⟨s', _, (step _ _ _ _ hs').trans rfl, hadv, rfl, rfl⟩
    · obtain ⟨s', hs', hadv⟩ := recordAttempt_true_spec
        { s with hasUserSpoken := true, currentAttempt := s.currentAttempt + 1 } w hact hw
      exact ⟨s', _, (step _ _ _ _ e1).trans ((step _ _ _ _ hs').trans rfl), hadv, rfl, rfl⟩
    · obtain ⟨s', hs', hadv⟩ := recordAttempt_true_spec
        { s with hasUserSpoken := true, currentAttempt := s.currentAttempt + 1 + 1 } w hact hw
      exact ⟨s', _, (step _ _ _ _ e1).trans ((step _ _ _ _ e2).trans
        ((step _ _ _ _ hs').trans rfl)), hadv, rfl, rfl⟩

/-- Starting a session on a non-empty list makes the first word current. -/
theorem startSession_spec (s : PronounceTrainer) (hne : s.difficultList ≠ []) :
    (startSession s).difficultList = s.difficultList ∧
    (startSession s).attemptsPerWord = s.attemptsPerWord ∧
    (startSession s).hasRecognitionManager = s.hasRecognitionManager ∧
    (startSession s).currentWordIndex = 0 ∧
    (startSession s).currentAttempt = 0 ∧
    (startSession s).sessionActive = true ∧
    (startSession s).sessionResults = s.sessionResults ∧
    (startSession s).sessionCompleteEvents = s.sessionCompleteEvents := by
  have hlen : s.difficultList.length ≠ 0 := fun h => hne (List.length_eq_zero.mp h)
  have hge : ¬ (0 ≥ s.difficultList.length) := by omega
  simp only [startSession, hlen, if_false, trainNextWord, hge]
  exact ⟨rfl, rfl, rfl, rfl, rfl, rfl, rfl, rfl⟩

/-- From any state in which the session is active exactly when a word is left and the
attempt counter is 0, driving the remaining words ends the session with one result per
remaining word, in order. -/
theorem drive_from (W : List WordRecord) :
    ∀ (outcomes : List WordOutcome) (s : PronounceTrainer),
      s.difficultList = W → s.attemptsPerWord = 3 → s.currentAttempt = 0 →
      s.sessionActive = decide (s.currentWordIndex < W.length) →
      s.currentWordIndex + outcomes.length = W.length →
      ∃ s' rs, recordAttempts s (driveCalls outcomes) = some s' ∧
        s'.sessionActive = false ∧
        s'.sessionResults = s.sessionResults ++ rs ∧
        rs.map (fun r => (r.word, r.sound)) =
          (W.drop s.currentWordIndex).map (fun w => (w.word, w.sound)) := by
  intro outcomes
  induction outcomes with
  | nil =>
    intro s hW _ _ hact hidx
    have hend : s.currentWordIndex = W.length := by simpa using hidx
    refine ⟨s, [], rfl, ?_, by simp, ?_⟩
    · rw [hact]; simp [hend]
    · simp [hend]
  | cons o outcomes ih =>
    intro s hW h3 h0 hact hidx
    have hlt : s.currentWordIndex < W.length := by
      simp only [List.length_cons] at hidx; omega
    have hact' : s.sessionActive = true := by rw [hact]; simp [hlt]
    have hw : s.difficultList[s.currentWordIndex]? = some W[s.currentWordIndex] := by
      rw [hW]; exact List.getElem?_eq_getElem hlt
    obtain ⟨s1, r, hs1, hadv, hrw, hrs⟩ := driveWord_spec s _ o hact' h3 h0 hw
    obtain ⟨hd1, ha1, _, hi1, hc1, hr1, hact1, _⟩ := hadv
    obtain ⟨s', rs, hs', hina, hres, hmap⟩ := ih s1 (hd1.trans hW) (ha1.trans h3) hc1
      (by rw [hact1, hact', hi1, hW]; simp)
      (by rw [hi1]; simp only [List.length_cons] at hidx; omega)
    refine ⟨s', r :: rs, ?_, hina, ?_, ?_⟩
    · simp only [driveCalls]
      rw [recordAttempts_append, hs1]
      exact hs'
    · rw [hres, hr1]; simp
    · rw [List.drop_eq_getElem_cons hlt]
      simp only [List.map_cons, hrw, hrs]
      rw [hmap, hi1]

/-- A spoken attempt in an active session with a recognition manager is one
`recordAttempt` call with the verdict of `isCorrect`. -/
theorem speak_spec (s : PronounceTrainer) (w : WordRecord) (transcript : JsString)
    (hact : s.sessionActive = true) (hmgr : s.hasRecognitionManager = true)
    (hw : s.difficultList[s.currentWordIndex]? = some w) :
    speak s transcript =
      recordAttempt { s with isListening := true, hasUserSpoken := true }
        (isCorrect (trim (toLowerCase w.word)) (trim (toLowerCase transcript))) := by
  have hlt : s.currentWordIndex < s.difficultList.length := by
    by_contra hc
    rw [List.getElem?_eq_none (by omega)] at hw
    cases hw
  have h1 : ((!s.sessionActive || !s.hasRecognitionManager) = true) ↔ False := by
    simp [hact, hmgr]
  simp only [speak, startListening, h1, if_false, actuallyStartListening, verifyPronunciation]
  have h2 : ((!s.sessionActive || !true ||
      decide (s.currentWordIndex ≥ s.difficultList.length)) = true) ↔ False := by
    simp [hact, hlt]
  simp only [h2, if_false, hw]

/-- A spoken attempt that `isCorrect` rejects is a call `recordAttempt(false)`. -/
theorem speak_reject (s : PronounceTrainer) (w : WordRecord) (transcript : JsString)
    (hact : s.sessionActive = true) (hmgr : s.hasRecognitionManager = true)
    (hw : s.difficultList[s.currentWordIndex]? = some w)
    (hn : isCorrect (trim (toLowerCase w.word)) (trim (toLowerCase transcript)) = false) :
    speak s transcript =
      recordAttempt { s with isListening := true, hasUserSpoken := true } false := by
  rw [speak_spec s w transcript hact hmgr hw, hn]

/-- Three spoken attempts that `isCorrect` rejects exhaust the current word: one result is
recorded for it, computed from the counter after its third increment. -/
theorem speakAll_exhaust (s : PronounceTrainer) (w : WordRecord) (t1 t2 t3 : JsString)
    (hact : s.sessionActive = true) (hmgr : s.hasRecognitionManager = true)
    (h3 : s.attemptsPerWord = 3) (h0 : s.currentAttempt = 0)
    (hw : s.difficultList[s.currentWordIndex]? = some w)
    (hn1 : isCorrect (trim (toLowerCase w.word)) (trim (toLowerCase t1)) = false)
    (hn2 : isCorrect (trim (toLowerCase w.word)) (trim (toLowerCase t2)) = false)
    (hn3 : isCorrect (trim (toLowerCase w.word)) (trim (toLowerCase t3)) = false) :
    ∃ s', speakAll s [t1, t2, t3] = some s' ∧ Advanced s (pushedResult w 3) s' := by
  have step : ∀ (t t' : PronounceTrainer) (x : JsString) (rest : List JsString),
      speak t x = some t' → speakAll t (x :: rest) = speakAll t' rest := by
    intro t t' x rest h
    simp only [speakAll, h]
  have e1 : speak s t1 = some
      { s with isListening := true, hasUserSpoken := true,
               currentAttempt := s.currentAttempt + 1 } :=
    (speak_reject s w t1 hact hmgr hw hn1).trans
      (recordAttempt_false_retry { s with isListening := true, hasUserSpoken := true } hact
        (by show s.currentAttempt + 1 < s.attemptsPerWord; omega))
  have e2 : speak { s with isListening := true, hasUserSpoken := true,
                           currentAttempt := s.currentAttempt + 1 } t2 = some
      { s with isListening := true, hasUserSpoken := true,
               currentAttempt := s.currentAttempt + 1 + 1 } :=
    (speak_reject { s with isListening := true, hasUserSpoken := true,
                           currentAttempt := s.currentAttempt + 1 } w t2 hact hmgr hw hn2).trans
      (recordAttempt_false_retry
        { s with isListening := true, hasUserSpoken := true,
                 currentAttempt := s.currentAttempt + 1 } hact
        (by show s.currentAttempt + 1 + 1 < s.attemptsPerWord; omega))
  obtain ⟨s', hs', hadv⟩ := recordAttempt_false_exhaust
    { s with isListening := true, hasUserSpoken := true,
             currentAttempt := s.currentAttempt + 1 + 1 } w hact
    (by show s.attemptsPerWord ≤ s.currentAttempt + 1 + 1 + 1; omega) hw
  have e3 : speak { s with isListening := true, hasUserSpoken := true,
                           currentAttempt := s.currentAttempt + 1 + 1 } t3 = some s' :=
    (speak_reject { s with isListening := true, hasUserSpoken := true,
                           currentAttempt := s.currentAttempt + 1 + 1 } w t3 hact hmgr hw
      hn3).trans hs'
  have hadv' : Advanced s (pushedResult w (s.currentAttempt + 1 + 1 + 1)) s' := hadv
  rw [h0] at hadv'
  exact ⟨s', (step _ _ _ _ e1).trans ((step _ _ _ _ e2).trans ((step _ _ _ _ e3).trans rfl)),
    hadv'⟩

/-- Writing one key of the store does not change what is read under another key. -/
theorem Storage_getItem_setItem_other (store : Storage) (k k' : String) (v : SessionData)
    (hne : k ≠ k') : (store.setItem k v).getItem k' = store.getItem k' := by
  have hfilter : ∀ l : Storage,
      (l.filter (fun kv => kv.1 ≠ k)).find? (fun kv => kv.1 = k') =
        l.find? (fun kv => kv.1 = k') := by
    intro l
    induction l with
    | nil => rfl
    | cons kv l ih =>
      by_cases h1 : kv.1 = k
      · have h2 : ¬ (kv.1 = k') := by rw [h1]; exact hne
        rw [List.filter_cons_of_neg (by simpa using h1),
          List.find?_cons_of_neg _ (by simpa using h2)]
        exact ih
      · rw [List.filter_cons_of_pos (by simpa using h1)]
        by_cases h2 : kv.1 = k'
        · rw [List.find?_cons_of_pos _ (by simpa using h2),
            List.find?_cons_of_pos _ (by simpa using h2)]
        · rw [List.find?_cons_of_neg _ (by simpa using h2),
            List.find?_cons_of_neg _ (by simpa using h2)]
          exact ih
  unfold Storage.getItem Storage.setItem
  rw [List.find?_cons_of_neg _ (by simpa using hne), hfilter]

/-- Saving the session never changes what `loadPreviousSessionData` returns: the session is
written under the key `Data`, and read back from the key `drillingSessionData`. -/
theorem loadPreviousSessionData_saveSessionData (s : PronounceTrainer) (completed : Bool) :
    loadPreviousSessionData (saveSessionData s completed) = loadPreviousSessionData s := by
  unfold loadPreviousSessionData
  have h : (saveSessionData s completed).localStorage.parseItem "drillingSessionData" =
      s.localStorage.parseItem "drillingSessionData" := by
    unfold Storage.parseItem saveSessionData
    simp only []
    rw [Storage_getItem_setItem_other _ _ _ _ (by decide)]
  rw [h]

end PronounceTrainer


/-! ## Driving a whole session -/

/-- Claim C4: for every non-empty word list `W`, after `initialize(W)` and `startSession()`
on a trainer with three attempts per word, driving each word in turn by `recordAttempt`
calls until it matches or exhausts its three attempts ends with `sessionActive = false` and
with one result per word of `W`, the i-th result carrying the word and sound of `W[i]`. -/
theorem drive_session_complete (s0 : PronounceTrainer) (W : List WordRecord)
    (hasRecognitionManager : Bool) (outcomes : List PronounceTrainer.WordOutcome)
    (h3 : s0.attemptsPerWord = 3) (hW : W ≠ []) (hlen : outcomes.length = W.length) :
    ∃ s', PronounceTrainer.recordAttempts
        (PronounceTrainer.startSession
          (PronounceTrainer.initSession s0 W hasRecognitionManager))
        (PronounceTrainer.driveCalls outcomes) = some s' ∧
      s'.sessionActive = false ∧
      s'.sessionResults.length = W.length ∧
      s'.sessionResults.map (fun r => (r.word, r.sound)) =
        W.map (fun w => (w.word, w.sound)) := by
  obtain ⟨hd, ha, _, hi, hc, hact, hr, _⟩ := PronounceTrainer.startSession_spec
    (PronounceTrainer.initSession s0 W hasRecognitionManager) hW
  have hpos : 0 < W.length := List.length_pos.mpr hW
  obtain ⟨s', rs, hs', hina, hres, hmap⟩ := PronounceTrainer.drive_from W outcomes
    (PronounceTrainer.startSession (PronounceTrainer.initSession s0 W hasRecognitionManager))
    hd (ha.trans h3) hc (by rw [hact, hi]; simp [hpos]) (by rw [hi, hlen]; simp)
  have hr0 : (PronounceTrainer.startSession
      (PronounceTrainer.initSession s0 W hasRecognitionManager)).sessionResults = [] := hr
  rw [hr0] at hres
  rw [hi] at hmap
  simp only [List.nil_append, List.drop_zero] at hres hmap
  refine ⟨s', hs', hina, ?_, ?_⟩
  · have := congrArg List.length hmap
    simpa [hres] using this
  · rw [hres]; exact hmap


/-- Witness of claim C4: the one-word session of scenario B, its word exhausted. -/
theorem drive_session_complete_witness :
    (PronounceTrainer.create [] []).attemptsPerWord = 3 ∧
    scenarioWords ≠ [] ∧
    [PronounceTrainer.WordOutcome.exhausted].length = scenarioWords.length ∧
    ∃ s', PronounceTrainer.recordAttempts
        (PronounceTrainer.startSession
          (PronounceTrainer.initSession (PronounceTrainer.create [] []) scenarioWords true))
        (PronounceTrainer.driveCalls [PronounceTrainer.WordOutcome.exhausted]) = some s' ∧
      s'.sessionActive = false ∧
      s'.sessionResults.length = scenarioWords.length ∧
      s'.sessionResults.map (fun r => (r.word, r.sound)) =
        scenarioWords.map (fun w => (w.word, w.sound)) :=
  ⟨rfl, by decide, rfl,
    drive_session_complete (PronounceTrainer.create [] []) scenarioWords true
      [PronounceTrainer.WordOutcome.exhausted] rfl (by decide) rfl⟩

/-! ## Results recorded by `nextWord` -/

/-- Claim C5: whenever the current word exists, `nextWord` returns and pushes exactly one
result, and if that result has `spoken = false` its `attemptsNeeded` is the maximum,
`attemptsPerWord = 3`. -/
theorem nextWord_unspoken_attemptsNeeded (s : PronounceTrainer) (w : WordRecord)
    (h3 : s.attemptsPerWord = 3) (hw : s.difficultList[s.currentWordIndex]? = some w) :
    ∃ s' r, PronounceTrainer.nextWord s = some s' ∧
      s'.sessionResults = s.sessionResults ++ [r] ∧
      (r.spoken = false → r.attemptsNeeded = s.attemptsPerWord ∧ r.attemptsNeeded = 3) := by
  obtain ⟨s', hs', hadv⟩ := PronounceTrainer.nextWord_spec s w hw
  refine ⟨s', _, hs', hadv.2.2.2.2.2.1, ?_⟩
  intro hsp
  have hk : ¬ (s.currentAttempt > 0) := by
    intro hpos
    simp [PronounceTrainer.pushedResult, hpos] at hsp
  simp [PronounceTrainer.pushedResult, hk, h3]

/-- Witness of claim C5: `nextWord` on the freshly started session of scenario B. -/
theorem nextWord_unspoken_attemptsNeeded_witness :
    scenarioStart.attemptsPerWord = 3 ∧
    scenarioStart.difficultList[scenarioStart.currentWordIndex]? = scenarioWords[0]? ∧
    ∃ s' r, PronounceTrainer.nextWord scenarioStart = some s' ∧
      s'.sessionResults = scenarioStart.sessionResults ++ [r] ∧
      (r.spoken = false →
        r.attemptsNeeded = scenarioStart.attemptsPerWord ∧ r.attemptsNeeded = 3) :=
  ⟨rfl, rfl, nextWord_unspoken_attemptsNeeded scenarioStart _ rfl rfl⟩

/-- Claim C1 fails on the code: after `initialize([think])` and `startSession()`, three
calls `recordAttempt(false)` push a result with `attemptsNeeded = 4`, above
`attemptsPerWord = 3`. -/
theorem recordAttempt_three_failures_gives_four :
    (PronounceTrainer.recordAttempts scenarioStart [false, false, false]).map
        (fun s => (s.attemptsPerWord, s.sessionResults)) =
      some (3, [{ word := ['t', 'h', 'i', 'n', 'k'], sound := ['/', 'θ', '/'],
                  attemptsNeeded := 4, spoken := true }]) := by
  decide

/-- Claim C2 fails on the code for `k = 0`: after `initialize([think])` and
`startSession()`, a first call `recordAttempt(true)` records `attemptsNeeded = 3` and
`spoken = false` (and advances, here to the end of the session, with the counter at 0). -/
theorem recordAttempt_first_try_success :
    (PronounceTrainer.recordAttempts scenarioStart [true]).map
        (fun s => (s.sessionResults, s.currentWordIndex, s.currentAttempt, s.sessionActive)) =
      some ([{ word := ['t', 'h', 'i', 'n', 'k'], sound := ['/', 'θ', '/'],
               attemptsNeeded := 3, spoken := false }], 1, 0, false) := by
  decide

/-! ## Scenario B: three non-matching attempts on `think` -/

theorem scenario_lowercase_trim :
    trim (toLowerCase ['t', 'h', 'i', 'n', 'k']) = ['t', 'h', 'i', 'n', 'k'] ∧
    trim (toLowerCase ['s', 'i', 'n', 'k']) = ['s', 'i', 'n', 'k'] := by
  decide

/-- The similarity of `think` and `sink` is 1 - 2/5 = 3/5. -/
theorem think_sink_similarity :
    PronounceTrainer.compareWordsRoughly ['t', 'h', 'i', 'n', 'k'] ['s', 'i', 'n', 'k'] =
      some (3 / 5) := by
  have hd : (match PronounceTrainer.levMatrix ['t', 'h', 'i', 'n', 'k'] ['s', 'i', 'n', 'k'] with
      | none => none
      | some m => getCell m 5 4) = some 2 := by decide
  obtain ⟨m, hm, hfill⟩ :=
    PronounceTrainer.trainer_levMatrix_correct ['t', 'h', 'i', 'n', 'k'] ['s', 'i', 'n', 'k']
  rw [hm] at hd
  have hd' : getCell m 5 4 = some 2 := hd
  have ht := hfill 5 4 (by decide) (by decide)
  rw [hd'] at ht
  have ht' : table (PronounceTrainer.cellRule ['t', 'h', 'i', 'n', 'k'] ['s', 'i', 'n', 'k'])
      5 4 = 2 := (Option.some.inj ht).symm
  rw [PronounceTrainer.trainer_compareWordsRoughly_of_distance _ _ (by decide) (by decide)
    (by decide) (by decide)]
  simp only [List.length_cons, List.length_nil, ht']
  norm_num

/-- The transcript `sink` is not accepted for the word `think`. -/
theorem think_sink_rejected :
    PronounceTrainer.isCorrect (trim (toLowerCase ['t', 'h', 'i', 'n', 'k']))
      (trim (toLowerCase ['s', 'i', 'n', 'k'])) = false := by
  rw [scenario_lowercase_trim.1, scenario_lowercase_trim.2]
  unfold PronounceTrainer.isCorrect
  rw [think_sink_similarity]
  have hinc : includes ['s', 'i', 'n', 'k'] ['t', 'h', 'i', 'n', 'k'] = false := by decide
  rw [hinc]
  simp only [Bool.false_or, decide_eq_false_iff_not, not_lt]
  norm_num

/-- Claim C3 fails on the code: in scenario B (word list `[think, /θ/]`, three spoken
attempts `sink`, each of similarity 3/5 and rejected) the session completes with a single
result and a success rate of 0, but the result has `attemptsNeeded = 4`, not 3. -/
theorem scenarioB_three_sinks :
    ∃ s', PronounceTrainer.speakAll scenarioStart
        [['s', 'i', 'n', 'k'], ['s', 'i', 'n', 'k'], ['s', 'i', 'n', 'k']] = some s' ∧
      s'.sessionResults = [{ word := ['t', 'h', 'i', 'n', 'k'], sound := ['/', 'θ', '/'],
                             attemptsNeeded := 4, spoken := true }] ∧
      s'.sessionActive = false ∧
      s'.sessionCompleteEvents.map (fun e => (e.totalWords, e.perfectWords, e.successRate)) =
        [(1, 0, 0)] := by
  obtain ⟨s', hs', hadv⟩ := PronounceTrainer.speakAll_exhaust scenarioStart
    { word := ['t', 'h', 'i', 'n', 'k'], sound := ['/', 'θ', '/'], pronunciation := [],
      type := ['p', 'r', 'a', 'c', 't', 'i', 'c', 'e'] }
    ['s', 'i', 'n', 'k'] ['s', 'i', 'n', 'k'] ['s', 'i', 'n', 'k'] rfl rfl rfl rfl rfl
    think_sink_rejected think_sink_rejected think_sink_rejected
  obtain ⟨_, _, _, _, _, hres, hact, hev⟩ := hadv
  have hres' : s'.sessionResults =
      [{ word := ['t', 'h', 'i', 'n', 'k'], sound := ['/', 'θ', '/'],
         attemptsNeeded := 4, spoken := true }] := hres
  refine ⟨s', hs', hres', hact, ?_⟩
  have hlast : ¬ (scenarioStart.currentWordIndex + 1 < scenarioStart.difficultList.length) := by
    decide
  rw [if_neg hlast] at hev
  have hev' : s'.sessionCompleteEvents = [PronounceTrainer.sessionSummary
      [{ word := ['t', 'h', 'i', 'n', 'k'], sound := ['/', 'θ', '/'],
         attemptsNeeded := 4, spoken := true }]] := hev
  rw [hev']
  simp [PronounceTrainer.sessionSummary]

/-! ## Saving and loading the session -/

/-- Claim C6 fails on the code: on a fresh `localStorage`, after `initialize([think])` and
`startSession()`, calling `saveSessionData()` and then `loadPreviousSessionData()` returns
`null`, although the session record was written (under the key `Data`). -/
theorem saveSessionData_then_load_is_null :
    PronounceTrainer.loadPreviousSessionData
        (PronounceTrainer.saveSessionData scenarioStart false) = none ∧
    ((PronounceTrainer.saveSessionData scenarioStart false).localStorage.getItem "Data").map
        (fun data => data.lastSession.map (fun l => (l.difficultList, l.results))) =
      some (some (scenarioStart.difficultList, scenarioStart.sessionResults)) ∧
    scenarioStart.difficultList ≠ [] := by
  decide

/-- Filtering `n` copies of a kept item followed by `m` copies of a dropped one keeps `n`
items. -/
theorem filter_replicate_append_length {α : Type} (p : α → Bool) (a b : α) (n m : Nat)
    (ha : p a = true) (hb : p b = false) :
    ((List.replicate n a ++ List.replicate m b).filter p).length = n := by
  rw [List.filter_append, List.length_append, List.filter_replicate, List.filter_replicate,
    if_pos ha, if_neg (by rw [hb]; decide)]
  simp

/-- Filtering `n` copies of a kept item followed by `m` copies of another kept one keeps
all of them. -/
theorem filter_replicate_append_length_all {α : Type} (p : α → Bool) (a b : α) (n m : Nat)
    (ha : p a = true) (hb : p b = true) :
    ((List.replicate n a ++ List.replicate m b).filter p).length = n + m := by
  rw [List.filter_append, List.length_append, List.filter_replicate, List.filter_replicate,
    if_pos ha, if_pos hb]
  simp

/-! ## Rounding to a double -/

/-- Rounding to the nearest integer moves a number by at most a half. -/
theorem roundHalfEven_abs (x : ℚ) : |(roundHalfEven x : ℚ) - x| ≤ 1 / 2 := by
  have h1 := Int.floor_le x
  have h2 := Int.lt_floor_add_one x
  unfold roundHalfEven
  split_ifs with a b c
  · rw [abs_le]; constructor <;> linarith
  · push_cast; rw [abs_le]; constructor <;> linarith
  · rw [abs_le]; constructor <;> linarith
  · push_cast; rw [abs_le]; constructor <;> linarith

theorem roundHalfEven_nonneg (x : ℚ) (hx : 0 ≤ x) : 0 ≤ roundHalfEven x := by
  have h0 : 0 ≤ ⌊x⌋ := Int.floor_nonneg.mpr hx
  unfold roundHalfEven
  split_ifs <;> omega

theorem roundHalfEven_le (x : ℚ) (M : ℤ) (hx : x ≤ M) : roundHalfEven x ≤ M := by
  have h1 : ⌊x⌋ ≤ M := by
    rw [Int.floor_le_iff]
    linarith
  have h2 : x - ⌊x⌋ ≥ 1 / 2 → ⌊x⌋ + 1 ≤ M := by
    intro h
    have : ((⌊x⌋ : ℤ) : ℚ) < (M : ℚ) := by linarith
    have : ⌊x⌋ < M := by exact_mod_cast this
    omega
  unfold roundHalfEven
  split_ifs with a b c
  · exact h1
  · exact h2 (le_of_lt b)
  · exact h1
  · exact h2 (not_lt.mp a)

/-- The integer that is less than a half away is the rounded one. -/
theorem roundHalfEven_eq (x : ℚ) (m : ℤ) (h : |x - m| < 1 / 2) : roundHalfEven x = m := by
  rw [abs_lt] at h
  obtain ⟨hl, hu⟩ := h
  by_cases hm : (m : ℚ) ≤ x
  · have hf : ⌊x⌋ = m := by
      rw [Int.floor_eq_iff]
      constructor <;> linarith
    unfold roundHalfEven
    rw [hf, if_pos (by linarith)]
  · have hf : ⌊x⌋ = m - 1 := by
      rw [Int.floor_eq_iff]
      push_cast
      constructor <;> linarith
    unfold roundHalfEven
    rw [hf]
    push_cast
    rw [if_neg (by linarith), if_pos (by linarith)]
    ring

theorem two_zpow_pos (e : ℤ) : (0 : ℚ) < 2 ^ e := zpow_pos (by norm_num) e

theorem toDouble_nonneg (x : ℚ) (hx : 0 ≤ x) : 0 ≤ toDouble x := by
  unfold toDouble
  split_ifs with h0
  · exact le_refl _
  · apply mul_nonneg
    · have := roundHalfEven_nonneg (x / 2 ^ (Int.log 2 |x| - 52))
        (div_nonneg hx (le_of_lt (two_zpow_pos _)))
      exact_mod_cast this
    · exact le_of_lt (two_zpow_pos _)

theorem log_lt_of_lt_zpow (x : ℚ) (hx : 0 < x) (k : ℤ) (h : x < 2 ^ k) : Int.log 2 x < k := by
  rw [← Int.lt_zpow_iff_log_lt (by norm_num) hx]
  exact_mod_cast h

/-- Rounding to a double does not pass an integer below `2⁵³`. -/
theorem toDouble_le_nat (x : ℚ) (N : ℕ) (hx : 0 ≤ x) (hN : x ≤ N) (h53 : (N : ℚ) < 2 ^ (53 : ℤ)) :
    toDouble x ≤ N := by
  unfold toDouble
  split_ifs with h0
  · exact Nat.cast_nonneg N
  · have hpos : 0 < x := lt_of_le_of_ne hx (Ne.symm h0)
    rw [abs_of_pos hpos]
    have hlog : Int.log 2 x < 53 := log_lt_of_lt_zpow x hpos 53 (lt_of_le_of_lt hN h53)
    obtain ⟨k, hk⟩ : ∃ k : ℕ, Int.log 2 x - 52 = -(k : ℤ) :=
      ⟨(52 - Int.log 2 x).toNat, by omega⟩
    rw [hk, zpow_neg, zpow_natCast]
    have hp : (0 : ℚ) < 2 ^ k := by positivity
    have hle : x / (2 ^ k)⁻¹ ≤ ((N * 2 ^ k : ℕ) : ℤ) := by
      rw [div_inv_eq_mul]
      push_cast
      exact mul_le_mul_of_nonneg_right hN (le_of_lt hp)
    have hr := roundHalfEven_le _ _ hle
    have hr' : (roundHalfEven (x / (2 ^ k)⁻¹) : ℚ) ≤ (N : ℚ) * 2 ^ k := by
      exact_mod_cast hr
    calc (roundHalfEven (x / (2 ^ k)⁻¹) : ℚ) * (2 ^ k)⁻¹
        ≤ ((N : ℚ) * 2 ^ k) * (2 ^ k)⁻¹ :=
          mul_le_mul_of_nonneg_right hr' (le_of_lt (inv_pos.mpr hp))
      _ = N := by field_simp

/-- Rounding to a double has a relative error of at most `2⁻⁵³`. -/
theorem toDouble_abs_sub_le (x : ℚ) (hx : 0 ≤ x) : |toDouble x - x| ≤ x / 2 ^ (53 : ℕ) := by
  unfold toDouble
  split_ifs with h0
  · rw [h0]; simp
  · have hpos : 0 < x := lt_of_le_of_ne hx (Ne.symm h0)
    rw [abs_of_pos hpos]
    have hE := two_zpow_pos (Int.log 2 x - 52)
    have hlog : (2 : ℚ) ^ (Int.log 2 x) ≤ x := by
      have := Int.zpow_log_le_self (R := ℚ) (b := 2) (by norm_num) hpos
      exact_mod_cast this
    have hsplit : (2 : ℚ) ^ (Int.log 2 x) = 2 ^ (Int.log 2 x - 52) * 2 ^ (52 : ℕ) := by
      rw [← zpow_natCast, ← zpow_add₀ (by norm_num)]
      congr 1
      omega
    have hr := roundHalfEven_abs (x / 2 ^ (Int.log 2 x - 52))
    have heq : (roundHalfEven (x / 2 ^ (Int.log 2 x - 52)) : ℚ) * 2 ^ (Int.log 2 x - 52) - x =
        ((roundHalfEven (x / 2 ^ (Int.log 2 x - 52)) : ℚ) - x / 2 ^ (Int.log 2 x - 52)) *
          2 ^ (Int.log 2 x - 52) := by
      field_simp
    rw [heq, abs_mul, abs_of_pos hE]
    have h1 : |(roundHalfEven (x / 2 ^ (Int.log 2 x - 52)) : ℚ) - x / 2 ^ (Int.log 2 x - 52)| *
        2 ^ (Int.log 2 x - 52) ≤ 1 / 2 * 2 ^ (Int.log 2 x - 52) :=
      mul_le_mul_of_nonneg_right hr (le_of_lt hE)
    have h2 : (1 : ℚ) / 2 * 2 ^ (Int.log 2 x - 52) ≤ x / 2 ^ (53 : ℕ) := by
      rw [le_div_iff₀ (by positivity)]
      rw [hsplit] at hlog
      have : (2 : ℚ) ^ (53 : ℕ) = 2 * 2 ^ (52 : ℕ) := by norm_num
      rw [this]
      nlinarith
    exact le_trans h1 h2

/-- The double of `x`, from its power of two `e + 52` and the significand `m` that is less
than a half away from `x / 2 ^ e`. -/
theorem toDouble_eq (x : ℚ) (e m : ℤ) (hx : 0 < x) (h1 : 2 ^ (52 : ℕ) * 2 ^ e ≤ x)
    (h2 : x < 2 ^ (53 : ℕ) * 2 ^ e) (h3 : |x / 2 ^ e - m| < 1 / 2) :
    toDouble x = m * 2 ^ e := by
  have hlog : Int.log 2 x = e + 52 := by
    apply le_antisymm
    · have : Int.log 2 x < e + 53 := by
        apply log_lt_of_lt_zpow x hx
        rw [zpow_add₀ (by norm_num), mul_comm]
        exact_mod_cast h2
      omega
    · rw [← Int.zpow_le_iff_le_log (by norm_num) hx]
      push_cast
      rw [zpow_add₀ (by norm_num), mul_comm]
      exact_mod_cast h1
  unfold toDouble
  rw [if_neg (ne_of_gt hx), abs_of_pos hx, hlog]
  have : e + 52 - 52 = e := by omega
  rw [this, roundHalfEven_eq _ m h3]

/-! ## The fluency score -/

namespace SpeechRecognitionManager

/-- The items counted as errors are among the items that are not interim. -/
theorem errorCount_le_finalCount (s : SpeechRecognitionManager) :
    errorCount s ≤ finalCount s := by
  unfold errorCount finalCount
  apply List.Sublist.length_le
  apply List.monotone_filter_right
  intro item h
  have h' : item.status = Status.incorrect ∨ item.status = Status.stutter := by simpa using h
  rcases h' with h1 | h1 <;> simp [h1]

/-- A transcript with an item that is not interim has a positive final count. -/
theorem finalCount_ne_zero_of_mem (s : SpeechRecognitionManager) (item : TranscriptItem)
    (hmem : item ∈ s.transcript) (hst : item.status ≠ Status.interim) : finalCount s ≠ 0 := by
  unfold finalCount
  intro h0
  have hin : item ∈ s.transcript.filter (fun item => item.status ≠ Status.interim) := by
    rw [List.mem_filter]
    exact ⟨hmem, by simpa using hst⟩
  rw [List.length_eq_zero.mp h0] at hin
  cases hin

/-- `Math.round` returns the integer `m` with `m - 1/2 ≤ x < m + 1/2`. -/
theorem mathRound_spec (x : ℚ) :
    ((mathRound x : Int) : ℚ) - 1 / 2 ≤ x ∧ x < ((mathRound x : Int) : ℚ) + 1 / 2 := by
  unfold mathRound
  have h1 := Int.floor_le (x + 1 / 2)
  have h2 := Int.lt_floor_add_one (x + 1 / 2)
  constructor <;> linarith

/-- The share of errors, as a percentage, lies between 0 and 100. -/
theorem error_share_range (s : SpeechRecognitionManager) (hn : finalCount s ≠ 0) :
    (0 : ℚ) ≤ (errorCount s : ℚ) / (finalCount s : ℚ) * 100 ∧
    (errorCount s : ℚ) / (finalCount s : ℚ) * 100 ≤ 100 := by
  have hpos : (0 : ℚ) < (finalCount s : ℚ) := by
    have : 0 < finalCount s := Nat.pos_of_ne_zero hn
    exact_mod_cast this
  have hle : (errorCount s : ℚ) ≤ (finalCount s : ℚ) := by
    exact_mod_cast errorCount_le_finalCount s
  have h0 : (0 : ℚ) ≤ (errorCount s : ℚ) / (finalCount s : ℚ) :=
    div_nonneg (by positivity) (le_of_lt hpos)
  have h1 : (errorCount s : ℚ) / (finalCount s : ℚ) ≤ 1 := (div_le_one hpos).mpr hle
  constructor <;> nlinarith

/-- The double of the score lies between 0 and 100. -/
theorem doubleScore_range (k n : Nat) (hn : n ≠ 0) (hk : k ≤ n) :
    0 ≤ doubleScore k n ∧ doubleScore k n ≤ 100 := by
  have hpos : (0 : ℚ) < (n : ℚ) := by exact_mod_cast Nat.pos_of_ne_zero hn
  have hq0 : (0 : ℚ) ≤ (k : ℚ) / (n : ℚ) := div_nonneg (by positivity) (le_of_lt hpos)
  have hq1 : (k : ℚ) / (n : ℚ) ≤ ((1 : ℕ) : ℚ) := by
    rw [Nat.cast_one, div_le_one hpos]
    exact_mod_cast hk
  have ha0 := toDouble_nonneg _ hq0
  have ha1 := toDouble_le_nat _ 1 hq0 hq1 (by norm_num)
  rw [Nat.cast_one] at ha1
  have hp0 : (0 : ℚ) ≤ toDouble ((k : ℚ) / (n : ℚ)) * 100 := by linarith
  have hp1 : toDouble ((k : ℚ) / (n : ℚ)) * 100 ≤ ((100 : ℕ) : ℚ) := by
    push_cast; linarith
  have hb0 := toDouble_nonneg _ hp0
  have hb1 := toDouble_le_nat _ 100 hp0 hp1 (by norm_num)
  have hd0 : (0 : ℚ) ≤ 100 - toDouble (toDouble ((k : ℚ) / (n : ℚ)) * 100) := by
    push_cast at hb1; linarith
  have hd1 : 100 - toDouble (toDouble ((k : ℚ) / (n : ℚ)) * 100) ≤ ((100 : ℕ) : ℚ) := by
    push_cast; linarith
  have hc1 := toDouble_le_nat _ 100 hd0 hd1 (by norm_num)
  push_cast at hc1
  exact ⟨toDouble_nonneg _ hd0, hc1⟩

/-- The double of the score is within `300 / 2⁵³` of the exact value `100 - 100 k / n`. -/
theorem doubleScore_error (k n : Nat) (hn : n ≠ 0) (hk : k ≤ n) :
    |doubleScore k n - (100 - 100 * ((k : ℚ) / (n : ℚ)))| ≤ 300 / 2 ^ (53 : ℕ) := by
  have hpos : (0 : ℚ) < (n : ℚ) := by exact_mod_cast Nat.pos_of_ne_zero hn
  have hq0 : (0 : ℚ) ≤ (k : ℚ) / (n : ℚ) := div_nonneg (by positivity) (le_of_lt hpos)
  have hq1 : (k : ℚ) / (n : ℚ) ≤ ((1 : ℕ) : ℚ) := by
    rw [Nat.cast_one, div_le_one hpos]
    exact_mod_cast hk
  have ha0 := toDouble_nonneg _ hq0
  have ha1 := toDouble_le_nat _ 1 hq0 hq1 (by norm_num)
  rw [Nat.cast_one] at ha1 hq1
  have hp0 : (0 : ℚ) ≤ toDouble ((k : ℚ) / (n : ℚ)) * 100 := by linarith
  have hp1 : toDouble ((k : ℚ) / (n : ℚ)) * 100 ≤ ((100 : ℕ) : ℚ) := by
    push_cast; linarith
  have hb1 := toDouble_le_nat _ 100 hp0 hp1 (by norm_num)
  have hd0 : (0 : ℚ) ≤ 100 - toDouble (toDouble ((k : ℚ) / (n : ℚ)) * 100) := by
    push_cast at hb1; linarith
  have hb0 := toDouble_nonneg _ hp0
  have e1 := abs_le.mp (toDouble_abs_sub_le _ hq0)
  have e2 := abs_le.mp (toDouble_abs_sub_le _ hp0)
  have e3 := abs_le.mp (toDouble_abs_sub_le _ hd0)
  have h53 : (0 : ℚ) < 2 ^ (53 : ℕ) := by positivity
  have u1 : (k : ℚ) / (n : ℚ) / 2 ^ (53 : ℕ) ≤ 1 / 2 ^ (53 : ℕ) :=
    div_le_div_of_nonneg_right hq1 (le_of_lt h53)
  have u2 : toDouble ((k : ℚ) / (n : ℚ)) * 100 / 2 ^ (53 : ℕ) ≤ 100 / 2 ^ (53 : ℕ) :=
    div_le_div_of_nonneg_right (by push_cast at hp1; exact hp1) (le_of_lt h53)
  have u3 : (100 - toDouble (toDouble ((k : ℚ) / (n : ℚ)) * 100)) / 2 ^ (53 : ℕ) ≤
      100 / 2 ^ (53 : ℕ) :=
    div_le_div_of_nonneg_right (by linarith) (le_of_lt h53)
  have h300 : (300 : ℚ) / 2 ^ (53 : ℕ) =
      1 / 2 ^ (53 : ℕ) * 100 + 100 / 2 ^ (53 : ℕ) + 100 / 2 ^ (53 : ℕ) := by ring
  unfold doubleScore
  rw [abs_le, h300]
  constructor <;> linarith [e1.1, e1.2, e2.1, e2.2, e3.1, e3.2]

/-- The score in the case that is not cut to 0. -/
theorem calculateFluencyScore_of_speech (s : SpeechRecognitionManager)
    (hn : finalCount s ≠ 0) (hreal : hasRealSpeech s) :
    calculateFluencyScore s = mathRound (doubleScore (errorCount s) (finalCount s)) := by
  have hlen : s.transcript.length ≠ 0 := by
    intro h0
    apply hn
    unfold finalCount
    rw [List.length_eq_zero.mp h0]
    rfl
  have hany : (s.transcript.filter (fun item => item.status ≠ Status.interim)).any
      (fun word => decide (word.word.length > 2)) = true := by
    obtain ⟨item, hmem, hst, hw⟩ := hreal
    rw [List.any_eq_true]
    exact ⟨item, List.mem_filter.mpr ⟨hmem, by simpa using hst⟩, by simpa using hw⟩
  have hn' : ¬ ((s.transcript.filter (fun item => item.status ≠ Status.interim)).length = 0) :=
    hn
  have hmax : max (0 : ℚ) (doubleScore (errorCount s) (finalCount s)) =
      doubleScore (errorCount s) (finalCount s) :=
    max_eq_right (doubleScore_range _ _ hn (errorCount_le_finalCount s)).1
  unfold calculateFluencyScore
  simp only [hlen, if_false, hn', hany, Bool.not_true, Bool.false_eq_true]
  exact congrArg mathRound hmax

/-- The score is 0 when no item that is not interim has a word longer than 2. -/
theorem calculateFluencyScore_of_noise (s : SpeechRecognitionManager)
    (hreal : ¬ hasRealSpeech s) : calculateFluencyScore s = 0 := by
  have hany : (s.transcript.filter (fun item => item.status ≠ Status.interim)).any
      (fun word => decide (word.word.length > 2)) = false := by
    rw [Bool.eq_false_iff]
    intro h
    rw [List.any_eq_true] at h
    obtain ⟨item, hmem, hw⟩ := h
    rw [List.mem_filter] at hmem
    exact hreal ⟨item, hmem.1, by simpa using hmem.2, by simpa using hw⟩
  unfold calculateFluencyScore
  simp only [hany, Bool.not_false, if_true]
  split_ifs <;> rfl

end SpeechRecognitionManager

/-- Claim C13: for every transcript `calculateFluencyScore` returns an integer between 0
and 100, it returns 0 for the empty transcript, and the items counted as incorrect or
stutter never outnumber the items that are not interim. -/
theorem calculateFluencyScore_range (s : SpeechRecognitionManager) :
    0 ≤ SpeechRecognitionManager.calculateFluencyScore s ∧
    SpeechRecognitionManager.calculateFluencyScore s ≤ 100 ∧
    SpeechRecognitionManager.calculateFluencyScore { s with transcript := [] } = 0 ∧
    SpeechRecognitionManager.errorCount s ≤ SpeechRecognitionManager.finalCount s := by
  refine ⟨?_, ?_, rfl, SpeechRecognitionManager.errorCount_le_finalCount s⟩
  · by_cases hreal : SpeechRecognitionManager.hasRealSpeech s
    · have hn : SpeechRecognitionManager.finalCount s ≠ 0 := by
        obtain ⟨item, hmem, hst, _⟩ := hreal
        exact SpeechRecognitionManager.finalCount_ne_zero_of_mem s item hmem hst
      rw [SpeechRecognitionManager.calculateFluencyScore_of_speech s hn hreal]
      unfold SpeechRecognitionManager.mathRound
      apply Int.floor_nonneg.mpr
      have := (SpeechRecognitionManager.doubleScore_range _ _ hn
        (SpeechRecognitionManager.errorCount_le_finalCount s)).1
      linarith
    · rw [SpeechRecognitionManager.calculateFluencyScore_of_noise s hreal]
  · by_cases hreal : SpeechRecognitionManager.hasRealSpeech s
    · have hn : SpeechRecognitionManager.finalCount s ≠ 0 := by
        obtain ⟨item, hmem, hst, _⟩ := hreal
        exact SpeechRecognitionManager.finalCount_ne_zero_of_mem s item hmem hst
      rw [SpeechRecognitionManager.calculateFluencyScore_of_speech s hn hreal]
      unfold SpeechRecognitionManager.mathRound
      have h1 := (SpeechRecognitionManager.doubleScore_range _ _ hn
        (SpeechRecognitionManager.errorCount_le_finalCount s)).2
      have hlt : ⌊SpeechRecognitionManager.doubleScore (SpeechRecognitionManager.errorCount s)
          (SpeechRecognitionManager.finalCount s) + 1 / 2⌋ < 101 := by
        rw [Int.floor_lt]
        push_cast
        linarith
      omega
    · rw [SpeechRecognitionManager.calculateFluencyScore_of_noise s hreal]
      decide

/-- C14 (as amended): `calculateFluencyScore` returns 0 when the transcript is empty, when
it has no item that is not interim, or when no such item has a word longer than 2
characters. In every other case it returns `Math.round`, a half rounded up, of the double
that `100 - (k / n * 100)` evaluates to, `n` being the number of items that are not interim
and `k` the number of items with status incorrect or stutter. That double is within
`300 / 2⁵³` of `100 - 100 k / n`; so the score is the integer `m` nearest to `100 - 100 k / n`
whenever that number is at least `300 / 2⁵³` away from both `m - 1/2` and `m + 1/2`, and it is
never farther from `100 - 100 k / n` than `1/2 + 300 / 2⁵³`. -/
theorem calculateFluencyScore_cases (s : SpeechRecognitionManager) :
    ((s.transcript = [] ∨ SpeechRecognitionManager.finalCount s = 0 ∨
        ¬ SpeechRecognitionManager.hasRealSpeech s) →
      SpeechRecognitionManager.calculateFluencyScore s = 0) ∧
    (¬ (s.transcript = [] ∨ SpeechRecognitionManager.finalCount s = 0 ∨
        ¬ SpeechRecognitionManager.hasRealSpeech s) →
      SpeechRecognitionManager.calculateFluencyScore s =
        SpeechRecognitionManager.mathRound
          (toDouble (100 - toDouble (toDouble
            ((SpeechRecognitionManager.errorCount s : ℚ) /
              (SpeechRecognitionManager.finalCount s : ℚ)) * 100))) ∧
      |toDouble (100 - toDouble (toDouble
            ((SpeechRecognitionManager.errorCount s : ℚ) /
              (SpeechRecognitionManager.finalCount s : ℚ)) * 100)) -
          (100 - 100 * ((SpeechRecognitionManager.errorCount s : ℚ) /
            (SpeechRecognitionManager.finalCount s : ℚ)))| ≤ 300 / 2 ^ (53 : ℕ) ∧
      (∀ m : Int,
        (m : ℚ) - 1 / 2 + 300 / 2 ^ (53 : ℕ) ≤
            100 - 100 * ((SpeechRecognitionManager.errorCount s : ℚ) /
              (SpeechRecognitionManager.finalCount s : ℚ)) →
        100 - 100 * ((SpeechRecognitionManager.errorCount s : ℚ) /
              (SpeechRecognitionManager.finalCount s : ℚ)) <
            (m : ℚ) + 1 / 2 - 300 / 2 ^ (53 : ℕ) →
        SpeechRecognitionManager.calculateFluencyScore s = m) ∧
      ((SpeechRecognitionManager.calculateFluencyScore s : Int) : ℚ) - 1 / 2 -
          300 / 2 ^ (53 : ℕ) ≤
        100 - 100 * ((SpeechRecognitionManager.errorCount s : ℚ) /
          (SpeechRecognitionManager.finalCount s : ℚ)) ∧
      100 - 100 * ((SpeechRecognitionManager.errorCount s : ℚ) /
          (SpeechRecognitionManager.finalCount s : ℚ)) <
        ((SpeechRecognitionManager.calculateFluencyScore s : Int) : ℚ) + 1 / 2 +
          300 / 2 ^ (53 : ℕ)) := by
  constructor
  · intro h
    apply SpeechRecognitionManager.calculateFluencyScore_of_noise
    rintro ⟨item, hmem, hst, hw⟩
    rcases h with h | h | h
    · rw [h] at hmem; cases hmem
    · exact SpeechRecognitionManager.finalCount_ne_zero_of_mem s item hmem hst h
    · exact h ⟨item, hmem, hst, hw⟩
  · intro h
    have hn : SpeechRecognitionManager.finalCount s ≠ 0 := fun h0 => h (Or.inr (Or.inl h0))
    have hreal : SpeechRecognitionManager.hasRealSpeech s := by
      by_contra hc
      exact h (Or.inr (Or.inr hc))
    have hscore := SpeechRecognitionManager.calculateFluencyScore_of_speech s hn hreal
    have herr := abs_le.mp (SpeechRecognitionManager.doubleScore_error _ _ hn
      (SpeechRecognitionManager.errorCount_le_finalCount s))
    have hround := SpeechRecognitionManager.mathRound_spec
      (SpeechRecognitionManager.doubleScore (SpeechRecognitionManager.errorCount s)
        (SpeechRecognitionManager.finalCount s))
    refine ⟨hscore, SpeechRecognitionManager.doubleScore_error _ _ hn
      (SpeechRecognitionManager.errorCount_le_finalCount s), ?_, ?_, ?_⟩
    · intro m hlo hhi
      rw [hscore]
      unfold SpeechRecognitionManager.mathRound
      rw [Int.floor_eq_iff]
      constructor <;> linarith [herr.1, herr.2]
    · rw [hscore]
      linarith [herr.1, herr.2, hround.1]
    · rw [hscore]
      linarith [herr.1, herr.2, hround.2]

/-- Witness of C14 (as amended): with one incorrect item among three final items the score
is 67, the integer nearest to `100 - 100/3`. -/
theorem calculateFluencyScore_cases_witness :
    ¬ (sampleTranscript.transcript = [] ∨
        SpeechRecognitionManager.finalCount sampleTranscript = 0 ∨
        ¬ SpeechRecognitionManager.hasRealSpeech sampleTranscript) ∧
    SpeechRecognitionManager.calculateFluencyScore sampleTranscript = 67 := by
  have hreal : SpeechRecognitionManager.hasRealSpeech sampleTranscript :=
    ⟨{ word := "the".toList, status := Status.neutral }, by decide, by decide, by decide⟩
  have hc : ¬ (sampleTranscript.transcript = [] ∨
      SpeechRecognitionManager.finalCount sampleTranscript = 0 ∨
      ¬ SpeechRecognitionManager.hasRealSpeech sampleTranscript) := by
    rintro (h | h | h)
    · exact absurd h (by decide)
    · exact absurd h (by decide)
    · exact h hreal
  refine ⟨hc, ?_⟩
  obtain ⟨-, -, hnear, -, -⟩ := (calculateFluencyScore_cases sampleTranscript).2 hc
  have hk : SpeechRecognitionManager.errorCount sampleTranscript = 1 := by decide
  have hn : SpeechRecognitionManager.finalCount sampleTranscript = 3 := by decide
  rw [hk, hn] at hnear
  exact hnear 67 (by norm_num) (by norm_num)

/-- C14 (counterexample to the literal claim): on a transcript of 200 items that are not
interim, 109 of them incorrect, `100 - 100 k / n` is 45.5, which rounds to 46; the code
computes the double just below 45.5 and returns 45. -/
theorem calculateFluencyScore_half_rounded_down :
    SpeechRecognitionManager.errorCount sampleHalf = 109 ∧
    SpeechRecognitionManager.finalCount sampleHalf = 200 ∧
    SpeechRecognitionManager.hasRealSpeech sampleHalf ∧
    SpeechRecognitionManager.mathRound (100 - 100 * ((109 : ℚ) / 200)) = 46 ∧
    SpeechRecognitionManager.calculateFluencyScore sampleHalf = 45 := by
  have hk : SpeechRecognitionManager.errorCount sampleHalf = 109 :=
    filter_replicate_append_length _ _ _ 109 91 (by decide) (by decide)
  have hn : SpeechRecognitionManager.finalCount sampleHalf = 200 :=
    filter_replicate_append_length_all _ _ _ 109 91 (by decide) (by decide)
  have hmem : ({ word := "think".toList, status := Status.incorrect } : TranscriptItem) ∈
      sampleHalf.transcript := by
    show _ ∈ List.replicate 109 _ ++ List.replicate 91 _
    rw [List.mem_append, List.mem_replicate]
    exact Or.inl ⟨by decide, rfl⟩
  have hreal : SpeechRecognitionManager.hasRealSpeech sampleHalf :=
    ⟨{ word := "think".toList, status := Status.incorrect }, hmem, by decide, by decide⟩
  have h1 : toDouble ((109 : ℚ) / 200) = 4908923593833841 * 2 ^ (-53 : ℤ) := by
    apply toDouble_eq _ _ _ (by norm_num)
    · norm_num
    · norm_num
    · norm_num [abs_lt]
  have h2 : toDouble (4908923593833841 * 2 ^ (-53 : ℤ) * 100) =
      7670193115365377 * 2 ^ (-47 : ℤ) := by
    apply toDouble_eq _ _ _ (by norm_num)
    · norm_num
    · norm_num
    · norm_num [abs_lt]
  have h3 : toDouble (100 - 7670193115365377 * 2 ^ (-47 : ℤ)) =
      6403555720167423 * 2 ^ (-47 : ℤ) := by
    apply toDouble_eq _ _ _ (by norm_num)
    · norm_num
    · norm_num
    · norm_num [abs_lt]
  refine ⟨hk, hn, hreal, ?_, ?_⟩
  · unfold SpeechRecognitionManager.mathRound
    rw [Int.floor_eq_iff]
    norm_num
  · rw [SpeechRecognitionManager.calculateFluencyScore_of_speech sampleHalf
      (by rw [hn]; decide) hreal, hk, hn]
    unfold SpeechRecognitionManager.doubleScore SpeechRecognitionManager.mathRound
    push_cast
    rw [h1, h2, h3, Int.floor_eq_iff]
    norm_num

/-! ## The final pass of `analyzeTranscript` -/

namespace SpeechRecognitionManager

/-- In `pre ++ x :: xs` the first entry satisfying `p`, which `x` satisfies, is `x` exactly
when no entry of `pre` satisfies `p`. -/
theorem findIdx?_append_cons_eq_length {α : Type} (p : α → Bool) (pre : List α) (x : α)
    (xs : List α) (hx : p x = true) :
    (pre ++ x :: xs).findIdx? p = some pre.length ↔ ∀ z ∈ pre, p z = false := by
  rw [List.findIdx?_eq_some_iff_getElem]
  constructor
  · rintro ⟨_, _, hbefore⟩ z hz
    obtain ⟨j, hj, rfl⟩ := List.getElem_of_mem hz
    have := hbefore j hj
    rw [List.getElem_append_left hj] at this
    simpa using this
  · intro hall
    refine ⟨by simp, ?_, ?_⟩
    · rw [List.getElem_append_right (Nat.le_refl _)]
      simpa using hx
    · intro j hj
      rw [List.getElem_append_left hj]
      simpa using hall _ (List.getElem_mem hj)

/-- The index filter of the final pass, started after the entries `pre`, keeps the first
occurrences whose word no entry of `pre` has. -/
theorem uniqueWords_aux : ∀ (l pre : List WordRecord),
    (((l.enumFrom pre.length).filter (fun p =>
      decide ((pre ++ l).findIdx? (fun w => w.word = p.2.word) = some p.1))).map
        (fun p => p.2)) =
      (firstOccurrences l).filter (fun y => pre.all (fun z => z.word ≠ y.word)) := by
  intro l
  induction l with
  | nil => intro pre; rfl
  | cons x xs ih =>
    intro pre
    have htail := ih (pre ++ [x])
    simp only [List.length_append, List.length_singleton, List.append_assoc,
      List.singleton_append] at htail
    have hhead : decide ((pre ++ x :: xs).findIdx? (fun w => decide (w.word = x.word)) =
        some pre.length) = pre.all (fun z => decide (z.word ≠ x.word)) := by
      rw [Bool.eq_iff_iff]
      simp only [decide_eq_true_eq, List.all_eq_true]
      rw [findIdx?_append_cons_eq_length _ pre x xs (by simp)]
      simp
    simp only [List.enumFrom_cons, firstOccurrences, List.filter_cons, hhead]
    have hrest : List.filter (fun y => pre.all (fun z => decide (z.word ≠ y.word)))
        (List.filter (fun other => decide (other.word ≠ x.word)) (firstOccurrences xs)) =
        List.filter (fun y => (pre ++ [x]).all (fun z => decide (z.word ≠ y.word)))
          (firstOccurrences xs) := by
      rw [List.filter_filter]
      apply List.filter_congr
      intro y _
      simp only [List.all_append, List.all_cons, List.all_nil, Bool.and_true]
      rw [Bool.eq_iff_iff]
      simp only [Bool.and_eq_true, decide_eq_true_eq, ne_eq]
      constructor
      · rintro ⟨h1, h2⟩; exact ⟨h1, fun h => h2 h.symm⟩
      · rintro ⟨h1, h2⟩; exact ⟨h1, fun h => h2 h.symm⟩
    rw [hrest, ← htail]
    split_ifs <;> rfl

/-- The final pass keeps exactly the first occurrences. -/
theorem uniqueWords_eq_firstOccurrences (l : List WordRecord) :
    uniqueWords l = firstOccurrences l := by
  have h := uniqueWords_aux l []
  simp only [List.length_nil, List.nil_append, List.all_nil, List.filter_true] at h
  exact h

theorem firstOccurrences_sublist : ∀ l : List WordRecord, (firstOccurrences l).Sublist l := by
  intro l
  induction l with
  | nil => exact List.Sublist.slnil
  | cons x xs ih =>
    exact List.Sublist.cons₂ x ((List.filter_sublist _).trans ih)

theorem firstOccurrences_pairwise : ∀ l : List WordRecord,
    (firstOccurrences l).Pairwise (fun a b => a.word ≠ b.word) := by
  intro l
  induction l with
  | nil => exact List.Pairwise.nil
  | cons x xs ih =>
    simp only [firstOccurrences]
    rw [List.pairwise_cons]
    constructor
    · intro y hy
      have := (List.mem_filter.mp hy).2
      intro h
      simp [h] at this
    · exact List.Pairwise.filter _ ih

/-- Every word of the list keeps its first entry. -/
theorem firstOccurrences_find : ∀ (l : List WordRecord) (x : WordRecord), x ∈ l →
    ∃ y ∈ firstOccurrences l, l.find? (fun w => w.word = x.word) = some y := by
  intro l
  induction l with
  | nil => intro x hx; cases hx
  | cons a rest ih =>
    intro x hx
    by_cases ha : a.word = x.word
    · exact ⟨a, List.mem_cons_self _ _, by simp [List.find?, ha]⟩
    · have hx' : x ∈ rest := by
        rcases List.mem_cons.mp hx with h | h
        · exact absurd (congrArg WordRecord.word h).symm ha
        · exact h
      obtain ⟨y, hy, hfind⟩ := ih x hx'
      have hyw : y.word = x.word := by
        have := List.find?_some hfind
        simpa using this
      refine ⟨y, ?_, by simp [List.find?, ha, hfind]⟩
      simp only [firstOccurrences]
      apply List.mem_cons_of_mem
      rw [List.mem_filter]
      exact ⟨hy, by simp [hyw]; exact fun h => ha h.symm⟩

end SpeechRecognitionManager

/-- Claim C12: whenever `analyzeTranscript` returns, no two entries of the difficult list
have the same word, and the list is exactly the subsequence of first occurrences, in
original order, of the list as it stood before the final pass: it is a sublist of that
list, and every word of that list keeps its first entry. -/
theorem analyzeTranscript_unique (random : Nat → ℚ) (fuel : Nat)
    (s s' : SpeechRecognitionManager)
    (h : SpeechRecognitionManager.analyzeTranscript random fuel s = some s') :
    ∃ before, SpeechRecognitionManager.analyzeSelection random fuel s = some before ∧
      s'.difficultList = SpeechRecognitionManager.firstOccurrences before.difficultList ∧
      s'.difficultList.Pairwise (fun a b => a.word ≠ b.word) ∧
      s'.difficultList.Sublist before.difficultList ∧
      ∀ x ∈ before.difficultList, ∃ y ∈ s'.difficultList,
        before.difficultList.find? (fun w => w.word = x.word) = some y := by
  unfold SpeechRecognitionManager.analyzeTranscript at h
  cases hsel : SpeechRecognitionManager.analyzeSelection random fuel s with
  | none => rw [hsel] at h; cases h
  | some before =>
    rw [hsel] at h
    simp only [Option.some.injEq] at h
    have hlist : s'.difficultList =
        SpeechRecognitionManager.firstOccurrences before.difficultList := by
      rw [← h]
      exact SpeechRecognitionManager.uniqueWords_eq_firstOccurrences _
    refine ⟨before, rfl, hlist, ?_, ?_, ?_⟩
    · rw [hlist]; exact SpeechRecognitionManager.firstOccurrences_pairwise _
    · rw [hlist]; exact SpeechRecognitionManager.firstOccurrences_sublist _
    · rw [hlist]; exact SpeechRecognitionManager.firstOccurrences_find _

/-- Witness of claim C12: the list `cat, sat, cat` becomes `cat, sat`. -/
theorem analyzeTranscript_unique_witness :
    SpeechRecognitionManager.analyzeTranscript (fun _ => 0) 0 sampleDuplicates =
      some { sampleDuplicates with
        difficultList := sampleDuplicates.difficultList.take 2 } ∧
    ∃ before, SpeechRecognitionManager.analyzeSelection (fun _ => 0) 0 sampleDuplicates =
        some before ∧
      sampleDuplicates.difficultList.take 2 =
        SpeechRecognitionManager.firstOccurrences before.difficultList ∧
      (sampleDuplicates.difficultList.take 2).Pairwise (fun a b => a.word ≠ b.word) ∧
      (sampleDuplicates.difficultList.take 2).Sublist before.difficultList ∧
      ∀ x ∈ before.difficultList, ∃ y ∈ sampleDuplicates.difficultList.take 2,
        before.difficultList.find? (fun w => w.word = x.word) = some y :=
  ⟨by decide, analyzeTranscript_unique (fun _ => 0) 0 sampleDuplicates
    { sampleDuplicates with difficultList := sampleDuplicates.difficultList.take 2 }
    (by decide)⟩

/-! ## The practice plan -/

theorem mem_firstSeen (l : List JsString) (x : JsString) : x ∈ firstSeen l ↔ x ∈ l := by
  induction l with
  | nil => simp [firstSeen]
  | cons a rest ih =>
    simp only [firstSeen, List.mem_cons, List.mem_filter, ih]
    by_cases h : x = a
    · simp [h]
    · simp [h]

theorem firstSeen_nodup (l : List JsString) : (firstSeen l).Nodup := by
  induction l with
  | nil => exact List.nodup_nil
  | cons a rest ih =>
    simp only [firstSeen]
    rw [List.nodup_cons]
    exact ⟨fun h => by simpa using (List.mem_filter.mp h).2, List.Nodup.filter _ ih⟩

/-- Appending an element to a list appends it to the distinct elements if it is new. -/
theorem firstSeen_append_singleton (l : List JsString) (x : JsString) :
    firstSeen (l ++ [x]) = if x ∈ l then firstSeen l else firstSeen l ++ [x] := by
  induction l with
  | nil => simp [firstSeen]
  | cons a rest ih =>
    have hcons : firstSeen (a :: rest ++ [x]) =
        a :: (firstSeen (rest ++ [x])).filter (fun y => y ≠ a) := rfl
    have hcons' : firstSeen (a :: rest) = a :: (firstSeen rest).filter (fun y => y ≠ a) := rfl
    rw [hcons, ih, hcons']
    by_cases hxa : x = a
    · subst hxa
      by_cases hx : x ∈ rest
      · simp [hx]
      · simp [hx, List.filter_append]
    · by_cases hx : x ∈ rest
      · simp [hx, hxa]
      · simp [hx, hxa, List.filter_append]

namespace PronounceTrainer

/-- The object `wordsBySound` in closed form: the distinct sounds in first-seen order, each
with the input words of that sound in input order. -/
theorem groupBySound_eq (difficultWords : List DrillAttemptResult) :
    groupBySound difficultWords =
      (firstSeen (difficultWords.map (fun r => r.sound))).map
        (fun k => (k, wordsOfSound difficultWords k)) := by
  have key : ∀ (l pre : List DrillAttemptResult),
      List.foldl (fun wordsBySound (wordData : DrillAttemptResult) =>
        (if wordsBySound.any (fun kv => decide (kv.1 = wordData.sound)) = true then wordsBySound
          else wordsBySound ++ [(wordData.sound, [])]).map (fun kv =>
            if kv.1 = wordData.sound then (kv.1, kv.2 ++ [wordData.word]) else kv))
        ((firstSeen (pre.map (fun r => r.sound))).map (fun k => (k, wordsOfSound pre k))) l =
      (firstSeen ((pre ++ l).map (fun r => r.sound))).map
        (fun k => (k, wordsOfSound (pre ++ l) k)) := by
    intro l
    induction l with
    | nil => intro pre; simp
    | cons x xs ih =>
      intro pre
      have hstep : (if ((firstSeen (pre.map (fun r => r.sound))).map
            (fun k => (k, wordsOfSound pre k))).any (fun kv => decide (kv.1 = x.sound)) = true
          then (firstSeen (pre.map (fun r => r.sound))).map (fun k => (k, wordsOfSound pre k))
          else (firstSeen (pre.map (fun r => r.sound))).map (fun k => (k, wordsOfSound pre k)) ++
            [(x.sound, [])]).map (fun kv =>
              if kv.1 = x.sound then (kv.1, kv.2 ++ [x.word]) else kv) =
          (firstSeen ((pre ++ [x]).map (fun r => r.sound))).map
            (fun k => (k, wordsOfSound (pre ++ [x]) k)) := by
        have hwords : ∀ k, wordsOfSound (pre ++ [x]) k =
            if x.sound = k then wordsOfSound pre k ++ [x.word] else wordsOfSound pre k := by
          intro k
          unfold wordsOfSound
          by_cases hk : x.sound = k
          · simp [List.filter_append, hk, List.filter]
          · simp [List.filter_append, hk, List.filter]
        rw [List.map_append, List.map_singleton, firstSeen_append_singleton]
        by_cases hmem : x.sound ∈ pre.map (fun r => r.sound)
        · have hany : ((firstSeen (pre.map (fun r => r.sound))).map
              (fun k => (k, wordsOfSound pre k))).any (fun kv => decide (kv.1 = x.sound)) =
              true := by
            rw [List.any_eq_true]
            exact ⟨(x.sound, wordsOfSound pre x.sound),
              List.mem_map.mpr ⟨x.sound, (mem_firstSeen _ _).mpr hmem, rfl⟩, by simp⟩
          rw [if_pos hany, if_pos hmem, List.map_map]
          apply List.map_congr_left
          intro k _
          simp only [Function.comp, hwords]
          by_cases hk : k = x.sound
          · simp [hk]
          · have hk' : ¬ (x.sound = k) := fun h => hk h.symm
            simp [hk, hk']
        · have hany : ¬ (((firstSeen (pre.map (fun r => r.sound))).map
              (fun k => (k, wordsOfSound pre k))).any (fun kv => decide (kv.1 = x.sound)) =
              true) := by
            rw [List.any_eq_true]
            rintro ⟨kv, hkv, hdec⟩
            obtain ⟨k, hk, rfl⟩ := List.mem_map.mp hkv
            have : k = x.sound := by simpa using hdec
            exact hmem (this ▸ (mem_firstSeen _ _).mp hk)
          have hnone : wordsOfSound pre x.sound = [] := by
            unfold wordsOfSound
            rw [List.map_eq_nil_iff, List.filter_eq_nil_iff]
            intro r hr hdec
            exact hmem (List.mem_map.mpr ⟨r, hr, by simpa using hdec⟩)
          rw [if_neg hany, if_neg hmem, List.map_append, List.map_append, List.map_map]
          congr 1
          · apply List.map_congr_left
            intro k hk
            have hk' : ¬ (k = x.sound) := by
              intro h
              exact hmem (h ▸ (mem_firstSeen _ _).mp hk)
            have hk'' : ¬ (x.sound = k) := fun h => hk' h.symm
            simp [Function.comp, hwords, hk', hk'']
          · simp [hwords, hnone]
      simp only [List.foldl_cons]
      rw [hstep]
      have := ih (pre ++ [x])
      simp only [List.append_assoc, List.singleton_append] at this
      exact this
  have h := key difficultWords []
  simp only [List.map_nil, firstSeen, List.nil_append] at h
  unfold groupBySound
  exact h

end PronounceTrainer

namespace PronounceTrainer

theorem find?_key_map {β : Type} (f : JsString → β) :
    ∀ (keys : List JsString) (k : JsString), k ∈ keys →
      (keys.map (fun k => (k, f k))).find? (fun kv => kv.1 = k) = some (k, f k) := by
  intro keys
  induction keys with
  | nil => intro k hk; cases hk
  | cons a rest ih =>
    intro k hk
    by_cases ha : a = k
    · subst ha; simp [List.find?]
    · have hk' : k ∈ rest := by
        rcases List.mem_cons.mp hk with h | h
        · exact absurd h.symm ha
        · exact h
      simp only [List.map_cons, List.find?, ha, decide_False]
      exact ih k hk'

/-- The plan returned for a non-empty input, in closed form. -/
theorem generatePracticePlan_eq (difficultWords : List DrillAttemptResult)
    (hne : difficultWords ≠ []) :
    generatePracticePlan difficultWords =
      some { days := 5
             schedule := (List.range' 1 5).map (fun day =>
               { day := day, sounds := daySounds difficultWords day })
             startDate := none } := by
  have hlen : difficultWords.length ≠ 0 := fun h => hne (List.length_eq_zero.mp h)
  unfold generatePracticePlan
  rw [if_neg hlen, groupBySound_eq]
  simp only [List.map_map]
  have hkeys : (List.map ((fun kv : JsString × List JsString => kv.1) ∘
      fun k => (k, wordsOfSound difficultWords k))
      (firstSeen (difficultWords.map (fun r => r.sound)))) =
      firstSeen (difficultWords.map (fun r => r.sound)) := by
    rw [show ((fun kv : JsString × List JsString => kv.1) ∘
      fun k => (k, wordsOfSound difficultWords k)) = id from rfl, List.map_id]
  rw [hkeys]
  congr 2
  apply List.map_congr_left
  intro day _
  congr 1
  unfold daySounds
  apply List.map_congr_left
  intro p hp
  have hmem : p.2 ∈ firstSeen (difficultWords.map (fun r => r.sound)) := by
    have := (List.mem_filter.mp hp).1
    rw [List.mem_enum_iff_getElem?] at this
    exact List.getElem?_mem this
  rw [find?_key_map (wordsOfSound difficultWords) _ p.2 hmem]

end PronounceTrainer

/-- Among the indices below `c`, those congruent to `k` modulo 5 number `(c + 4 - k) / 5`. -/
theorem count_congruent (k : Nat) (hk : k < 5) : ∀ c : Nat,
    ((List.range c).filter (fun i => i % 5 = k)).length = (c + 4 - k) / 5 := by
  intro c
  induction c with
  | zero => simp; omega
  | succ c ih =>
    rw [List.range_succ, List.filter_append, List.length_append, ih]
    by_cases h : c % 5 = k
    · simp only [List.filter, h, decide_True, List.length_singleton]; omega
    · simp only [List.filter, h, decide_False, List.length_nil]; omega

/-! ## The practice plan on every input -/

namespace PronounceTrainer

/-- A sound that `Object.prototype` does not define is grouped as a property of its own. -/
theorem groupStepExact_of_ordinary (wordsBySound : List (JsString × List JsString))
    (wordData : DrillAttemptResult) (h : wordData.sound ∉ objectPrototypeNames) :
    groupStepExact wordsBySound wordData =
      Except.ok
        ((if wordsBySound.any (fun kv => kv.1 = wordData.sound) then wordsBySound
          else wordsBySound ++ [(wordData.sound, [])]).map (fun kv =>
            if kv.1 = wordData.sound then (kv.1, kv.2 ++ [wordData.word]) else kv)) := by
  unfold groupStepExact
  cases hf : wordsBySound.find? (fun kv => kv.1 = wordData.sound) with
  | some kv =>
    have hany : wordsBySound.any (fun kv => kv.1 = wordData.sound) = true := by
      rw [List.any_eq_true]
      have hp := List.find?_some hf
      exact ⟨kv, List.mem_of_find?_eq_some hf, hp⟩
    have hget : getProperty wordsBySound wordData.sound = PropertyValue.array kv.2 := by
      unfold getProperty
      rw [hf]
    simp only [hget, hany, if_true]
  | none =>
    have hany : wordsBySound.any (fun kv => kv.1 = wordData.sound) = false := by
      rw [List.any_eq_false]
      intro kv hkv
      exact List.find?_eq_none.mp hf kv hkv
    have hget : getProperty wordsBySound wordData.sound = PropertyValue.undefined := by
      unfold getProperty
      rw [hf]
      simp only [if_neg h]
    have hget' : getProperty (wordsBySound ++ [(wordData.sound, [])]) wordData.sound =
        PropertyValue.array [] := by
      unfold getProperty
      rw [List.find?_append, hf]
      simp [List.find?]
    simp only [hget, hget', hany, Bool.false_eq_true, if_false]

/-- A sound that `Object.prototype` defines, and that is no property of the object itself,
ends the loop with a `TypeError`. -/
theorem groupStepExact_of_inherited (wordsBySound : List (JsString × List JsString))
    (wordData : DrillAttemptResult)
    (hown : ∀ kv ∈ wordsBySound, kv.1 ∉ objectPrototypeNames)
    (h : wordData.sound ∈ objectPrototypeNames) :
    groupStepExact wordsBySound wordData = Except.error JsError.typeError := by
  have hf : wordsBySound.find? (fun kv => kv.1 = wordData.sound) = none := by
    rw [List.find?_eq_none]
    intro kv hkv heq
    have : kv.1 = wordData.sound := by simpa using heq
    exact hown kv hkv (this ▸ h)
  have hget : getProperty wordsBySound wordData.sound = PropertyValue.inherited := by
    unfold getProperty
    rw [hf]
    simp only [if_pos h]
  unfold groupStepExact
  simp only [hget]

/-- The grouping loop on sounds that `Object.prototype` does not define. -/
theorem groupLoopExact_of_ordinary : ∀ (difficultWords : List DrillAttemptResult)
    (wordsBySound : List (JsString × List JsString)),
    (∀ r ∈ difficultWords, r.sound ∉ objectPrototypeNames) →
    groupLoopExact difficultWords wordsBySound =
      Except.ok (difficultWords.foldl (fun wordsBySound wordData =>
        let wordsBySound :=
          if wordsBySound.any (fun kv => kv.1 = wordData.sound) then wordsBySound
          else wordsBySound ++ [(wordData.sound, [])]
        wordsBySound.map (fun kv =>
          if kv.1 = wordData.sound then (kv.1, kv.2 ++ [wordData.word]) else kv))
        wordsBySound) := by
  intro difficultWords
  induction difficultWords with
  | nil => intro wordsBySound _; rfl
  | cons wordData rest ih =>
    intro wordsBySound h
    rw [groupLoopExact, groupStepExact_of_ordinary wordsBySound wordData
      (h wordData (List.mem_cons_self _ _))]
    simp only [List.foldl_cons]
    exact ih _ (fun r hr => h r (List.mem_cons_of_mem _ hr))

/-- The grouping loop on an input with a sound that `Object.prototype` defines. -/
theorem groupLoopExact_of_inherited : ∀ (difficultWords : List DrillAttemptResult)
    (wordsBySound : List (JsString × List JsString)),
    (∀ kv ∈ wordsBySound, kv.1 ∉ objectPrototypeNames) →
    (∃ r ∈ difficultWords, r.sound ∈ objectPrototypeNames) →
    groupLoopExact difficultWords wordsBySound = Except.error JsError.typeError := by
  intro difficultWords
  induction difficultWords with
  | nil => intro _ _ h; obtain ⟨r, hr, _⟩ := h; cases hr
  | cons wordData rest ih =>
    intro wordsBySound hown h
    by_cases hw : wordData.sound ∈ objectPrototypeNames
    · rw [groupLoopExact, groupStepExact_of_inherited wordsBySound wordData hown hw]
    · rw [groupLoopExact, groupStepExact_of_ordinary wordsBySound wordData hw]
      apply ih
      · intro kv hkv
        obtain ⟨kv', hkv', rfl⟩ := List.mem_map.mp hkv
        have hkey : (if kv'.1 = wordData.sound then (kv'.1, kv'.2 ++ [wordData.word])
            else kv').1 = kv'.1 := by
          split_ifs <;> rfl
        rw [hkey]
        split_ifs at hkv' with hany
        · exact hown kv' hkv'
        · rcases List.mem_append.mp hkv' with h1 | h1
          · exact hown kv' h1
          · rw [List.mem_singleton.mp h1]; exact hw
      · obtain ⟨r, hr, hrs⟩ := h
        rcases List.mem_cons.mp hr with h1 | h1
        · rw [h1] at hrs; exact absurd hrs hw
        · exact ⟨r, h1, hrs⟩

end PronounceTrainer

/-- The keys of the grouped object are the sounds in the order of `soundOrder`. -/
theorem objectKeys_groups (difficultWords : List DrillAttemptResult)
    (f : JsString → List JsString) :
    objectKeys ((firstSeen (difficultWords.map (fun r => r.sound))).map (fun k => (k, f k))) =
      soundOrder difficultWords := by
  unfold objectKeys soundOrder
  simp only [List.map_map]
  rw [show ((fun kv : JsString × List JsString => kv.1) ∘ fun k => (k, f k)) = id from rfl,
    List.map_id]

/-- The order of `Object.keys` rearranges the distinct sounds. -/
theorem soundOrder_perm (difficultWords : List DrillAttemptResult) :
    (soundOrder difficultWords).Perm (firstSeen (difficultWords.map (fun r => r.sound))) := by
  unfold soundOrder
  refine ((List.perm_insertionSort _ _).append_right _).trans ?_
  have h := List.filter_append_perm (fun s : JsString => (arrayIndex s).isSome)
    (firstSeen (difficultWords.map (fun r => r.sound)))
  have heq : (firstSeen (difficultWords.map (fun r => r.sound))).filter
      (fun s => decide (¬ (arrayIndex s).isSome = true)) =
      (firstSeen (difficultWords.map (fun r => r.sound))).filter
        (fun s => !(arrayIndex s).isSome) :=
    List.filter_congr (fun s _ => by cases arrayIndex s <;> rfl)
  rw [heq]
  exact h

theorem soundOrder_nodup (difficultWords : List DrillAttemptResult) :
    (soundOrder difficultWords).Nodup :=
  (soundOrder_perm difficultWords).nodup_iff.mpr (firstSeen_nodup _)

theorem length_soundOrder (difficultWords : List DrillAttemptResult) :
    (soundOrder difficultWords).length =
      (firstSeen (difficultWords.map (fun r => r.sound))).length :=
  (soundOrder_perm difficultWords).length_eq

theorem mem_soundOrder (difficultWords : List DrillAttemptResult) (s : JsString) :
    s ∈ soundOrder difficultWords ↔ ∃ r ∈ difficultWords, r.sound = s := by
  rw [(soundOrder_perm difficultWords).mem_iff, mem_firstSeen, List.mem_map]

/-- Without a sound that is an array index, `Object.keys` lists the sounds in first-seen
order. -/
theorem soundOrder_of_no_index (difficultWords : List DrillAttemptResult)
    (h : ∀ r ∈ difficultWords, arrayIndex r.sound = none) :
    soundOrder difficultWords = firstSeen (difficultWords.map (fun r => r.sound)) := by
  have hnone : ∀ s ∈ firstSeen (difficultWords.map (fun r => r.sound)),
      arrayIndex s = none := by
    intro s hs
    obtain ⟨r, hr, rfl⟩ := List.mem_map.mp ((mem_firstSeen _ _).mp hs)
    exact h r hr
  unfold soundOrder
  rw [List.filter_eq_nil_iff.mpr (fun s hs => by simp [hnone s hs]),
    List.filter_eq_self.mpr (fun s hs => by simp [hnone s hs])]
  rfl

/-- The sound groups of a day, for the sounds in the order of `Object.keys`. -/
theorem length_day_filter (order : List JsString) (day : Nat) :
    (order.enum.filter (fun p => p.1 % 5 = (day - 1) % 5)).length =
      (order.length + 4 - (day - 1) % 5) / 5 := by
  rw [← count_congruent ((day - 1) % 5) (Nat.mod_lt _ (by decide)),
    ← List.enum_map_fst, List.filter_map, List.length_map]
  rfl

theorem mem_day_filter (order : List JsString) (hnodup : order.Nodup) (day i : Nat)
    (hi : i < order.length) :
    order[i] ∈ (order.enum.filter (fun p => p.1 % 5 = (day - 1) % 5)).map (fun p => p.2) ↔
      i % 5 = (day - 1) % 5 := by
  simp only [List.mem_map, List.mem_filter, List.mem_enum_iff_getElem?, decide_eq_true_eq]
  constructor
  · rintro ⟨p, ⟨hp, hmod⟩, hsound⟩
    obtain ⟨hlt, hget⟩ := List.getElem?_eq_some.mp hp
    have hidx : p.1 = i := by
      apply (hnodup.getElem_inj_iff).mp
      rw [hget]; exact hsound
    rw [← hidx]; exact hmod
  · intro hmod
    exact ⟨(i, order[i]), ⟨List.getElem?_eq_getElem hi, hmod⟩, rfl⟩

namespace PronounceTrainer

/-- The plan returned for a non-empty input without a sound that `Object.prototype`
defines, in closed form. -/
theorem generatePracticePlanExact_eq (difficultWords : List DrillAttemptResult)
    (hne : difficultWords ≠ [])
    (hproto : ∀ r ∈ difficultWords, r.sound ∉ objectPrototypeNames) :
    generatePracticePlanExact difficultWords =
      Except.ok (some
        { days := 5
          schedule := (List.range' 1 5).map (fun day =>
            { day := day
              sounds := ((soundOrder difficultWords).enum.filter
                (fun p => p.1 % 5 = (day - 1) % 5)).map (fun p =>
                  { sound := p.2, words := wordsOfSound difficultWords p.2 }) })
          startDate := none }) := by
  have hlen : difficultWords.length ≠ 0 := fun h => hne (List.length_eq_zero.mp h)
  have hloop : groupLoopExact difficultWords [] =
      Except.ok ((firstSeen (difficultWords.map (fun r => r.sound))).map
        (fun k => (k, wordsOfSound difficultWords k))) := by
    rw [groupLoopExact_of_ordinary difficultWords [] hproto, ← groupBySound_eq]
    rfl
  unfold generatePracticePlanExact
  rw [if_neg hlen, hloop]
  simp only [objectKeys_groups]
  congr 3
  apply List.map_congr_left
  intro day _
  congr 1
  apply List.map_congr_left
  intro p hp
  have hmem : p.2 ∈ firstSeen (difficultWords.map (fun r => r.sound)) := by
    have := (List.mem_filter.mp hp).1
    rw [List.mem_enum_iff_getElem?] at this
    exact (soundOrder_perm difficultWords).mem_iff.mp (List.getElem?_mem this)
  unfold getProperty
  rw [find?_key_map (wordsOfSound difficultWords) _ p.2 hmem]

/-- A non-empty input with a sound that `Object.prototype` defines ends the call with a
`TypeError`. -/
theorem generatePracticePlanExact_of_inherited (difficultWords : List DrillAttemptResult)
    (h : ∃ r ∈ difficultWords, r.sound ∈ objectPrototypeNames) :
    generatePracticePlanExact difficultWords = Except.error JsError.typeError := by
  have hlen : difficultWords.length ≠ 0 := by
    obtain ⟨r, hr, _⟩ := h
    intro h0
    rw [List.length_eq_zero.mp h0] at hr
    cases hr
  unfold generatePracticePlanExact
  rw [if_neg hlen, groupLoopExact_of_inherited difficultWords []
    (fun kv hkv => by cases hkv) h]

/-- On sounds that are ordinary property names, neither defined by `Object.prototype` nor
array indices, the method on every input returns what `generatePracticePlan` gives. -/
theorem generatePracticePlanExact_of_plain (difficultWords : List DrillAttemptResult)
    (hproto : ∀ r ∈ difficultWords, r.sound ∉ objectPrototypeNames)
    (hindex : ∀ r ∈ difficultWords, arrayIndex r.sound = none) :
    generatePracticePlanExact difficultWords =
      Except.ok (generatePracticePlan difficultWords) := by
  by_cases hne : difficultWords = []
  · subst hne; rfl
  · rw [generatePracticePlanExact_eq difficultWords hne hproto,
      soundOrder_of_no_index difficultWords hindex]
    have hlen : difficultWords.length ≠ 0 := fun h => hne (List.length_eq_zero.mp h)
    unfold generatePracticePlan
    rw [if_neg hlen, groupBySound_eq]
    simp only [List.map_map]
    rw [show ((fun kv : JsString × List JsString => kv.1) ∘
      fun k => (k, wordsOfSound difficultWords k)) = id from rfl, List.map_id]
    congr 3
    apply List.map_congr_left
    intro day _
    congr 1
    apply List.map_congr_left
    intro p hp
    have hmem : p.2 ∈ firstSeen (difficultWords.map (fun r => r.sound)) := by
      have := (List.mem_filter.mp hp).1
      rw [List.mem_enum_iff_getElem?] at this
      exact List.getElem?_mem this
    rw [find?_key_map (wordsOfSound difficultWords) _ p.2 hmem]

end PronounceTrainer

/-- C16 (as amended): `generatePracticePlan` returns null exactly when its input is empty.
A call on an input with a sound that is a property name of `Object.prototype`, such as
`constructor`, ends with a `TypeError` and returns nothing, and only such a call does. For
every other non-empty input the method returns a plan with `days = 5` whose schedule has
exactly 5 day plans, with the day fields 1, 2, 3, 4, 5 in that order. -/
theorem generatePracticePlan_five_days (difficultWords : List DrillAttemptResult) :
    (PronounceTrainer.generatePracticePlanExact difficultWords = Except.ok none ↔
      difficultWords = []) ∧
    (PronounceTrainer.generatePracticePlanExact difficultWords =
        Except.error JsError.typeError ↔
      ∃ r ∈ difficultWords, r.sound ∈ objectPrototypeNames) ∧
    (difficultWords ≠ [] → (∀ r ∈ difficultWords, r.sound ∉ objectPrototypeNames) →
      ∃ plan, PronounceTrainer.generatePracticePlanExact difficultWords =
          Except.ok (some plan) ∧
        plan.days = 5 ∧ plan.schedule.length = 5 ∧
        plan.schedule.map (fun d => d.day) = [1, 2, 3, 4, 5]) := by
  refine ⟨⟨?_, ?_⟩, ⟨?_, ?_⟩, ?_⟩
  · intro h
    by_contra hne
    by_cases hproto : ∃ r ∈ difficultWords, r.sound ∈ objectPrototypeNames
    · rw [PronounceTrainer.generatePracticePlanExact_of_inherited difficultWords hproto] at h
      cases h
    · rw [PronounceTrainer.generatePracticePlanExact_eq difficultWords hne
        (fun r hr hs => hproto ⟨r, hr, hs⟩)] at h
      cases h
  · intro h
    subst h
    rfl
  · intro h
    by_contra hproto
    by_cases hne : difficultWords = []
    · subst hne
      cases h
    · rw [PronounceTrainer.generatePracticePlanExact_eq difficultWords hne
        (fun r hr hs => hproto ⟨r, hr, hs⟩)] at h
      cases h
  · exact PronounceTrainer.generatePracticePlanExact_of_inherited difficultWords
  · intro hne hproto
    exact ⟨_, PronounceTrainer.generatePracticePlanExact_eq difficultWords hne hproto,
      rfl, rfl, rfl⟩

/-- Witness of C16 (as amended) on seven results. -/
theorem generatePracticePlan_five_days_witness :
    sampleResults ≠ [] ∧ (∀ r ∈ sampleResults, r.sound ∉ objectPrototypeNames) ∧
    ∃ plan, PronounceTrainer.generatePracticePlanExact sampleResults =
        Except.ok (some plan) ∧
      plan.days = 5 ∧ plan.schedule.length = 5 ∧
      plan.schedule.map (fun d => d.day) = [1, 2, 3, 4, 5] :=
  ⟨by decide, by decide,
    (generatePracticePlan_five_days sampleResults).2.2 (by decide) (by decide)⟩

/-- C16 (counterexample to the literal claim): on the non-empty input of one result whose
sound is `constructor` the call ends with a `TypeError`, so no plan is returned. -/
theorem generatePracticePlan_inherited_sound_raises :
    sampleInherited ≠ [] ∧
    PronounceTrainer.generatePracticePlanExact sampleInherited =
      Except.error JsError.typeError ∧
    ¬ ∃ plan, PronounceTrainer.generatePracticePlanExact sampleInherited =
      Except.ok (some plan) := by
  refine ⟨by decide, rfl, ?_⟩
  rintro ⟨plan, h⟩
  cases h

/-- C17 (as amended): for a non-empty input without a sound that is a property name of
`Object.prototype`, the plan takes the distinct sounds in the order of `Object.keys`: the
sounds that are array indices, such as `1`, by ascending number, then the other sounds in
first-seen order; this is the first-seen order when no sound is an array index. The sound
at index `i` of that order appears in the day plan of day `i mod 5 + 1` and in no other
day; each sound group lists exactly the input words having that sound, in input order; and
each day holds `c / 5` rounded down or rounded up sounds, `c` being the number of distinct
sounds, hence at most one sound when `c ≤ 5`. -/
theorem generatePracticePlan_distribution (difficultWords : List DrillAttemptResult)
    (hne : difficultWords ≠ [])
    (hproto : ∀ r ∈ difficultWords, r.sound ∉ objectPrototypeNames) :
    ∃ plan, PronounceTrainer.generatePracticePlanExact difficultWords =
        Except.ok (some plan) ∧
      (soundOrder difficultWords).Perm (firstSeen (difficultWords.map (fun r => r.sound))) ∧
      ((∀ r ∈ difficultWords, arrayIndex r.sound = none) →
        soundOrder difficultWords = firstSeen (difficultWords.map (fun r => r.sound))) ∧
      (∀ d ∈ plan.schedule, d.sounds.map (fun g => g.sound) =
        ((soundOrder difficultWords).enum.filter
          (fun p => p.1 % 5 = (d.day - 1) % 5)).map (fun p => p.2)) ∧
      (∀ (i : Nat) (hi : i < (soundOrder difficultWords).length),
        ∀ d ∈ plan.schedule,
          ((soundOrder difficultWords)[i] ∈ d.sounds.map (fun g => g.sound) ↔
            d.day = i % 5 + 1)) ∧
      (∀ d ∈ plan.schedule, ∀ g ∈ d.sounds, g.words = wordsOfSound difficultWords g.sound) ∧
      (∀ d ∈ plan.schedule,
        (d.sounds.length = (firstSeen (difficultWords.map (fun r => r.sound))).length / 5 ∨
          d.sounds.length =
            ((firstSeen (difficultWords.map (fun r => r.sound))).length + 4) / 5) ∧
        ((firstSeen (difficultWords.map (fun r => r.sound))).length ≤ 5 →
          d.sounds.length ≤ 1)) := by
  refine ⟨_, PronounceTrainer.generatePracticePlanExact_eq difficultWords hne hproto,
    soundOrder_perm difficultWords, soundOrder_of_no_index difficultWords, ?_, ?_, ?_, ?_⟩
  · intro d hd
    obtain ⟨day, _, rfl⟩ := List.mem_map.mp hd
    simp only [List.map_map]
    rfl
  · intro i hi d hd
    obtain ⟨day, hday, rfl⟩ := List.mem_map.mp hd
    rw [List.mem_range'_1] at hday
    simp only [List.map_map]
    rw [show ((fun g : SoundGroup => g.sound) ∘ fun p : Nat × JsString =>
        ({ sound := p.2, words := wordsOfSound difficultWords p.2 } : SoundGroup)) =
        (fun p => p.2) from rfl,
      mem_day_filter (soundOrder difficultWords) (soundOrder_nodup difficultWords) day i hi]
    omega
  · intro d hd g hg
    obtain ⟨day, _, rfl⟩ := List.mem_map.mp hd
    obtain ⟨p, _, rfl⟩ := List.mem_map.mp hg
    rfl
  · intro d hd
    obtain ⟨day, _, rfl⟩ := List.mem_map.mp hd
    have hmod : (day - 1) % 5 < 5 := Nat.mod_lt _ (by decide)
    simp only [List.length_map]
    rw [length_day_filter, length_soundOrder]
    constructor
    · omega
    · intro h5; omega

/-- Witness of C17 (as amended) on seven results with six distinct sounds. -/
theorem generatePracticePlan_distribution_witness :
    sampleResults ≠ [] ∧ (∀ r ∈ sampleResults, r.sound ∉ objectPrototypeNames) ∧
    PronounceTrainer.generatePracticePlanExact sampleResults =
      Except.ok (some
        { days := 5
          schedule :=
            [{ day := 1
               sounds := [{ sound := "/θ/".toList, words := ["think".toList, "thick".toList] },
                          { sound := "/æ/".toList, words := ["cat".toList] }] },
             { day := 2, sounds := [{ sound := "/r/".toList, words := ["rat".toList] }] },
             { day := 3, sounds := [{ sound := "/l/".toList, words := ["love".toList] }] },
             { day := 4, sounds := [{ sound := "/ʃ/".toList, words := ["ship".toList] }] },
             { day := 5, sounds := [{ sound := "/ŋ/".toList, words := ["king".toList] }] }]
          startDate := none }) ∧
    ∃ plan, PronounceTrainer.generatePracticePlanExact sampleResults =
        Except.ok (some plan) ∧
      (soundOrder sampleResults).Perm (firstSeen (sampleResults.map (fun r => r.sound))) ∧
      ((∀ r ∈ sampleResults, arrayIndex r.sound = none) →
        soundOrder sampleResults = firstSeen (sampleResults.map (fun r => r.sound))) ∧
      (∀ d ∈ plan.schedule, d.sounds.map (fun g => g.sound) =
        ((soundOrder sampleResults).enum.filter
          (fun p => p.1 % 5 = (d.day - 1) % 5)).map (fun p => p.2)) ∧
      (∀ (i : Nat) (hi : i < (soundOrder sampleResults).length),
        ∀ d ∈ plan.schedule,
          ((soundOrder sampleResults)[i] ∈ d.sounds.map (fun g => g.sound) ↔
            d.day = i % 5 + 1)) ∧
      (∀ d ∈ plan.schedule, ∀ g ∈ d.sounds, g.words = wordsOfSound sampleResults g.sound) ∧
      (∀ d ∈ plan.schedule,
        (d.sounds.length = (firstSeen (sampleResults.map (fun r => r.sound))).length / 5 ∨
          d.sounds.length =
            ((firstSeen (sampleResults.map (fun r => r.sound))).length + 4) / 5) ∧
        ((firstSeen (sampleResults.map (fun r => r.sound))).length ≤ 5 →
          d.sounds.length ≤ 1)) :=
  ⟨by decide, by decide, rfl,
    generatePracticePlan_distribution sampleResults (by decide) (by decide)⟩

/-- C17 (counterexample to the literal claim): for the results with the sounds `b` and `1`,
in that order, the first-seen order is `b`, `1`, yet `Object.keys` lists the array index
`1` first: the plan has the sound `1` on day 1 and the sound `b`, at index 0 of the
first-seen order, on day 2. -/
theorem generatePracticePlan_index_sound_first :
    sampleIndexSound ≠ [] ∧
    firstSeen (sampleIndexSound.map (fun r => r.sound)) = ["b".toList, "1".toList] ∧
    PronounceTrainer.generatePracticePlanExact sampleIndexSound =
      Except.ok (some
        { days := 5
          schedule :=
            [{ day := 1, sounds := [{ sound := "1".toList, words := ["one".toList] }] },
             { day := 2, sounds := [{ sound := "b".toList, words := ["bat".toList] }] },
             { day := 3, sounds := [] },
             { day := 4, sounds := [] },
             { day := 5, sounds := [] }]
          startDate := none }) :=
  ⟨by decide, by decide, rfl⟩

/-- Splitting a list by a key, over a duplicate-free list of key values, rearranges the
elements whose key is listed. -/
theorem partition_by_key_perm {α κ : Type} [DecidableEq κ] (key : α → κ) (E : List α) :
    ∀ K : List κ, K.Nodup →
      (K.flatMap (fun k => E.filter (fun x => key x = k))).Perm
        (E.filter (fun x => key x ∈ K)) := by
  intro K
  induction K with
  | nil => intro _; simp
  | cons k K ih =>
    intro hnd
    rw [List.nodup_cons] at hnd
    have hrec := ih hnd.2
    rw [List.flatMap_cons]
    have hsplit := List.filter_append_perm (fun x => decide (key x = k))
      (E.filter (fun x => key x ∈ k :: K))
    have h1 : List.filter (fun x => decide (key x = k))
        (E.filter (fun x => key x ∈ k :: K)) = E.filter (fun x => key x = k) := by
      rw [List.filter_filter]
      apply List.filter_congr
      intro x _
      by_cases hx : key x = k
      · simp [hx]
      · simp [hx]
    have h2 : List.filter (fun x => !decide (key x = k))
        (E.filter (fun x => key x ∈ k :: K)) = E.filter (fun x => key x ∈ K) := by
      rw [List.filter_filter]
      apply List.filter_congr
      intro x _
      by_cases hx : key x = k
      · have : key x ∉ K := hx ▸ hnd.1
        simp [hx, hnd.1]
      · simp [hx]
    rw [h1, h2] at hsplit
    exact (List.Perm.append_left _ hrec).trans hsplit

/-- Over the five days, the sound groups are a rearrangement of one group per distinct
sound. -/
theorem daySounds_perm (difficultWords : List DrillAttemptResult) :
    ((List.range' 1 5).flatMap (daySounds difficultWords)).Perm
      ((firstSeen (difficultWords.map (fun r => r.sound))).map
        (fun s => ({ sound := s, words := wordsOfSound difficultWords s } : SoundGroup))) := by
  have hperm := partition_by_key_perm (fun p : Nat × JsString => p.1 % 5)
    (firstSeen (difficultWords.map (fun r => r.sound))).enum [0, 1, 2, 3, 4] (by decide)
  have hall : (firstSeen (difficultWords.map (fun r => r.sound))).enum.filter
      (fun x => decide (x.1 % 5 ∈ [0, 1, 2, 3, 4])) =
      (firstSeen (difficultWords.map (fun r => r.sound))).enum := by
    rw [List.filter_eq_self]
    intro p _
    have : p.1 % 5 < 5 := Nat.mod_lt _ (by decide)
    simp only [List.mem_cons, List.mem_singleton, List.not_mem_nil, or_false,
      decide_eq_true_eq]
    omega
  rw [hall] at hperm
  have hmap := hperm.map
    (fun p : Nat × JsString =>
      ({ sound := p.2, words := wordsOfSound difficultWords p.2 } : SoundGroup))
  have hright : (firstSeen (difficultWords.map (fun r => r.sound))).enum.map
      (fun p : Nat × JsString =>
        ({ sound := p.2, words := wordsOfSound difficultWords p.2 } : SoundGroup)) =
      (firstSeen (difficultWords.map (fun r => r.sound))).map
        (fun s => ({ sound := s, words := wordsOfSound difficultWords s } : SoundGroup)) := by
    conv_rhs => rw [← List.enum_map_snd (firstSeen (difficultWords.map (fun r => r.sound)))]
    rw [List.map_map]
    rfl
  rw [hright, List.map_flatMap] at hmap
  exact hmap

/-- One group per distinct sound lists the `(sound, word)` entries of the input, in some
order. -/
theorem groups_entries_perm (difficultWords : List DrillAttemptResult) :
    (((firstSeen (difficultWords.map (fun r => r.sound))).map
        (fun s => ({ sound := s, words := wordsOfSound difficultWords s } : SoundGroup))).flatMap
      (fun g => g.words.map (fun w => (g.sound, w)))).Perm
      (difficultWords.map (fun r => (r.sound, r.word))) := by
  have hperm := partition_by_key_perm (fun r : DrillAttemptResult => r.sound) difficultWords
    (firstSeen (difficultWords.map (fun r => r.sound))) (firstSeen_nodup _)
  beta_reduce at hperm
  have hperm := hperm.trans (show List.Perm _ difficultWords from by
    rw [List.filter_eq_self.mpr]
    intro r hr
    simp only [decide_eq_true_eq]
    exact (mem_firstSeen _ _).mpr (List.mem_map.mpr ⟨r, hr, rfl⟩))
  have hmap := hperm.map (fun r : DrillAttemptResult => (r.sound, r.word))
  rw [List.map_flatMap] at hmap
  rw [List.flatMap_map]
  have hfun : (fun s : JsString =>
      (({ sound := s, words := wordsOfSound difficultWords s } : SoundGroup).words.map
        (fun w => (s, w)))) =
      (fun k => (difficultWords.filter (fun x => decide (x.sound = k))).map
        (fun r => (r.sound, r.word))) := by
    funext s
    simp only [wordsOfSound, List.map_map]
    apply List.map_congr_left
    intro r hr
    have : r.sound = s := by simpa using (List.mem_filter.mp hr).2
    simp [this]
  rw [show (fun a : JsString =>
      (({ sound := a, words := wordsOfSound difficultWords a } : SoundGroup).words.map
        (fun w => (({ sound := a, words := wordsOfSound difficultWords a } : SoundGroup).sound,
          w)))) = (fun s : JsString =>
      (({ sound := s, words := wordsOfSound difficultWords s } : SoundGroup).words.map
        (fun w => (s, w)))) from rfl, hfun]
  exact hmap

/-- A word is listed by the group of a sound exactly when some input entry has that word
and that sound. -/
theorem mem_wordsOfSound (difficultWords : List DrillAttemptResult) (s w : JsString) :
    w ∈ wordsOfSound difficultWords s ↔ ∃ r ∈ difficultWords, r.sound = s ∧ r.word = w := by
  unfold wordsOfSound
  simp only [List.mem_map, List.mem_filter, decide_eq_true_eq]
  constructor
  · rintro ⟨r, ⟨hr, hs⟩, hw⟩; exact ⟨r, hr, hs, hw⟩
  · rintro ⟨r, hr, hs, hw⟩; exact ⟨r, ⟨hr, hs⟩, hw⟩

theorem filter_eq_singleton_of_nodup {α : Type} [DecidableEq α] (a : α) :
    ∀ l : List α, l.Nodup → a ∈ l → l.filter (fun s => decide (s = a)) = [a] := by
  intro l
  induction l with
  | nil => intro _ h; cases h
  | cons b rest ih =>
    intro hnd hmem
    rw [List.nodup_cons] at hnd
    by_cases hb : b = a
    · subst hb
      have hnil : rest.filter (fun s => decide (s = b)) = [] := by
        rw [List.filter_eq_nil_iff]
        intro x hx hdec
        have : x = b := by simpa using hdec
        exact hnd.1 (this ▸ hx)
      simp [List.filter, hnil]
    · have hmem' : a ∈ rest := by
        rcases List.mem_cons.mp hmem with h | h
        · exact absurd h.symm hb
        · exact h
      simp [List.filter, hb, ih hnd.2 hmem']

/-- Claim C15, as the code has it: for every non-empty input the plan has, over all five
days, exactly one sound group per distinct sound, and the `(sound, word)` entries that
its groups list are a rearrangement of those of the input, so every entry of the input is
listed exactly once; a word that the input gives under one sound only appears in exactly
one day's sound group. -/
theorem generatePracticePlan_entries (difficultWords : List DrillAttemptResult)
    (hne : difficultWords ≠ []) :
    ∃ plan, PronounceTrainer.generatePracticePlan difficultWords = some plan ∧
      ((planGroups plan).map (fun g => g.sound)).Nodup ∧
      (planEntries plan).Perm (difficultWords.map (fun r => (r.sound, r.word))) ∧
      ∀ r ∈ difficultWords,
        (∀ r' ∈ difficultWords, r'.word = r.word → r'.sound = r.sound) →
        ((planGroups plan).filter (fun g => decide (r.word ∈ g.words))).length = 1 := by
  refine ⟨_, PronounceTrainer.generatePracticePlan_eq difficultWords hne, ?_, ?_, ?_⟩
  · have hgroups : planGroups
        { days := 5
          schedule := (List.range' 1 5).map (fun day =>
            ({ day := day, sounds := daySounds difficultWords day } : DayPlan))
          startDate := none } = (List.range' 1 5).flatMap (daySounds difficultWords) := by
      unfold planGroups
      rw [List.flatMap_map]
    rw [hgroups, ((daySounds_perm difficultWords).map (fun g => g.sound)).nodup_iff,
      List.map_map]
    have hid : ((fun g : SoundGroup => g.sound) ∘
        fun s => ({ sound := s, words := wordsOfSound difficultWords s } : SoundGroup)) = id :=
      rfl
    rw [hid, List.map_id]
    exact firstSeen_nodup _
  · have hgroups : planGroups
        { days := 5
          schedule := (List.range' 1 5).map (fun day =>
            ({ day := day, sounds := daySounds difficultWords day } : DayPlan))
          startDate := none } = (List.range' 1 5).flatMap (daySounds difficultWords) := by
      unfold planGroups
      rw [List.flatMap_map]
    unfold planEntries
    rw [hgroups]
    exact ((daySounds_perm difficultWords).flatMap_right _).trans
      (groups_entries_perm difficultWords)
  · intro r hr hone
    have hgroups : planGroups
        { days := 5
          schedule := (List.range' 1 5).map (fun day =>
            ({ day := day, sounds := daySounds difficultWords day } : DayPlan))
          startDate := none } = (List.range' 1 5).flatMap (daySounds difficultWords) := by
      unfold planGroups
      rw [List.flatMap_map]
    rw [hgroups, ((daySounds_perm difficultWords).filter _).length_eq, List.filter_map,
      List.length_map]
    have hpred : (firstSeen (difficultWords.map (fun r => r.sound))).filter
        ((fun g : SoundGroup => decide (r.word ∈ g.words)) ∘
          fun s => ({ sound := s, words := wordsOfSound difficultWords s } : SoundGroup)) =
        (firstSeen (difficultWords.map (fun r => r.sound))).filter
          (fun s => decide (s = r.sound)) := by
      apply List.filter_congr
      intro s _
      simp only [Function.comp]
      rw [Bool.eq_iff_iff]
      simp only [decide_eq_true_eq, mem_wordsOfSound]
      constructor
      · rintro ⟨r', hr', hs, hw⟩
        rw [← hs]; exact hone r' hr' hw
      · intro hs
        exact ⟨r, hr, hs.symm, rfl⟩
    rw [hpred, filter_eq_singleton_of_nodup r.sound _ (firstSeen_nodup _)
      ((mem_firstSeen _ _).mpr (List.mem_map.mpr ⟨r, hr, rfl⟩))]
    rfl

/-- Witness of claim C15 as amended, on seven results. -/
theorem generatePracticePlan_entries_witness :
    sampleResults ≠ [] ∧
    ∃ plan, PronounceTrainer.generatePracticePlan sampleResults = some plan ∧
      ((planGroups plan).map (fun g => g.sound)).Nodup ∧
      (planEntries plan).Perm (sampleResults.map (fun r => (r.sound, r.word))) ∧
      ∀ r ∈ sampleResults,
        (∀ r' ∈ sampleResults, r'.word = r.word → r'.sound = r.sound) →
        ((planGroups plan).filter (fun g => decide (r.word ∈ g.words))).length = 1 :=
  ⟨by decide, generatePracticePlan_entries sampleResults (by decide)⟩

/-- Claim C15 fails on the code: for the input `rat` under `/r/` and `rat` under `/æ/` the
plan lists the word `rat` in two sound groups, on day 1 and on day 2. -/
theorem generatePracticePlan_word_in_two_groups :
    PronounceTrainer.generatePracticePlan sampleTwoSounds =
      some { days := 5
             schedule :=
               [{ day := 1, sounds := [{ sound := "/r/".toList, words := ["rat".toList] }] },
                { day := 2, sounds := [{ sound := "/æ/".toList, words := ["rat".toList] }] },
                { day := 3, sounds := [] },
                { day := 4, sounds := [] },
                { day := 5, sounds := [] }]
             startDate := none } ∧
    ∃ plan, PronounceTrainer.generatePracticePlan sampleTwoSounds = some plan ∧
      ((planGroups plan).filter (fun g => decide ("rat".toList ∈ g.words))).length = 2 := by
  refine ⟨by decide, _, rfl, by decide⟩

/-! ## Processing one transcript word -/

namespace SpeechRecognitionManager

/-- A word whose cleaned form is an example word of the dataset: one draw decides between
incorrect (above 0.6, with a record of type pronunciation) and correct. -/
theorem processWord_example (random : Nat → ℚ) (s : SpeechRecognitionManager)
    (word : JsString) (ew : ExampleWord) (hne : (cleaned word).length ≠ 0)
    (hfind : getAllExampleWords.find? (fun ew => toLowerCase ew.word = cleaned word) =
      some ew) :
    processWord random s word =
      if random s.randomCalls > 6 / 10 then
        pushItem
          (pushDifficult { s with randomCalls := s.randomCalls + 1 }
            { word := cleaned word
              sound := ew.sound
              pronunciation := ew.pronunciation
              type := "pronunciation".toList })
          word Status.incorrect
      else pushItem { s with randomCalls := s.randomCalls + 1 } word Status.correct := by
  unfold processWord
  simp only [hne, if_false, hfind]

/-- A word outside the dataset whose cleaned form has at most 3 letters is neutral and
uses no draw. -/
theorem processWord_short (random : Nat → ℚ) (s : SpeechRecognitionManager)
    (word : JsString) (hne : (cleaned word).length ≠ 0)
    (hfind : getAllExampleWords.find? (fun ew => toLowerCase ew.word = cleaned word) = none)
    (hlen : ¬ (cleaned word).length > 3) :
    processWord random s word = pushItem s word Status.neutral := by
  unfold processWord
  simp only [hne, if_false, hfind, hlen]

/-- A word outside the dataset whose cleaned form has more than 3 letters, its draw at most
0.85: the word is neutral. -/
theorem processWord_general_neutral (random : Nat → ℚ) (s : SpeechRecognitionManager)
    (word : JsString) (hne : (cleaned word).length ≠ 0)
    (hfind : getAllExampleWords.find? (fun ew => toLowerCase ew.word = cleaned word) = none)
    (hlen : (cleaned word).length > 3) (hr : ¬ random s.randomCalls > 85 / 100) :
    processWord random s word =
      pushItem { s with randomCalls := s.randomCalls + 1 } word Status.neutral := by
  unfold processWord
  simp only [hne, if_false, hfind, hlen, if_true, hr]

/-- A word whose cleaned form is empty is skipped. -/
theorem processWord_empty (random : Nat → ℚ) (s : SpeechRecognitionManager)
    (word : JsString) (hempty : (cleaned word).length = 0) :
    processWord random s word = s := by
  unfold processWord
  simp only [hempty, if_true]

end SpeechRecognitionManager

/-! ## Scenario A: the segment `the cat sat` -/

/-- The segment `the cat sat`, from an empty state: the state reached, for every outcome of
the two draws. -/
theorem process_the_cat_sat (random : Nat → ℚ) :
    SpeechRecognitionManager.processTranscriptSegment random SpeechRecognitionManager.create
      "the cat sat".toList = some (afterTheCatSat random) := by
  have hw : splitWords "the cat sat".toList [] =
      ["the".toList, "cat".toList, "sat".toList] := by decide
  have hfold : (splitWords "the cat sat".toList []).foldl
      (SpeechRecognitionManager.processWord random) SpeechRecognitionManager.create =
      afterTheCatSat random := by
    rw [hw]
    simp only [List.foldl]
    rw [SpeechRecognitionManager.processWord_short random _ "the".toList (by decide)
      (by decide) (by decide)]
    rw [SpeechRecognitionManager.processWord_example random _ "cat".toList
      { word := "cat".toList, sound := "/æ/".toList,
        pronunciation := "short a as in cat".toList } (by decide) (by decide)]
    split_ifs with a0
    · have h0 : random 0 > 6 / 10 := a0
      rw [SpeechRecognitionManager.processWord_example random _ "sat".toList
        { word := "sat".toList, sound := "/æ/".toList,
          pronunciation := "short a as in cat".toList } (by decide) (by decide)]
      split_ifs with a1
      · have h1 : random 1 > 6 / 10 := a1
        simp only [afterTheCatSat, drawnStatus, h0, h1, if_true]
        rfl
      · have h1 : ¬ random 1 > 6 / 10 := a1
        simp only [afterTheCatSat, drawnStatus, h0, h1, if_true, if_false]
        rfl
    · have h0 : ¬ random 0 > 6 / 10 := a0
      rw [SpeechRecognitionManager.processWord_example random _ "sat".toList
        { word := "sat".toList, sound := "/æ/".toList,
          pronunciation := "short a as in cat".toList } (by decide) (by decide)]
      split_ifs with a1
      · have h1 : random 1 > 6 / 10 := a1
        simp only [afterTheCatSat, drawnStatus, h0, h1, if_true, if_false]
        rfl
      · have h1 : ¬ random 1 > 6 / 10 := a1
        simp only [afterTheCatSat, drawnStatus, h0, h1, if_false]
        rfl
  unfold SpeechRecognitionManager.processTranscriptSegment
  simp only [hfold]
  unfold afterTheCatSat drawnStatus
  by_cases h0 : random 0 > 6 / 10 <;> by_cases h1 : random 1 > 6 / 10 <;>
    simp only [h0, h1, if_true, if_false] <;> decide

/-- The status of `cat` after the segment is `incorrect` exactly when its draw exceeds 0.6. -/
theorem drawnStatus_incorrect_iff (r : ℚ) : drawnStatus r = Status.incorrect ↔ r > 6 / 10 := by
  unfold drawnStatus
  split_ifs with h
  · simp [h]
  · simp [h]

/-- C18 (as amended): from an empty state, for every outcome of the draws, the segment
`the cat sat` leaves a transcript of exactly three items (`the` neutral, without a draw);
`cat` is incorrect exactly when its draw exceeds 0.6, and then the difficult list starts with
the record of `cat` under `/æ/`, which is its only record for `cat`; that record is the
whole list exactly when `sat`, an example word of `/æ/` too, is not drawn incorrect, and
otherwise the record of `sat` follows it. -/
theorem processTranscriptSegment_the_cat_sat (random : Nat → ℚ) :
    ∃ s, SpeechRecognitionManager.processTranscriptSegment random
        SpeechRecognitionManager.create "the cat sat".toList = some s ∧
      s.transcript.length = 3 ∧
      s.transcript.map (fun item => item.word) = ["the".toList, "cat".toList, "sat".toList] ∧
      s.transcript[0]? = some { word := "the".toList, status := Status.neutral } ∧
      (s.transcript[1]? = some { word := "cat".toList, status := Status.incorrect } ↔
        random 0 > 6 / 10) ∧
      (random 0 > 6 / 10 →
        s.difficultList.head? = some catRecord ∧
        s.difficultList.filter (fun r => r.word = "cat".toList) = [catRecord] ∧
        catRecord.word = "cat".toList ∧ catRecord.sound = "/æ/".toList ∧
        (s.difficultList = [catRecord] ↔ ¬ random 1 > 6 / 10) ∧
        (random 1 > 6 / 10 → s.difficultList = [catRecord, satRecord])) := by
  refine ⟨afterTheCatSat random, process_the_cat_sat random, rfl, rfl, rfl, ?_, ?_⟩
  · have h : (afterTheCatSat random).transcript[1]? =
        some { word := "cat".toList, status := drawnStatus (random 0) } := rfl
    rw [h, ← drawnStatus_incorrect_iff]
    constructor
    · intro e
      injection e with e
      injection e
    · intro e
      rw [e]
  · intro h0
    have hd : (afterTheCatSat random).difficultList =
        [catRecord] ++ (if random 1 > 6 / 10 then [satRecord] else []) := by
      simp only [afterTheCatSat, h0, if_true]
    rw [hd]
    by_cases h1 : random 1 > 6 / 10
    · rw [if_pos h1]
      exact ⟨rfl, by decide, rfl, rfl, ⟨fun h => absurd h (by decide), fun h => absurd h1 h⟩,
        fun _ => rfl⟩
    · rw [if_neg h1]
      exact ⟨rfl, by decide, rfl, rfl, ⟨fun _ => h1, fun _ => rfl⟩, fun h => absurd h h1⟩

/-- Witness of C18 (as amended): with `cat` drawn at 0.9 and `sat` at 0.1 the difficult list
is the single record of `cat`. -/
theorem processTranscriptSegment_the_cat_sat_witness :
    ∃ s, SpeechRecognitionManager.processTranscriptSegment
        (fun n => if n = 0 then 9 / 10 else 1 / 10)
        SpeechRecognitionManager.create "the cat sat".toList = some s ∧
      s.transcript.length = 3 ∧ s.difficultList = [catRecord] := by
  obtain ⟨s, hs, hlen, -, -, -, h⟩ :=
    processTranscriptSegment_the_cat_sat (fun n => if n = 0 then 9 / 10 else 1 / 10)
  refine ⟨s, hs, hlen, ?_⟩
  have h0 : (fun n : Nat => if n = 0 then (9 : ℚ) / 10 else 1 / 10) 0 > 6 / 10 := by norm_num
  exact (h h0).2.2.2.2.1.mpr (by norm_num)

/-- C18 (counterexample to the literal claim): when the draws for `cat` and for `sat` both
exceed 0.6, `cat` is incorrect and the difficult list holds two records, not one. -/
theorem processTranscriptSegment_the_cat_sat_two_records :
    ∃ s, SpeechRecognitionManager.processTranscriptSegment (fun _ => 9 / 10)
        SpeechRecognitionManager.create "the cat sat".toList = some s ∧
      s.transcript[1]? = some { word := "cat".toList, status := Status.incorrect } ∧
      s.difficultList = [catRecord, satRecord] ∧ s.difficultList.length = 2 := by
  refine ⟨afterTheCatSat (fun _ => 9 / 10), process_the_cat_sat _, ?_, ?_, ?_⟩
  · have h : (afterTheCatSat (fun _ => 9 / 10)).transcript[1]? =
        some { word := "cat".toList, status := drawnStatus (9 / 10) } := rfl
    rw [h, (drawnStatus_incorrect_iff (9 / 10)).mpr (by norm_num)]
  · simp only [afterTheCatSat]
    norm_num
  · simp only [afterTheCatSat]
    norm_num

/-! ## `detectStuttering`: the effect of one step and of the loop -/

namespace SpeechRecognitionManager

/-- The marking statements: they succeed on a pair of existing items, rewrite exactly the
two items, keep the earlier records and leave a record for the word. -/
theorem markStutter_spec (s : SpeechRecognitionManager) (i : Nat) (w : JsString)
    (hi : 1 ≤ i) (prev current : TranscriptItem)
    (hp : s.transcript[i - 1]? = some prev) (hc : s.transcript[i]? = some current) :
    ∃ s', markStutter s i w = some s' ∧
      (∀ k, s'.transcript[k]? =
        if k = i - 1 ∨ k = i then (s.transcript[k]?).map toStutter else s.transcript[k]?) ∧
      (∃ extra, s'.difficultList = s.difficultList ++ extra ∧
        ∀ r ∈ extra, r.word = w ∧ r.type = "stutter".toList) ∧
      (∃ r ∈ s'.difficultList, r.word = w) := by
  have hlen1 : i - 1 < s.transcript.length := by
    rcases List.getElem?_eq_some_iff.mp hp with ⟨h, -⟩
    exact h
  have hlen : i < s.transcript.length := by
    rcases List.getElem?_eq_some_iff.mp hc with ⟨h, -⟩
    exact h
  have htr : ∀ k, ((s.transcript.set (i - 1) { prev with status := Status.stutter }).set i
        { current with status := Status.stutter })[k]? =
      if k = i - 1 ∨ k = i then (s.transcript[k]?).map toStutter else s.transcript[k]? := by
    intro k
    by_cases hk : k = i
    · subst hk
      simp [List.getElem?_set, hlen, hc, toStutter]
    · by_cases hk1 : k = i - 1
      · subst hk1
        have : ¬ i = i - 1 := by omega
        simp [List.getElem?_set, hlen1, hp, toStutter, this]
      · have e1 : ¬ i = k := fun h => hk h.symm
        have e2 : ¬ i - 1 = k := fun h => hk1 h.symm
        simp [List.getElem?_set, hk, hk1, e1, e2]
  unfold markStutter
  simp only [hp, hc]
  cases hf : s.difficultList.find? (fun cw => cw.word = w) with
  | some r =>
    refine ⟨_, rfl, htr, ⟨[], by simp, by simp⟩, ⟨r, List.mem_of_find?_eq_some hf, ?_⟩⟩
    simpa using List.find?_some hf
  | none =>
    refine ⟨_, rfl, htr, ⟨[_], rfl, ?_⟩, ?_⟩
    · intro r hr
      rw [List.mem_singleton] at hr
      subst hr
      exact ⟨rfl, rfl⟩
    · refine ⟨_, List.mem_append_right _ (List.mem_singleton_self _), ?_⟩
      rfl

/-- One iteration of the loop on a pair of existing items: the marking statements run
exactly when the pair passes one of the two tests. -/
theorem stutterStep_eq (s : SpeechRecognitionManager) (i : Nat)
    (hi : 1 ≤ i) (prev current : TranscriptItem)
    (hp : s.transcript[i - 1]? = some prev) (hc : s.transcript[i]? = some current) :
    stutterStep i s =
      if stutterPair prev current = true then markStutter s i (cleaned current.word)
      else some s := by
  obtain ⟨s', hs', -, -, -⟩ := markStutter_spec s i (cleaned current.word) hi prev current hp hc
  unfold stutterStep
  simp only [hp, hc]
  by_cases hid : cleaned prev.word = cleaned current.word
  · have hpair : stutterPair prev current = true := by simp [stutterPair, hid]
    rw [if_pos hid, if_pos hpair, hs']
    have hno : ¬ ((cleaned current.word).length > 3 ∧
        (cleaned prev.word).length < (cleaned current.word).length) := by
      rw [hid]
      intro h
      exact Nat.lt_irrefl _ h.2
    simp only [hno, if_false]
  · rw [if_neg hid]
    simp only []
    by_cases hlen : (cleaned current.word).length > 3 ∧
        (cleaned prev.word).length < (cleaned current.word).length
    · rw [if_pos hlen]
      by_cases hpre : (cleaned prev.word).isPrefixOf (cleaned current.word) = true
      · have hpair : stutterPair prev current = true := by
          simp only [stutterPair, hpre, Bool.and_true, Bool.or_eq_true, decide_eq_true_eq]
          exact Or.inr hlen
        rw [if_pos hpre, if_pos hpair]
      · have hpair : ¬ stutterPair prev current = true := by
          simp only [stutterPair, Bool.or_eq_true, Bool.and_eq_true, decide_eq_true_eq]
          rintro (h | h)
          · exact hid h
          · exact hpre h.2
        rw [if_neg hpre, if_neg hpair]
    · have hpair : ¬ stutterPair prev current = true := by
        simp only [stutterPair, Bool.or_eq_true, Bool.and_eq_true, decide_eq_true_eq]
        rintro (h | h)
        · exact hid h
        · exact hlen h.1
      rw [if_neg hlen, if_neg hpair]

/-- One iteration of the loop: it succeeds, rewrites the two items exactly when the pair
passes a test, keeps the earlier records and then leaves a record for the later word. -/
theorem stutterStep_spec (s : SpeechRecognitionManager) (i : Nat)
    (hi : 1 ≤ i) (prev current : TranscriptItem)
    (hp : s.transcript[i - 1]? = some prev) (hc : s.transcript[i]? = some current) :
    ∃ s', stutterStep i s = some s' ∧
      (∀ k, s'.transcript[k]? =
        if stutterPair prev current = true ∧ (k = i - 1 ∨ k = i)
        then (s.transcript[k]?).map toStutter else s.transcript[k]?) ∧
      (∃ extra, s'.difficultList = s.difficultList ++ extra ∧
        ∀ r ∈ extra, r.word = cleaned current.word ∧ r.type = "stutter".toList) ∧
      (stutterPair prev current = true →
        ∃ r ∈ s'.difficultList, r.word = cleaned current.word) := by
  rw [stutterStep_eq s i hi prev current hp hc]
  by_cases hpair : stutterPair prev current = true
  · rw [if_pos hpair]
    obtain ⟨s', hs', htr, hex, hrec⟩ :=
      markStutter_spec s i (cleaned current.word) hi prev current hp hc
    refine ⟨s', hs', ?_, hex, fun _ => hrec⟩
    intro k
    rw [htr k]
    simp only [hpair, true_and]
  · rw [if_neg hpair]
    refine ⟨s, rfl, ?_, ⟨[], by simp, by simp⟩, fun h => absurd h hpair⟩
    intro k
    rw [if_neg (fun h => hpair h.1)]

end SpeechRecognitionManager

theorem toStutter_word (item : TranscriptItem) : (toStutter item).word = item.word := rfl

theorem toStutter_status (item : TranscriptItem) : (toStutter item).status = Status.stutter :=
  rfl

theorem toStutter_idem (item : TranscriptItem) : toStutter (toStutter item) = toStutter item :=
  rfl

/-- The two tests read only the words of the two items. -/
theorem stutterPair_congr (p p' c c' : TranscriptItem) (hp : p.word = p'.word)
    (hc : c.word = c'.word) : stutterPair p c = stutterPair p' c' := by
  unfold stutterPair
  rw [hp, hc]

theorem touched_one (tr : List TranscriptItem) (m : Nat) : touched tr 1 m = false := by
  cases m with
  | zero => simp [touched]
  | succ m' => simp [touched]

/-- Visiting the pair `(j, j + 1)` adds its two items to the touched ones when it passes a
test. -/
theorem touched_succ (tr : List TranscriptItem) (j m : Nat) :
    touched tr (j + 2) m =
      (touched tr (j + 1) m || (pairAt tr j && decide (m = j ∨ m = j + 1))) := by
  rw [Bool.eq_iff_iff]
  cases m with
  | zero =>
    simp only [touched, Bool.or_eq_true, Bool.and_eq_true, decide_eq_true_eq, Bool.or_false]
    constructor
    · rintro ⟨h1, h2⟩
      by_cases hj : j = 0
      · subst hj; exact Or.inr ⟨h2, Or.inl rfl⟩
      · exact Or.inl ⟨by omega, h2⟩
    · rintro (⟨h1, h2⟩ | ⟨h1, h2⟩)
      · exact ⟨by omega, h2⟩
      · have : j = 0 := by omega
        subst this
        exact ⟨by omega, h1⟩
  | succ m' =>
    simp only [touched, Bool.or_eq_true, Bool.and_eq_true, decide_eq_true_eq]
    constructor
    · rintro (⟨h1, h2⟩ | ⟨h1, h2⟩)
      · by_cases hj : m' + 1 = j
        · subst hj; exact Or.inr ⟨h2, Or.inl rfl⟩
        · exact Or.inl (Or.inl ⟨by omega, h2⟩)
      · by_cases hj : m' = j
        · subst hj; exact Or.inr ⟨h2, Or.inr rfl⟩
        · exact Or.inl (Or.inr ⟨by omega, h2⟩)
    · rintro ((⟨h1, h2⟩ | ⟨h1, h2⟩) | ⟨h1, h2⟩)
      · exact Or.inl ⟨by omega, h2⟩
      · exact Or.inr ⟨by omega, h2⟩
      · rcases h2 with h2 | h2
        · subst h2; exact Or.inl ⟨by omega, h1⟩
        · have : m' = j := by omega
          subst this
          exact Or.inr ⟨by omega, h1⟩

/-- Beyond the end of the transcript no pair is left to visit. -/
theorem touched_of_length_le (tr : List TranscriptItem) (k m : Nat) (hk : tr.length ≤ k) :
    touched tr k m = touched tr tr.length m := by
  have hpair : ∀ i, ¬ i + 1 < tr.length → pairAt tr i = false := by
    intro i hi
    unfold pairAt
    rw [List.getElem?_eq_none (show tr.length ≤ i + 1 by omega)]
    cases tr[i]? <;> rfl
  rw [Bool.eq_iff_iff]
  cases m with
  | zero =>
    simp only [touched, Bool.or_eq_true, Bool.and_eq_true, decide_eq_true_eq, Bool.or_false]
    constructor
    · rintro ⟨h1, h2⟩
      refine ⟨?_, h2⟩
      by_contra hlt
      rw [hpair 0 hlt] at h2
      exact Bool.false_ne_true h2
    · rintro ⟨h1, h2⟩
      exact ⟨by omega, h2⟩
  | succ m' =>
    simp only [touched, Bool.or_eq_true, Bool.and_eq_true, decide_eq_true_eq]
    constructor
    · rintro (⟨h1, h2⟩ | ⟨h1, h2⟩)
      · refine Or.inl ⟨?_, h2⟩
        by_contra hlt
        rw [hpair _ hlt] at h2
        exact Bool.false_ne_true h2
      · refine Or.inr ⟨?_, h2⟩
        by_contra hlt
        rw [hpair _ hlt] at h2
        exact Bool.false_ne_true h2
    · rintro (⟨h1, h2⟩ | ⟨h1, h2⟩)
      · exact Or.inl ⟨by omega, h2⟩
      · exact Or.inr ⟨by omega, h2⟩

/-- The loop of `detectStuttering`, on every state: it ends; an item becomes `stutter`
exactly when one of its two pairs passes a test, and is otherwise left as it was; the
earlier records are kept, the added ones have the type `stutter`, and every pair that
passes a test has a record for the cleaned word of its later item. -/
theorem detectStuttering_spec (s0 : SpeechRecognitionManager) :
    ∃ s', SpeechRecognitionManager.detectStuttering s0 = some s' ∧
      (∀ m, s'.transcript[m]? = (s0.transcript[m]?).map (fun item =>
        if touched s0.transcript s0.transcript.length m = true then toStutter item
        else item)) ∧
      (∃ extra, s'.difficultList = s0.difficultList ++ extra ∧
        ∀ r ∈ extra, r.type = "stutter".toList) ∧
      (∀ m p c, s0.transcript[m]? = some p → s0.transcript[m + 1]? = some c →
        stutterPair p c = true → ∃ r ∈ s'.difficultList, r.word = cleaned c.word) := by
  have hloop := forLoop_inv SpeechRecognitionManager.stutterStep
    (fun k t =>
      (∀ m, t.transcript[m]? = (s0.transcript[m]?).map (fun item =>
        if touched s0.transcript k m = true then toStutter item else item)) ∧
      (∃ extra, t.difficultList = s0.difficultList ++ extra ∧
        ∀ r ∈ extra, r.type = "stutter".toList) ∧
      (∀ m p c, m + 1 < k → s0.transcript[m]? = some p → s0.transcript[m + 1]? = some c →
        stutterPair p c = true → ∃ r ∈ t.difficultList, r.word = cleaned c.word))
    (s0.transcript.length - 1) 1 s0 ?_ ?_
  · obtain ⟨s', hs', hA, hB, hC⟩ := hloop
    refine ⟨s', hs', ?_, hB, ?_⟩
    · intro m
      rw [hA m, touched_of_length_le _ _ _ (by omega)]
    · intro m p c hp hc hpair
      have hlt : m + 1 < s0.transcript.length := by
        rcases List.getElem?_eq_some_iff.mp hc with ⟨h, -⟩
        exact h
      exact hC m p c (by omega) hp hc hpair
  · refine ⟨?_, ⟨[], by simp, by simp⟩, ?_⟩
    · intro m
      simp only [touched_one, Bool.false_eq_true, if_false]
      cases s0.transcript[m]? <;> rfl
    · intro m p c hm
      omega
  · rintro k t hk1 hk2 ⟨hA, ⟨extra, hB, hBt⟩, hC⟩
    obtain ⟨j, rfl⟩ : ∃ j, k = j + 1 := ⟨k - 1, by omega⟩
    have hjlen : j + 1 < s0.transcript.length := by omega
    obtain ⟨p0, hp0⟩ : ∃ p0, s0.transcript[j]? = some p0 :=
      ⟨_, List.getElem?_eq_getElem (by omega)⟩
    obtain ⟨c0, hc0⟩ : ∃ c0, s0.transcript[j + 1]? = some c0 :=
      ⟨_, List.getElem?_eq_getElem hjlen⟩
    have hp := hA j
    have hc := hA (j + 1)
    rw [hp0] at hp
    rw [hc0] at hc
    simp only [Option.map_some'] at hp hc
    have hpw : (if touched s0.transcript (j + 1) j = true then toStutter p0 else p0).word =
        p0.word := by
      split_ifs <;> rfl
    have hcw : (if touched s0.transcript (j + 1) (j + 1) = true then toStutter c0
        else c0).word = c0.word := by
      split_ifs <;> rfl
    have hpair := stutterPair_congr _ p0 _ c0 hpw hcw
    have hpairAt : pairAt s0.transcript j = stutterPair p0 c0 := by
      unfold pairAt
      rw [hp0, hc0]
    obtain ⟨t', ht', hA', ⟨extra', hB', hBt'⟩, hC'⟩ :=
      SpeechRecognitionManager.stutterStep_spec t (j + 1) (by omega) _ _
        (by simpa using hp) hc
    rw [hpair] at hA' hC'
    rw [hcw] at hC'
    refine ⟨t', ht', ?_, ⟨extra ++ extra', ?_, ?_⟩, ?_⟩
    · intro m
      rw [hA' m, hA m, touched_succ, hpairAt]
      simp only [Nat.add_sub_cancel]
      cases hm : s0.transcript[m]? with
      | none => simp
      | some item =>
        simp only [Option.map_some']
        by_cases h1 : stutterPair p0 c0 = true ∧ (m = j ∨ m = j + 1)
        · have h2 : (touched s0.transcript (j + 1) m ||
              (stutterPair p0 c0 && decide (m = j ∨ m = j + 1))) = true := by
            simp [h1.1, h1.2]
          rw [if_pos h1, if_pos h2]
          split_ifs <;> rfl
        · rw [if_neg h1]
          have h2 : (touched s0.transcript (j + 1) m ||
              (stutterPair p0 c0 && decide (m = j ∨ m = j + 1))) =
              touched s0.transcript (j + 1) m := by
            have : (stutterPair p0 c0 && decide (m = j ∨ m = j + 1)) = false := by
              rw [Bool.eq_false_iff]
              intro h
              simp only [Bool.and_eq_true, decide_eq_true_eq] at h
              exact h1 h
            rw [this, Bool.or_false]
          rw [h2]
    · rw [hB', hB, List.append_assoc]
    · intro r hr
      rcases List.mem_append.mp hr with h | h
      · exact hBt r h
      · exact (hBt' r h).2
    · intro m p c hm hmp hmc hmpair
      by_cases hmj : m = j
      · subst hmj
        rw [hp0] at hmp
        rw [hc0] at hmc
        cases hmp
        cases hmc
        exact hC' hmpair
      · obtain ⟨r, hr, hrw⟩ := hC m p c (by omega) hmp hmc hmpair
        refine ⟨r, ?_, hrw⟩
        rw [hB']
        exact List.mem_append_left _ hr

/-! ## Scenario C: the segment `I I want want water` -/

/-- The segment `I I want want water`, from an empty state, when none of the three draws
(for `want`, `want` and `water`; `I` has no draw) exceeds 0.85. -/
theorem process_stutter_scenario (random : Nat → ℚ) (h0 : ¬ random 0 > 85 / 100)
    (h1 : ¬ random 1 > 85 / 100) (h2 : ¬ random 2 > 85 / 100) :
    SpeechRecognitionManager.processTranscriptSegment random SpeechRecognitionManager.create
      "I I want want water".toList = some afterStutterScenario := by
  have hw : splitWords "I I want want water".toList [] =
      ["I".toList, "I".toList, "want".toList, "want".toList, "water".toList] := by decide
  have e1 := SpeechRecognitionManager.processWord_short random
    SpeechRecognitionManager.create "I".toList (by decide) (by decide) (by decide)
  have e2 := SpeechRecognitionManager.processWord_short random
    (SpeechRecognitionManager.pushItem SpeechRecognitionManager.create "I".toList
      Status.neutral) "I".toList (by decide) (by decide) (by decide)
  have e3 := SpeechRecognitionManager.processWord_general_neutral random
    { SpeechRecognitionManager.create with
      transcript := [{ word := "I".toList, status := Status.neutral },
        { word := "I".toList, status := Status.neutral }] }
    "want".toList (by decide) (by decide) (by decide) h0
  have e4 := SpeechRecognitionManager.processWord_general_neutral random
    { SpeechRecognitionManager.create with
      transcript := [{ word := "I".toList, status := Status.neutral },
        { word := "I".toList, status := Status.neutral },
        { word := "want".toList, status := Status.neutral }]
      randomCalls := 1 }
    "want".toList (by decide) (by decide) (by decide) h1
  have e5 := SpeechRecognitionManager.processWord_general_neutral random
    { SpeechRecognitionManager.create with
      transcript := [{ word := "I".toList, status := Status.neutral },
        { word := "I".toList, status := Status.neutral },
        { word := "want".toList, status := Status.neutral },
        { word := "want".toList, status := Status.neutral }]
      randomCalls := 2 }
    "water".toList (by decide) (by decide) (by decide) h2
  have hfold : (splitWords "I I want want water".toList []).foldl
      (SpeechRecognitionManager.processWord random) SpeechRecognitionManager.create =
      { SpeechRecognitionManager.create with
        transcript := [{ word := "I".toList, status := Status.neutral },
          { word := "I".toList, status := Status.neutral },
          { word := "want".toList, status := Status.neutral },
          { word := "want".toList, status := Status.neutral },
          { word := "water".toList, status := Status.neutral }]
        randomCalls := 3 } := by
    rw [hw]
    simp only [List.foldl]
    rw [e1, e2]
    exact ((congrArg (fun s => SpeechRecognitionManager.processWord random
        (SpeechRecognitionManager.processWord random s "want".toList) "water".toList)
        e3).trans ((congrArg (fun s => SpeechRecognitionManager.processWord random s
          "water".toList) e4).trans e5))
  unfold SpeechRecognitionManager.processTranscriptSegment
  simp only [hfold]
  decide

/-- A pair of existing adjacent items that passes a test has both its items touched. -/
theorem touched_of_pairAt (tr : List TranscriptItem) (m : Nat) (h : pairAt tr m = true) :
    touched tr tr.length m = true ∧ touched tr tr.length (m + 1) = true := by
  have hlt : m + 1 < tr.length := by
    by_contra hlt
    unfold pairAt at h
    rw [List.getElem?_eq_none (show tr.length ≤ m + 1 by omega)] at h
    cases hm : tr[m]? <;> rw [hm] at h <;> exact Bool.false_ne_true h
  constructor
  · unfold touched
    simp [hlt, h]
  · unfold touched
    simp [hlt, h]

/-- C19: on every state `detectStuttering` ends and keeps the words of the transcript, and
afterwards every adjacent pair of items whose cleaned words are identical has both items
with status `stutter` and the difficult list has a record for that cleaned word. In
particular the segment `I I want want water`, processed from an empty state with none of
the draws (for `want`, `want`, `water`) above 0.85, ends with the four items `I`, `I`,
`want`, `want` as stutter, `water` neutral, and a difficult list of exactly the two
stutter records of `i` and `want`. -/
theorem detectStuttering_identical_pairs (s : SpeechRecognitionManager) (random : Nat → ℚ) :
    (∃ s', SpeechRecognitionManager.detectStuttering s = some s' ∧
      s'.transcript.map (fun item => item.word) = s.transcript.map (fun item => item.word) ∧
      ∀ m prev current, s'.transcript[m]? = some prev → s'.transcript[m + 1]? = some current →
        cleaned prev.word = cleaned current.word →
        prev.status = Status.stutter ∧ current.status = Status.stutter ∧
          ∃ r ∈ s'.difficultList, r.word = cleaned current.word) ∧
    (¬ random 0 > 85 / 100 → ¬ random 1 > 85 / 100 → ¬ random 2 > 85 / 100 →
      ∃ s', SpeechRecognitionManager.processTranscriptSegment random
          SpeechRecognitionManager.create "I I want want water".toList = some s' ∧
        s'.transcript =
          [{ word := "I".toList, status := Status.stutter },
           { word := "I".toList, status := Status.stutter },
           { word := "want".toList, status := Status.stutter },
           { word := "want".toList, status := Status.stutter },
           { word := "water".toList, status := Status.neutral }] ∧
        s'.difficultList =
          [{ word := "i".toList, sound := "unknown".toList,
             pronunciation := "unknown".toList, type := "stutter".toList },
           { word := "want".toList, sound := "unknown".toList,
             pronunciation := "unknown".toList, type := "stutter".toList }]) := by
  constructor
  · obtain ⟨s', hs', hA, -, hC⟩ := detectStuttering_spec s
    refine ⟨s', hs', ?_, ?_⟩
    · apply List.ext_getElem?
      intro m
      rw [List.getElem?_map, List.getElem?_map, hA m]
      cases s.transcript[m]? with
      | none => rfl
      | some item =>
        simp only [Option.map_some']
        split_ifs <;> rfl
    · intro m prev current hp hc hid
      have hp' := hA m
      have hc' := hA (m + 1)
      rw [hp] at hp'
      rw [hc] at hc'
      cases hp0 : s.transcript[m]? with
      | none => rw [hp0] at hp'; cases hp'
      | some p0 =>
        cases hc0 : s.transcript[m + 1]? with
        | none => rw [hc0] at hc'; cases hc'
        | some c0 =>
          rw [hp0] at hp'
          rw [hc0] at hc'
          simp only [Option.map_some', Option.some.injEq] at hp' hc'
          have hpw : prev.word = p0.word := by
            rw [hp']; split_ifs <;> rfl
          have hcw : current.word = c0.word := by
            rw [hc']; split_ifs <;> rfl
          have hpair : stutterPair p0 c0 = true := by
            unfold stutterPair
            rw [← hpw, ← hcw, hid]
            simp
          have hat : pairAt s.transcript m = true := by
            unfold pairAt
            rw [hp0, hc0]
            exact hpair
          obtain ⟨ht1, ht2⟩ := touched_of_pairAt _ _ hat
          rw [if_pos ht1] at hp'
          rw [if_pos ht2] at hc'
          refine ⟨by rw [hp']; rfl, by rw [hc']; rfl, ?_⟩
          rw [hcw]
          exact hC m p0 c0 hp0 hc0 hpair
  · intro h0 h1 h2
    exact ⟨afterStutterScenario, process_stutter_scenario random h0 h1 h2, rfl, rfl⟩

/-- Witness of C19: the scenario with every draw equal to 0. -/
theorem detectStuttering_identical_pairs_witness :
    ∃ s', SpeechRecognitionManager.processTranscriptSegment (fun _ => 0)
        SpeechRecognitionManager.create "I I want want water".toList = some s' ∧
      s'.transcript.map (fun item => item.status) =
        [Status.stutter, Status.stutter, Status.stutter, Status.stutter, Status.neutral] ∧
      s'.difficultList.map (fun r => (r.word, r.type)) =
        [("i".toList, "stutter".toList), ("want".toList, "stutter".toList)] := by
  obtain ⟨s', hs', htr, hd⟩ :=
    (detectStuttering_identical_pairs SpeechRecognitionManager.create (fun _ => 0)).2
      (by norm_num) (by norm_num) (by norm_num)
  refine ⟨s', hs', ?_, ?_⟩
  · rw [htr]; rfl
  · rw [hd]; rfl

/-- For a pair whose cleaned words differ, the tests of the loop body come down to the
second one. -/
theorem stutterPair_of_ne (prev current : TranscriptItem)
    (hne : cleaned prev.word ≠ cleaned current.word) :
    stutterPair prev current = true ↔
      ((cleaned prev.word).isPrefixOf (cleaned current.word) = true ∧
        (cleaned prev.word).length < (cleaned current.word).length ∧
        (cleaned current.word).length > 3) := by
  simp only [stutterPair, Bool.or_eq_true, Bool.and_eq_true, decide_eq_true_eq]
  constructor
  · rintro (h | ⟨⟨h1, h2⟩, h3⟩)
    · exact absurd h hne
    · exact ⟨h3, h2, h1⟩
  · rintro ⟨h3, h2, h1⟩
    exact Or.inr ⟨⟨h1, h2⟩, h3⟩

/-- C20 (as amended): for an adjacent pair of items whose cleaned words are not identical,
the loop body of `detectStuttering` runs its marking statements exactly when the later
cleaned word starts with the earlier one, the earlier one is shorter, and the LATER cleaned
word is longer than 3. After the whole loop both items are `stutter` in that case; otherwise
each of the two items is left as it was, unless its other neighbour forms a marked pair
with it. -/
theorem detectStuttering_partial_repetition (s : SpeechRecognitionManager) (m : Nat)
    (prev current : TranscriptItem)
    (hp : s.transcript[m]? = some prev) (hc : s.transcript[m + 1]? = some current)
    (hne : cleaned prev.word ≠ cleaned current.word) :
    (SpeechRecognitionManager.stutterStep (m + 1) s =
      if ((cleaned prev.word).isPrefixOf (cleaned current.word) = true ∧
          (cleaned prev.word).length < (cleaned current.word).length ∧
          (cleaned current.word).length > 3)
      then SpeechRecognitionManager.markStutter s (m + 1) (cleaned current.word)
      else some s) ∧
    ∃ s', SpeechRecognitionManager.detectStuttering s = some s' ∧
      (((cleaned prev.word).isPrefixOf (cleaned current.word) = true ∧
          (cleaned prev.word).length < (cleaned current.word).length ∧
          (cleaned current.word).length > 3) →
        s'.transcript[m]? = some { prev with status := Status.stutter } ∧
        s'.transcript[m + 1]? = some { current with status := Status.stutter }) ∧
      (¬ ((cleaned prev.word).isPrefixOf (cleaned current.word) = true ∧
          (cleaned prev.word).length < (cleaned current.word).length ∧
          (cleaned current.word).length > 3) →
        ((∀ m', m = m' + 1 → pairAt s.transcript m' = false) →
          s'.transcript[m]? = some prev) ∧
        (pairAt s.transcript (m + 1) = false → s'.transcript[m + 1]? = some current)) := by
  have hiff := stutterPair_of_ne prev current hne
  have hat : pairAt s.transcript m = stutterPair prev current := by
    unfold pairAt
    rw [hp, hc]
  have hlt : m + 1 < s.transcript.length := by
    rcases List.getElem?_eq_some_iff.mp hc with ⟨h, -⟩
    exact h
  constructor
  · rw [SpeechRecognitionManager.stutterStep_eq s (m + 1) (by omega) prev current
      (by simpa using hp) hc]
    by_cases hcond : stutterPair prev current = true
    · rw [if_pos hcond, if_pos (hiff.mp hcond)]
    · rw [if_neg hcond, if_neg (fun h => hcond (hiff.mpr h))]
  · obtain ⟨s', hs', hA, -, -⟩ := detectStuttering_spec s
    refine ⟨s', hs', ?_, ?_⟩
    · intro hcond
      obtain ⟨ht1, ht2⟩ := touched_of_pairAt s.transcript m (by rw [hat]; exact hiff.mpr hcond)
      constructor
      · rw [hA m, hp, Option.map_some', if_pos ht1]
        rfl
      · rw [hA (m + 1), hc, Option.map_some', if_pos ht2]
        rfl
    · intro hcond
      have hpair : pairAt s.transcript m = false := by
        rw [hat, Bool.eq_false_iff]
        exact fun h => hcond (hiff.mp h)
      constructor
      · intro hprev
        have ht : touched s.transcript s.transcript.length m = false := by
          unfold touched
          rw [hpair, Bool.and_false, Bool.false_or]
          cases m with
          | zero => rfl
          | succ m' => simp only [hprev m' rfl, Bool.and_false]
        rw [hA m, hp, Option.map_some', ht]
        rfl
      · intro hnext
        have ht : touched s.transcript s.transcript.length (m + 1) = false := by
          unfold touched
          simp only [hnext, hpair, Bool.and_false, Bool.or_false]
        rw [hA (m + 1), hc, Option.map_some', ht]
        rfl

/-- Witness of C20 (as amended): `thin` followed by `water` is not a partial repetition,
and both items keep their statuses. -/
theorem detectStuttering_partial_repetition_witness :
    ∃ s', SpeechRecognitionManager.detectStuttering thinWater = some s' ∧
      s'.transcript[0]? = some { word := "thin".toList, status := Status.correct } ∧
      s'.transcript[1]? = some { word := "water".toList, status := Status.neutral } := by
  obtain ⟨-, s', hs', -, hno⟩ := detectStuttering_partial_repetition thinWater 0
    { word := "thin".toList, status := Status.correct }
    { word := "water".toList, status := Status.neutral } rfl rfl (by decide)
  have h := hno (by decide)
  exact ⟨s', hs', h.1 (fun m' hm => by omega), h.2 (by decide)⟩

/-- C20 (counterexample to the literal claim): the earlier cleaned word `th` has length 2,
not greater than 3, and differs from `think`, yet `detectStuttering` marks both items as
stutter. -/
theorem detectStuttering_th_think :
    cleaned "th".toList ≠ cleaned "think".toList ∧
    ¬ (cleaned "th".toList).length > 3 ∧
    (SpeechRecognitionManager.detectStuttering thThink).map
        (fun s' => s'.transcript) =
      some [{ word := "th".toList, status := Status.stutter },
            { word := "think".toList, status := Status.stutter }] := by
  decide

/-! ## The table of `compareWordsRoughly` is the Levenshtein distance -/

theorem lev_nil_left (ys : JsString) : lev [] ys = ys.length := by
  rw [lev]

theorem lev_nil_right (xs : JsString) : lev xs [] = xs.length := by
  cases xs with
  | nil => rw [lev]
  | cons x xs => rw [lev]; rfl

theorem lev_cons_cons (x y : Char) (xs ys : JsString) :
    lev (x :: xs) (y :: ys) =
      min (min (lev xs (y :: ys) + 1) (lev (x :: xs) ys + 1))
        (lev xs ys + (if x = y then 0 else 1)) := by
  rw [lev]

theorem lev_self (xs : JsString) : lev xs xs = 0 := by
  induction xs with
  | nil => rw [lev]; rfl
  | cons x xs ih =>
    rw [lev_cons_cons, ih]
    simp

/-- Dropping the head of the first string changes the distance by at most one. -/
theorem lev_cons_left_le (c : Char) (s z : JsString) : lev (c :: s) z ≤ lev s z + 1 := by
  cases z with
  | nil => rw [lev_nil_right, lev_nil_right]; simp
  | cons y ys =>
    rw [lev_cons_cons]
    exact le_trans (min_le_left _ _) (min_le_left _ _)

theorem lev_cons_right_le (y : Char) (s ys : JsString) : lev s (y :: ys) ≤ lev s ys + 1 := by
  cases s with
  | nil => rw [lev_nil_left, lev_nil_left]; simp
  | cons x xs =>
    rw [lev_cons_cons]
    exact le_trans (min_le_left _ _) (min_le_right _ _)

theorem lev_le_cons_left (c : Char) (s : JsString) : ∀ z, lev s z ≤ lev (c :: s) z + 1 := by
  intro z
  induction z with
  | nil => rw [lev_nil_right, lev_nil_right]; simp; omega
  | cons y ys ih =>
    have h1 := lev_cons_right_le y s ys
    rw [lev_cons_cons]
    have hd : lev s ys ≤ lev s ys + (if c = y then 0 else 1) := Nat.le_add_right _ _
    simp only [le_min_iff, Nat.add_le_add_iff_right, ← Nat.lt_succ_iff]
    omega

theorem lev_substitute_head (c d : Char) (s : JsString) :
    ∀ z, lev (c :: s) z ≤ lev (d :: s) z + 1 := by
  intro z
  induction z with
  | nil => rw [lev_nil_right, lev_nil_right]; simp
  | cons y ys ih =>
    have h1 : lev (c :: s) (y :: ys) ≤ lev s (y :: ys) + 1 := lev_cons_left_le c s _
    have h2 : lev (c :: s) (y :: ys) ≤ lev (c :: s) ys + 1 := lev_cons_right_le y _ ys
    have h3 : lev (c :: s) (y :: ys) ≤ lev s ys + (if c = y then 0 else 1) := by
      rw [lev_cons_cons]
      exact min_le_right _ _
    have h4 : (if c = y then 0 else 1) ≤ 1 := by split_ifs <;> omega
    rw [lev_cons_cons d y s ys]
    have hd : lev s ys ≤ lev s ys + (if d = y then 0 else 1) := Nat.le_add_right _ _
    simp only [min_def]
    split_ifs <;> omega

theorem lev_cons_congr (p : Char) (x y : JsString) (h : ∀ z, lev x z ≤ lev y z + 1) :
    ∀ z, lev (p :: x) z ≤ lev (p :: y) z + 1 := by
  intro z
  induction z with
  | nil =>
    have h0 := h []
    rw [lev_nil_right, lev_nil_right] at h0
    rw [lev_nil_right, lev_nil_right]
    simp only [List.length_cons]
    omega
  | cons q zs ih =>
    have h1 : lev (p :: x) (q :: zs) ≤ lev x (q :: zs) + 1 := lev_cons_left_le p x _
    have h2 : lev (p :: x) (q :: zs) ≤ lev (p :: x) zs + 1 := lev_cons_right_le q _ zs
    have h3 : lev (p :: x) (q :: zs) ≤ lev x zs + (if p = q then 0 else 1) := by
      rw [lev_cons_cons]
      exact min_le_right _ _
    have h5 := h (q :: zs)
    have h6 := h zs
    rw [lev_cons_cons p q y zs]
    generalize (if p = q then 0 else 1) = δ at h3 ⊢
    simp only [min_def]
    split_ifs <;> omega

/-- One edit of the first string changes the distance to any third string by at most
one. -/
theorem lev_editStep (x y : JsString) (h : EditStep x y) : ∀ z, lev x z ≤ lev y z + 1 := by
  cases h with
  | insert pre suf c =>
    induction pre with
    | nil => exact lev_le_cons_left c suf
    | cons p pre ih => exact lev_cons_congr p _ _ ih
  | delete pre suf c =>
    induction pre with
    | nil => exact fun z => lev_cons_left_le c suf z
    | cons p pre ih => exact lev_cons_congr p _ _ ih
  | substitute pre suf c d =>
    induction pre with
    | nil => exact lev_substitute_head c d suf
    | cons p pre ih => exact lev_cons_congr p _ _ ih

/-- No sequence of edits is shorter than the distance. -/
theorem lev_le_of_editsIn (n : Nat) (a b : JsString) (h : EditsIn n a b) : lev a b ≤ n := by
  induction h with
  | done a => rw [lev_self]
  | step hs _ ih => exact le_trans (lev_editStep _ _ hs _) (Nat.succ_le_succ ih)

theorem editStep_cons (p : Char) (x y : JsString) (h : EditStep x y) :
    EditStep (p :: x) (p :: y) := by
  cases h with
  | insert pre suf c => exact EditStep.insert (p :: pre) suf c
  | delete pre suf c => exact EditStep.delete (p :: pre) suf c
  | substitute pre suf c d => exact EditStep.substitute (p :: pre) suf c d

theorem editsIn_cons (p : Char) (n : Nat) (x y : JsString) (h : EditsIn n x y) :
    EditsIn n (p :: x) (p :: y) := by
  induction h with
  | done a => exact EditsIn.done _
  | step hs _ ih => exact EditsIn.step (editStep_cons p _ _ hs) ih

theorem editsIn_snoc (n : Nat) (x y z : JsString) (h : EditsIn n x y) (hs : EditStep y z) :
    EditsIn (n + 1) x z := by
  induction h with
  | done a => exact EditsIn.step hs (EditsIn.done _)
  | step hs' _ ih => exact EditsIn.step hs' (ih hs)

theorem editsIn_nil_left (z : JsString) : EditsIn z.length [] z := by
  induction z with
  | nil => exact EditsIn.done _
  | cons c zs ih => exact editsIn_snoc _ _ _ _ ih (EditStep.insert [] zs c)

theorem editsIn_nil_right (x : JsString) : EditsIn x.length x [] := by
  induction x with
  | nil => exact EditsIn.done _
  | cons c xs ih => exact EditsIn.step (EditStep.delete [] xs c) ih

/-- The distance is reached by a sequence of edits. -/
theorem editsIn_lev (x : JsString) : ∀ z, EditsIn (lev x z) x z := by
  induction x with
  | nil =>
    intro z
    rw [lev_nil_left]
    exact editsIn_nil_left z
  | cons c xs ihx =>
    intro z
    induction z with
    | nil =>
      rw [lev_nil_right]
      exact editsIn_nil_right _
    | cons d zs ihz =>
      have hdel : EditsIn (lev xs (d :: zs) + 1) (c :: xs) (d :: zs) :=
        EditsIn.step (EditStep.delete [] xs c) (ihx (d :: zs))
      have hins : EditsIn (lev (c :: xs) zs + 1) (c :: xs) (d :: zs) :=
        editsIn_snoc _ _ _ _ ihz (EditStep.insert [] zs d)
      have hsub : EditsIn (lev xs zs + (if c = d then 0 else 1)) (c :: xs) (d :: zs) := by
        by_cases hcd : c = d
        · subst hcd
          rw [if_pos rfl]
          exact editsIn_cons c _ _ _ (ihx zs)
        · rw [if_neg hcd]
          exact EditsIn.step (EditStep.substitute [] xs c d) (editsIn_cons d _ _ _ (ihx zs))
      rw [lev_cons_cons]
      generalize (if c = d then 0 else 1) = δ at hsub ⊢
      simp only [min_def]
      split_ifs <;> first | exact hdel | exact hins | exact hsub

theorem editStep_reverse (x y : JsString) (h : EditStep x y) :
    EditStep x.reverse y.reverse := by
  cases h with
  | insert pre suf c =>
    rw [List.reverse_append, List.reverse_append, List.reverse_cons, List.append_assoc]
    exact EditStep.insert suf.reverse pre.reverse c
  | delete pre suf c =>
    rw [List.reverse_append, List.reverse_append, List.reverse_cons, List.append_assoc]
    exact EditStep.delete suf.reverse pre.reverse c
  | substitute pre suf c d =>
    rw [List.reverse_append, List.reverse_append, List.reverse_cons, List.reverse_cons,
      List.append_assoc, List.append_assoc]
    exact EditStep.substitute suf.reverse pre.reverse c d

theorem editsIn_reverse (n : Nat) (x y : JsString) (h : EditsIn n x y) :
    EditsIn n x.reverse y.reverse := by
  induction h with
  | done a => exact EditsIn.done _
  | step hs _ ih => exact EditsIn.step (editStep_reverse _ _ hs) ih

/-- The recurrence, read on the reversed strings, is the Levenshtein distance. -/
theorem isLevenshtein_lev_reverse (a b : JsString) :
    IsLevenshtein a b (lev a.reverse b.reverse) := by
  constructor
  · have h := editsIn_reverse _ _ _ (editsIn_lev a.reverse b.reverse)
    rw [List.reverse_reverse, List.reverse_reverse] at h
    exact h
  · intro n hn
    exact lev_le_of_editsIn n _ _ (editsIn_reverse _ _ _ hn)

theorem take_succ_reverse (a : JsString) (i : Nat) (c : Char) (h : a[i]? = some c) :
    (a.take (i + 1)).reverse = c :: (a.take i).reverse := by
  rw [List.take_succ, h]
  simp

/-- The cells of the table of `PronounceTrainer.compareWordsRoughly` hold the recurrence
on the reversed prefixes. -/
theorem table_eq_lev (a b : JsString) :
    ∀ i j, i ≤ a.length → j ≤ b.length →
      table (PronounceTrainer.cellRule a b) i j = lev (a.take i).reverse (b.take j).reverse := by
  intro i
  induction i with
  | zero =>
    intro j _ hj
    rw [table_zero_left, List.take_zero, List.reverse_nil, lev_nil_left, List.length_reverse,
      List.length_take, Nat.min_eq_left hj]
  | succ i ihi =>
    intro j
    induction j with
    | zero =>
      intro hi _
      rw [table_zero_right, List.take_zero, List.reverse_nil, lev_nil_right,
        List.length_reverse, List.length_take, Nat.min_eq_left hi]
    | succ j ihj =>
      intro hi hj
      obtain ⟨c, hc⟩ : ∃ c, a[i]? = some c := ⟨_, List.getElem?_eq_getElem (by omega)⟩
      obtain ⟨d, hd⟩ : ∃ d, b[j]? = some d := ⟨_, List.getElem?_eq_getElem (by omega)⟩
      rw [table_succ_succ, ihi (j + 1) (by omega) hj, ihi j (by omega) (by omega),
        ihj hi (by omega), take_succ_reverse a i c hc, take_succ_reverse b j d hd,
        lev_cons_cons]
      unfold PronounceTrainer.cellRule
      simp only [Nat.add_sub_cancel, hc, hd, Option.some.injEq]

/-- C11: for non-empty strings `a` and `b` with `a` different from `b` and `b` not
containing `a`, `PronounceTrainer.compareWordsRoughly a b` is `1 - d / max |a| |b|` where `d`
is the Levenshtein distance of `a` and `b` (the minimum number of single-character
insertions, deletions and substitutions turning `a` into `b`), and `d` is the value of the
filled matrix cell `matrix[|a|][|b|]`. -/
theorem compareWordsRoughly_levenshtein (a b : JsString) (h1 : a ≠ []) (h2 : b ≠ [])
    (hne : a ≠ b) (hinc : includes b a = false) :
    ∃ d, IsLevenshtein a b d ∧
      PronounceTrainer.compareWordsRoughly a b =
        some (1 - (d : ℚ) / ((max a.length b.length : Nat) : ℚ)) ∧
      (∃ m, PronounceTrainer.levMatrix a b = some m ∧
        getCell m a.length b.length = some d) ∧
      d = table (PronounceTrainer.cellRule a b) a.length b.length := by
  have htab : table (PronounceTrainer.cellRule a b) a.length b.length =
      lev a.reverse b.reverse := by
    rw [table_eq_lev a b a.length b.length (Nat.le_refl _) (Nat.le_refl _), List.take_length,
      List.take_length]
  refine ⟨table (PronounceTrainer.cellRule a b) a.length b.length, ?_, ?_, ?_, rfl⟩
  · rw [htab]
    exact isLevenshtein_lev_reverse a b
  · exact PronounceTrainer.trainer_compareWordsRoughly_of_distance a b h1 h2 hne hinc
  · obtain ⟨m, hm, hfill⟩ := PronounceTrainer.trainer_levMatrix_correct a b
    exact ⟨m, hm, hfill a.length b.length (Nat.le_refl _) (Nat.le_refl _)⟩

/-- Witness of C11: `think` and `sink` are two edits apart, and their score is 3/5. -/
theorem compareWordsRoughly_levenshtein_witness :
    IsLevenshtein "think".toList "sink".toList 2 ∧
      PronounceTrainer.compareWordsRoughly "think".toList "sink".toList = some (3 / 5) := by
  obtain ⟨d, hL, hc, ⟨m, hm, hcell⟩, -⟩ :=
    compareWordsRoughly_levenshtein "think".toList "sink".toList
      (by decide) (by decide) (by decide) (by decide)
  have hd : (match PronounceTrainer.levMatrix "think".toList "sink".toList with
      | none => none
      | some m => getCell m 5 4) = some 2 := by decide
  rw [hm] at hd
  have h2 : d = 2 := Option.some.inj (hcell.symm.trans hd)
  subst h2
  refine ⟨hL, ?_⟩
  rw [hc]
  norm_num

/-! ## `analyzeTranscript`: when it returns -/

/-- Without the random selection (a difficult word is known already, or the transcript is
empty) `analyzeTranscript` returns, whatever the fuel. -/
theorem analyzeTranscript_without_selection (random : Nat → ℚ) (fuel : Nat)
    (s : SpeechRecognitionManager) (h : ¬ (s.difficultList.length = 0 ∧ s.transcript.length > 0)) :
    SpeechRecognitionManager.analyzeTranscript random fuel s =
      some { s with difficultList := SpeechRecognitionManager.uniqueWords s.difficultList } := by
  unfold SpeechRecognitionManager.analyzeTranscript SpeechRecognitionManager.analyzeSelection
  rw [if_neg h]

/-- With the selection: on the transcript `think water` one word is to be selected, and a
first draw of 0 selects `think`, after which the loop ends. -/
theorem analyzeTranscript_selection_example :
    SpeechRecognitionManager.analyzeTranscript (fun _ => 0) 1 sampleSpoken =
      some { sampleSpoken with
        difficultList := [SpeechRecognitionManager.analysisRecord "think".toList]
        randomCalls := 1 } := by
  have hw : ((sampleSpoken.transcript.filter (fun item => item.status ≠ Status.interim)).map
      (fun item => cleaned item.word)).filter (fun word => word.length > 3) =
      ["think".toList, "water".toList] := by decide
  have hnum : min ⌈((2 : Nat) : ℚ) / 5⌉₊ 3 = 1 := by
    have : ⌈((2 : Nat) : ℚ) / 5⌉₊ = 1 := by
      rw [Nat.ceil_eq_iff (by norm_num)]
      norm_num
    rw [this]
    rfl
  have hsel : SpeechRecognitionManager.analyzeSelection (fun _ => 0) 1 sampleSpoken =
      some (SpeechRecognitionManager.pushDifficult { sampleSpoken with randomCalls := 1 }
        (SpeechRecognitionManager.analysisRecord "think".toList)) := by
    unfold SpeechRecognitionManager.analyzeSelection
    rw [if_pos (by decide)]
    simp only [hw]
    rw [if_pos (by decide)]
    simp only [List.length_cons, List.length_nil, hnum]
    rw [SpeechRecognitionManager.selectLoop]
    simp only [List.length_nil, List.length_cons]
    norm_num
    rw [SpeechRecognitionManager.selectLoop]
    simp
    rfl
  unfold SpeechRecognitionManager.analyzeTranscript
  rw [hsel]
  decide

/-! ## `completeSession`: the summary -/

/-- The success rate of a summary lies between 0 and 100. -/
theorem sessionSummary_successRate_range (results : List DrillAttemptResult) :
    0 ≤ (PronounceTrainer.sessionSummary results).successRate ∧
      (PronounceTrainer.sessionSummary results).successRate ≤ 100 := by
  have hle : (results.filter (fun result => decide (result.attemptsNeeded = 1))).length ≤
      results.length := List.length_filter_le _ _
  simp only [PronounceTrainer.sessionSummary]
  split_ifs with h
  · have hpos : (0 : ℚ) < (results.length : ℚ) := by exact_mod_cast h
    have hq : ((results.filter (fun result => decide (result.attemptsNeeded = 1))).length : ℚ) ≤
        (results.length : ℚ) := by exact_mod_cast hle
    constructor
    · positivity
    · rw [div_mul_eq_mul_div, div_le_iff₀ hpos]
      nlinarith
  · exact ⟨le_refl _, by norm_num⟩

/-- C24: `completeSession` sets `sessionActive` to false and hands to `onSessionComplete`
one summary with `totalWords` the number of session results, `perfectWords` the number of
results with `attemptsNeeded = 1`, `successRate = perfectWords / totalWords * 100` (0 when
there are no results, hence always within 0 and 100), `results` the session results
unchanged, and `practicePlan` the plan generated from exactly the results with
`attemptsNeeded > 2`. -/
theorem completeSession_summary (s : PronounceTrainer) :
    (PronounceTrainer.completeSession s).sessionActive = false ∧
    (PronounceTrainer.completeSession s).sessionResults = s.sessionResults ∧
    ∃ summary, (PronounceTrainer.completeSession s).sessionCompleteEvents =
        s.sessionCompleteEvents ++ [summary] ∧
      summary.totalWords = s.sessionResults.length ∧
      summary.perfectWords =
        (s.sessionResults.filter (fun result => result.attemptsNeeded = 1)).length ∧
      summary.successRate =
        (if s.sessionResults.length = 0 then 0
         else (summary.perfectWords : ℚ) / (summary.totalWords : ℚ) * 100) ∧
      0 ≤ summary.successRate ∧ summary.successRate ≤ 100 ∧
      summary.results = s.sessionResults ∧
      summary.practicePlan = PronounceTrainer.generatePracticePlan
        (s.sessionResults.filter (fun result => result.attemptsNeeded > 2)) := by
  refine ⟨rfl, rfl, PronounceTrainer.sessionSummary s.sessionResults, rfl, rfl, rfl, ?_,
    (sessionSummary_successRate_range _).1, (sessionSummary_successRate_range _).2, rfl, rfl⟩
  simp only [PronounceTrainer.sessionSummary]
  by_cases h : s.sessionResults.length = 0
  · simp [h]
  · have hpos : s.sessionResults.length > 0 := Nat.pos_of_ne_zero h
    simp [h, hpos]

/-! ## The bounds of an active session -/

namespace PronounceTrainer

/-- One `recordAttempt` call on a session within its bounds: it returns, keeps the bounds,
and records at most one result, the one that `nextWord` pushes, together with at most one
summary. -/
theorem recordAttempt_step (s : PronounceTrainer) (success : Bool)
    (hpos : 0 < s.attemptsPerWord) (hinv : InBounds s) :
    ∃ s', recordAttempt s success = some s' ∧
      s'.difficultList = s.difficultList ∧ s'.attemptsPerWord = s.attemptsPerWord ∧
      InBounds s' ∧
      ((s'.sessionResults = s.sessionResults ∧
          s'.sessionCompleteEvents = s.sessionCompleteEvents) ∨
        (∃ w k, k ≤ s.attemptsPerWord ∧
          s'.sessionResults = s.sessionResults ++ [pushedResult w k] ∧
          (s'.sessionCompleteEvents = s.sessionCompleteEvents ∨
            s'.sessionCompleteEvents =
              s.sessionCompleteEvents ++ [sessionSummary s'.sessionResults]))) := by
  by_cases hact : s.sessionActive = true
  · obtain ⟨hidx, hatt⟩ := hinv hact
    obtain ⟨w, hw⟩ : ∃ w, s.difficultList[s.currentWordIndex]? = some w :=
      ⟨_, List.getElem?_eq_getElem hidx⟩
    have hadv : ∀ (k : Nat) (s' : PronounceTrainer), k ≤ s.attemptsPerWord →
        Advanced s (pushedResult w k) s' →
        s'.difficultList = s.difficultList ∧ s'.attemptsPerWord = s.attemptsPerWord ∧
        InBounds s' ∧
        ((s'.sessionResults = s.sessionResults ∧
            s'.sessionCompleteEvents = s.sessionCompleteEvents) ∨
          (∃ w k, k ≤ s.attemptsPerWord ∧
            s'.sessionResults = s.sessionResults ++ [pushedResult w k] ∧
            (s'.sessionCompleteEvents = s.sessionCompleteEvents ∨
              s'.sessionCompleteEvents =
                s.sessionCompleteEvents ++ [sessionSummary s'.sessionResults]))) := by
      rintro k s' hk ⟨hd, ha, -, hi, hc, hr, hsa, he⟩
      refine ⟨hd, ha, ?_, Or.inr ⟨w, k, hk, hr, ?_⟩⟩
      · intro hact'
        rw [hsa, hact, Bool.true_and, decide_eq_true_eq] at hact'
        rw [hi, hc, hd, ha]
        exact ⟨hact', hpos⟩
      · rw [he, hr]
        split_ifs
        · exact Or.inl rfl
        · exact Or.inr rfl
    cases success with
    | true =>
      obtain ⟨s', hs', h⟩ := recordAttempt_true_spec s w hact hw
      exact ⟨s', hs', hadv _ s' (Nat.le_of_lt hatt) h⟩
    | false =>
      by_cases hlt : s.currentAttempt + 1 < s.attemptsPerWord
      · refine ⟨_, recordAttempt_false_retry s hact hlt, rfl, rfl, ?_, Or.inl ⟨rfl, rfl⟩⟩
        intro _
        exact ⟨hidx, hlt⟩
      · obtain ⟨s', hs', h⟩ := recordAttempt_false_exhaust s w hact (by omega) hw
        exact ⟨s', hs', hadv _ s' hatt h⟩
  · have hact' : s.sessionActive = false := by simpa using hact
    exact ⟨s, recordAttempt_inactive s success hact', rfl, rfl, hinv, Or.inl ⟨rfl, rfl⟩⟩

/-- One `startSession` call: it keeps the results and the summaries and sets up the
bounds. -/
theorem startSession_step (s : PronounceTrainer) (hpos : 0 < s.attemptsPerWord)
    (hinv : InBounds s) :
    (startSession s).difficultList = s.difficultList ∧
      (startSession s).attemptsPerWord = s.attemptsPerWord ∧
      InBounds (startSession s) ∧
      (startSession s).sessionResults = s.sessionResults ∧
      (startSession s).sessionCompleteEvents = s.sessionCompleteEvents := by
  by_cases hne : s.difficultList = []
  · have h : startSession s = s := by
      simp [startSession, hne]
    rw [h]
    exact ⟨rfl, rfl, hinv, rfl, rfl⟩
  · obtain ⟨hd, ha, -, hi, hc, -, hr, he⟩ := startSession_spec s hne
    refine ⟨hd, ha, ?_, hr, he⟩
    intro _
    rw [hi, hc, hd, ha]
    exact ⟨List.length_pos.mpr hne, hpos⟩

/-- The result that `nextWord` pushes never counts one attempt; under the cap of three
attempts it counts two, three or four. -/
theorem pushedResult_attemptsNeeded (w : WordRecord) (k : Nat) :
    (pushedResult w k).attemptsNeeded ≠ 1 ∧
      (k ≤ 3 → (pushedResult w k).attemptsNeeded = 2 ∨ (pushedResult w k).attemptsNeeded = 3 ∨
        (pushedResult w k).attemptsNeeded = 4) := by
  cases k with
  | zero =>
    have h3 : (pushedResult w 0).attemptsNeeded = 3 := rfl
    rw [h3]
    exact ⟨by omega, fun _ => Or.inr (Or.inl rfl)⟩
  | succ k =>
    have h : (pushedResult w (k + 1)).attemptsNeeded = k + 2 := by
      simp [pushedResult]
    rw [h]
    exact ⟨by omega, fun h3 => by omega⟩

end PronounceTrainer

namespace PronounceTrainer

/-- Any sequence of `startSession` and `recordAttempt` calls on a session within its bounds
returns and keeps the bounds. -/
theorem runCalls_inBounds (calls : List TrainerCall) :
    ∀ s : PronounceTrainer, 0 < s.attemptsPerWord → InBounds s →
      ∃ s', runCalls s calls = some s' ∧ s'.difficultList = s.difficultList ∧
        s'.attemptsPerWord = s.attemptsPerWord ∧ InBounds s' := by
  induction calls with
  | nil => intro s _ hinv; exact ⟨s, rfl, rfl, rfl, hinv⟩
  | cons c calls ih =>
    intro s hpos hinv
    cases c with
    | startSession =>
      obtain ⟨hd, ha, hinv', -, -⟩ := startSession_step s hpos hinv
      obtain ⟨s', hs', hd', ha', hb'⟩ := ih (startSession s) (by rw [ha]; exact hpos) hinv'
      exact ⟨s', by simp only [runCalls, call]; exact hs', hd'.trans hd, ha'.trans ha, hb'⟩
    | recordAttempt success =>
      obtain ⟨s1, hs1, hd, ha, hinv', -⟩ := recordAttempt_step s success hpos hinv
      obtain ⟨s', hs', hd', ha', hb'⟩ := ih s1 (by rw [ha]; exact hpos) hinv'
      exact ⟨s', by simp only [runCalls, call, hs1]; exact hs', hd'.trans hd, ha'.trans ha,
        hb'⟩

/-- A summary of results none of which counts one attempt has no perfect word and the
success rate 0. -/
theorem sessionSummary_no_perfect (results : List DrillAttemptResult)
    (h : ∀ r ∈ results, r.attemptsNeeded ≠ 1) :
    (sessionSummary results).perfectWords = 0 ∧ (sessionSummary results).successRate = 0 := by
  have hnil : results.filter (fun result => decide (result.attemptsNeeded = 1)) = [] := by
    rw [List.filter_eq_nil_iff]
    intro r hr
    simpa using h r hr
  simp only [sessionSummary, hnil, List.length_nil, Nat.cast_zero, zero_div, zero_mul,
    ite_self, and_self]

/-- Any sequence of `recordAttempt` calls on a session within its bounds, the cap being
three attempts: it returns, every result it records counts two, three or four attempts,
and every summary it reports has no perfect word and the success rate 0. -/
theorem recordAttempts_results (attempts : List Bool) :
    ∀ s : PronounceTrainer, s.attemptsPerWord = 3 → InBounds s →
      (∀ r ∈ s.sessionResults, r.attemptsNeeded = 2 ∨ r.attemptsNeeded = 3 ∨
        r.attemptsNeeded = 4) →
      ∃ s', recordAttempts s attempts = some s' ∧ s'.difficultList = s.difficultList ∧
        s'.attemptsPerWord = 3 ∧ InBounds s' ∧
        (∀ r ∈ s'.sessionResults, r.attemptsNeeded = 2 ∨ r.attemptsNeeded = 3 ∨
          r.attemptsNeeded = 4) ∧
        ∃ new, s'.sessionCompleteEvents = s.sessionCompleteEvents ++ new ∧
          ∀ e ∈ new, e.perfectWords = 0 ∧ e.successRate = 0 := by
  induction attempts with
  | nil => intro s h3 hinv hres; exact ⟨s, rfl, rfl, h3, hinv, hres, [], by simp, by simp⟩
  | cons success attempts ih =>
    intro s h3 hinv hres
    obtain ⟨s1, hs1, hd, ha, hinv1, hcase⟩ :=
      recordAttempt_step s success (by rw [h3]; decide) hinv
    have hres1 : ∀ r ∈ s1.sessionResults, r.attemptsNeeded = 2 ∨ r.attemptsNeeded = 3 ∨
        r.attemptsNeeded = 4 := by
      rcases hcase with ⟨hr, -⟩ | ⟨w, k, hk, hr, -⟩
      · rw [hr]; exact hres
      · rw [hr]
        intro r hmem
        rcases List.mem_append.mp hmem with h | h
        · exact hres r h
        · rw [List.mem_singleton] at h
          rw [h]
          exact (pushedResult_attemptsNeeded w k).2 (by omega)
    have hev1 : ∃ new, s1.sessionCompleteEvents = s.sessionCompleteEvents ++ new ∧
        ∀ e ∈ new, e.perfectWords = 0 ∧ e.successRate = 0 := by
      rcases hcase with ⟨-, he⟩ | ⟨w, k, hk, hr, he | he⟩
      · exact ⟨[], by simp [he], by simp⟩
      · exact ⟨[], by simp [he], by simp⟩
      · refine ⟨[sessionSummary s1.sessionResults], he, ?_⟩
        intro e hmem
        rw [List.mem_singleton] at hmem
        rw [hmem]
        apply sessionSummary_no_perfect
        intro r hr1
        rcases hres1 r hr1 with h | h | h <;> omega
    obtain ⟨s', hs', hd', ha', hinv', hres', new', he', hnew'⟩ :=
      ih s1 (ha.trans h3) hinv1 hres1
    obtain ⟨new1, he1, hnew1⟩ := hev1
    refine ⟨s', by simp only [recordAttempts, hs1]; exact hs', hd'.trans hd, ha', hinv', hres',
      new1 ++ new', by rw [he', he1, List.append_assoc], ?_⟩
    intro e hmem
    rcases List.mem_append.mp hmem with h | h
    · exact hnew1 e h
    · exact hnew' e h

/-- A word matched on its very first attempt is recorded with three attempts and as not
spoken. -/
theorem recordAttempt_first_try (s : PronounceTrainer) (w : WordRecord)
    (hact : s.sessionActive = true) (h0 : s.currentAttempt = 0)
    (hw : s.difficultList[s.currentWordIndex]? = some w) :
    ∃ t, recordAttempt s true = some t ∧
      t.sessionResults = s.sessionResults ++
        [{ word := w.word, sound := w.sound, attemptsNeeded := 3, spoken := false }] := by
  obtain ⟨t, ht, -, -, -, -, -, hr, -, -⟩ := recordAttempt_true_spec s w hact hw
  refine ⟨t, ht, ?_⟩
  rw [hr, h0]
  rfl

/-- A word that fails three times in a row is recorded with four attempts. -/
theorem recordAttempts_three_failures (s : PronounceTrainer) (w : WordRecord)
    (hact : s.sessionActive = true) (h3 : s.attemptsPerWord = 3) (h0 : s.currentAttempt = 0)
    (hw : s.difficultList[s.currentWordIndex]? = some w) :
    ∃ t, recordAttempts s [false, false, false] = some t ∧
      t.sessionResults = s.sessionResults ++
        [{ word := w.word, sound := w.sound, attemptsNeeded := 4, spoken := true }] := by
  have e1 := recordAttempt_false_retry s hact (by omega)
  have e2 := recordAttempt_false_retry
    { s with hasUserSpoken := true, currentAttempt := s.currentAttempt + 1 } hact
    (by simp only []; omega)
  obtain ⟨t, ht, -, -, -, -, -, hr, -, -⟩ := recordAttempt_false_exhaust
    { s with hasUserSpoken := true, currentAttempt := s.currentAttempt + 1 + 1 } w hact
    (by simp only []; omega) hw
  refine ⟨t, ?_, ?_⟩
  · simp only [recordAttempts, e1, e2]
    rw [ht]
  · rw [hr]
    simp only [h0]
    rfl

end PronounceTrainer

/-- The state right after `initialize(W)` is within the bounds: no session is active. -/
theorem initSession_inBounds (s0 : PronounceTrainer) (W : List WordRecord)
    (hasRecognitionManager : Bool) :
    PronounceTrainer.InBounds (PronounceTrainer.initSession s0 W hasRecognitionManager) := by
  intro h
  cases h

/-- C27: in every session run from `initialize(W)` and `startSession()` on a trainer with
three attempts per word and driven only by `recordAttempt` calls, the calls return and no
recorded result has `attemptsNeeded = 1` (each has 2, 3 or 4); every summary that
`completeSession` reports has `perfectWords = 0` and `successRate = 0`; a word matched on
its very first attempt is recorded with `attemptsNeeded = 3` and `spoken = false`, and a
word that fails three times is recorded with `attemptsNeeded = 4`. -/
theorem session_never_perfect (s0 : PronounceTrainer) (W : List WordRecord)
    (hasRecognitionManager : Bool) (attempts : List Bool) (h3 : s0.attemptsPerWord = 3) :
    ∃ s, PronounceTrainer.recordAttempts
        (PronounceTrainer.startSession
          (PronounceTrainer.initSession s0 W hasRecognitionManager)) attempts = some s ∧
      (∀ r ∈ s.sessionResults, r.attemptsNeeded ≠ 1 ∧
        (r.attemptsNeeded = 2 ∨ r.attemptsNeeded = 3 ∨ r.attemptsNeeded = 4)) ∧
      (∃ new, s.sessionCompleteEvents = s0.sessionCompleteEvents ++ new ∧
        ∀ e ∈ new, e.perfectWords = 0 ∧ e.successRate = 0) ∧
      (∀ w, s.sessionActive = true → s.currentAttempt = 0 →
        s.difficultList[s.currentWordIndex]? = some w →
        (∃ t, PronounceTrainer.recordAttempt s true = some t ∧
          t.sessionResults = s.sessionResults ++
            [{ word := w.word, sound := w.sound, attemptsNeeded := 3, spoken := false }]) ∧
        (∃ t, PronounceTrainer.recordAttempts s [false, false, false] = some t ∧
          t.sessionResults = s.sessionResults ++
            [{ word := w.word, sound := w.sound, attemptsNeeded := 4, spoken := true }])) := by
  have hinit := initSession_inBounds s0 W hasRecognitionManager
  have hapw : (PronounceTrainer.initSession s0 W hasRecognitionManager).attemptsPerWord = 3 :=
    h3
  obtain ⟨-, ha, hinv, hr, he⟩ := PronounceTrainer.startSession_step
    (PronounceTrainer.initSession s0 W hasRecognitionManager) (by rw [hapw]; decide) hinit
  obtain ⟨s, hs, -, ha', -, hres, new, hev, hnew⟩ :=
    PronounceTrainer.recordAttempts_results attempts
      (PronounceTrainer.startSession (PronounceTrainer.initSession s0 W hasRecognitionManager))
      (ha.trans hapw) hinv (by
        rw [hr]
        intro r hmem
        cases hmem)
  refine ⟨s, hs, ?_, ⟨new, ?_, hnew⟩, ?_⟩
  · intro r hmem
    have h := hres r hmem
    exact ⟨by omega, h⟩
  · rw [hev, he]
    rfl
  · intro w hact h0 hw
    exact ⟨PronounceTrainer.recordAttempt_first_try s w hact h0 hw,
      PronounceTrainer.recordAttempts_three_failures s w hact ha' h0 hw⟩

/-- Witness of C27: on the one-word session of scenario B, a first-try match leaves one
result, which does not count one attempt, and one summary, with no perfect word. -/
theorem session_never_perfect_witness :
    (PronounceTrainer.create [] []).attemptsPerWord = 3 ∧
    ∃ s, PronounceTrainer.recordAttempts scenarioStart [true] = some s ∧
      (∀ r ∈ s.sessionResults, r.attemptsNeeded ≠ 1) ∧
      ∃ new, s.sessionCompleteEvents = [] ++ new ∧
        ∀ e ∈ new, e.perfectWords = 0 ∧ e.successRate = 0 := by
  obtain ⟨s, hs, hres, hev, -⟩ :=
    session_never_perfect (PronounceTrainer.create [] []) scenarioWords true [true] rfl
  exact ⟨rfl, s, hs, fun r hr => (hres r hr).1, hev⟩

/-- C28: in every state reached from `initialize(W)` by any sequence of `startSession` and
`recordAttempt` calls (these calls all return), an active session has
`currentWordIndex < difficultList.length` and `currentAttempt < attemptsPerWord`; so the
word `difficultList[currentWordIndex]` that `nextWord` reads exists and `recordAttempt`
returns; and once the session is inactive `recordAttempt` changes nothing. -/
theorem session_in_bounds (s0 : PronounceTrainer) (W : List WordRecord)
    (hasRecognitionManager : Bool) (calls : List TrainerCall)
    (hpos : 0 < s0.attemptsPerWord) :
    ∃ s, PronounceTrainer.runCalls
        (PronounceTrainer.initSession s0 W hasRecognitionManager) calls = some s ∧
      s.difficultList = W ∧
      (s.sessionActive = true →
        0 ≤ s.currentWordIndex ∧ s.currentWordIndex < s.difficultList.length ∧
        0 ≤ s.currentAttempt ∧ s.currentAttempt < s.attemptsPerWord ∧
        (∃ w, s.difficultList[s.currentWordIndex]? = some w) ∧
        ∀ success, ∃ s', PronounceTrainer.recordAttempt s success = some s') ∧
      (s.sessionActive = false →
        ∀ success, PronounceTrainer.recordAttempt s success = some s) := by
  obtain ⟨s, hs, hd, ha, hinv⟩ := PronounceTrainer.runCalls_inBounds calls
    (PronounceTrainer.initSession s0 W hasRecognitionManager) hpos
    (initSession_inBounds s0 W hasRecognitionManager)
  refine ⟨s, hs, hd, ?_, fun hact success => PronounceTrainer.recordAttempt_inactive s success hact⟩
  intro hact
  obtain ⟨hidx, hatt⟩ := hinv hact
  refine ⟨Nat.zero_le _, hidx, Nat.zero_le _, hatt, ⟨_, List.getElem?_eq_getElem hidx⟩, ?_⟩
  intro success
  obtain ⟨s', hs', -⟩ := PronounceTrainer.recordAttempt_step s success
    (by rw [ha]; exact hpos) hinv
  exact ⟨s', hs'⟩

/-- Witness of C28: after `initialize`, `startSession()` and one failed attempt on the word
of scenario B the session is active with the index 0 and one counted attempt. -/
theorem session_in_bounds_witness :
    0 < (PronounceTrainer.create [] []).attemptsPerWord ∧
    ∃ s, PronounceTrainer.runCalls
        (PronounceTrainer.initSession (PronounceTrainer.create [] []) scenarioWords true)
        [TrainerCall.startSession, TrainerCall.recordAttempt false] = some s ∧
      s.sessionActive = true ∧ s.currentWordIndex = 0 ∧ s.currentAttempt = 1 ∧
      s.currentWordIndex < s.difficultList.length ∧ s.currentAttempt < s.attemptsPerWord := by
  obtain ⟨s, hs, -, hb, -⟩ := session_in_bounds (PronounceTrainer.create [] []) scenarioWords
    true [TrainerCall.startSession, TrainerCall.recordAttempt false] (by decide)
  have hval : PronounceTrainer.runCalls
      (PronounceTrainer.initSession (PronounceTrainer.create [] []) scenarioWords true)
      [TrainerCall.startSession, TrainerCall.recordAttempt false] =
      some { scenarioStart with hasUserSpoken := true, currentAttempt := 1 } := by decide
  rw [hval] at hs
  injection hs with hs
  subst hs
  have h := hb rfl
  exact ⟨by decide, _, hval, rfl, rfl, rfl, h.2.1, h.2.2.2.1⟩

/-! ## `detectStuttering` run again -/

theorem forLoop_fixed {σ : Type} (body : Nat → σ → Option σ) (s : σ) :
    ∀ (n lo : Nat), (∀ k, lo ≤ k → k < lo + n → body k s = some s) →
      forLoop body n lo s = some s := by
  intro n
  induction n with
  | zero => intro lo _; rfl
  | succ n ih =>
    intro lo h
    simp only [forLoop, h lo (Nat.le_refl _) (by omega)]
    exact ih (lo + 1) (fun k hk1 hk2 => h k (by omega) (by omega))

theorem set_of_getElem? {α : Type} (l : List α) (i : Nat) (a : α) (h : l[i]? = some a) :
    l.set i a = l := by
  induction l generalizing i with
  | nil => rfl
  | cons x xs ih =>
    cases i with
    | zero =>
      simp only [List.getElem?_cons_zero, Option.some.injEq] at h
      simp [h]
    | succ i =>
      simp only [List.getElem?_cons_succ] at h
      simp [ih i h]

theorem toStutter_of_status (item : TranscriptItem) (h : item.status = Status.stutter) :
    toStutter item = item := by
  cases item with
  | mk word status =>
    simp only at h
    subst h
    rfl

namespace SpeechRecognitionManager

/-- The marking statements change nothing on a pair that is marked already and whose word
has a record. -/
theorem markStutter_settled (s : SpeechRecognitionManager) (i : Nat) (w : JsString)
    (prev current : TranscriptItem)
    (hp : s.transcript[i - 1]? = some prev) (hc : s.transcript[i]? = some current)
    (hps : prev.status = Status.stutter) (hcs : current.status = Status.stutter)
    (hrec : ∃ r ∈ s.difficultList, r.word = w) :
    markStutter s i w = some s := by
  have hset1 : s.transcript.set (i - 1) (toStutter prev) = s.transcript := by
    rw [toStutter_of_status prev hps]
    exact set_of_getElem? _ _ _ hp
  have hset2 : s.transcript.set i (toStutter current) = s.transcript := by
    rw [toStutter_of_status current hcs]
    exact set_of_getElem? _ _ _ hc
  obtain ⟨r, hr, hrw⟩ := hrec
  have hfind : ∃ r', s.difficultList.find? (fun cw => decide (cw.word = w)) = some r' := by
    cases hf : s.difficultList.find? (fun cw => decide (cw.word = w)) with
    | some r' => exact ⟨r', rfl⟩
    | none =>
      rw [List.find?_eq_none] at hf
      exact absurd (by simpa using hrw) (hf r hr)
  obtain ⟨r', hr'⟩ := hfind
  unfold markStutter
  simp only [hp, hc]
  have e1 : s.transcript.set (i - 1) { prev with status := Status.stutter } = s.transcript :=
    hset1
  rw [e1]
  have e2 : s.transcript.set i { current with status := Status.stutter } = s.transcript :=
    hset2
  rw [e2]
  simp only [hr']

end SpeechRecognitionManager

/-- On a settled state `detectStuttering` changes nothing. -/
theorem detectStuttering_of_settled (s : SpeechRecognitionManager) (h : Settled s) :
    SpeechRecognitionManager.detectStuttering s = some s := by
  unfold SpeechRecognitionManager.detectStuttering
  apply forLoop_fixed
  intro k hk1 hk2
  have hlt : k < s.transcript.length := by omega
  obtain ⟨p, hp⟩ : ∃ p, s.transcript[k - 1]? = some p :=
    ⟨_, List.getElem?_eq_getElem (by omega)⟩
  obtain ⟨c, hc⟩ : ∃ c, s.transcript[k]? = some c := ⟨_, List.getElem?_eq_getElem hlt⟩
  rw [SpeechRecognitionManager.stutterStep_eq s k hk1 p c hp hc]
  split_ifs with hpair
  · have hc' : s.transcript[k - 1 + 1]? = some c := by
      rw [Nat.sub_add_cancel hk1]; exact hc
    obtain ⟨hps, hcs, hrec⟩ := h (k - 1) p c hp hc' hpair
    exact SpeechRecognitionManager.markStutter_settled s k _ p c hp hc hps hcs hrec
  · rfl

/-- The state that `detectStuttering` returns is settled. -/
theorem settled_of_detectStuttering (s s' : SpeechRecognitionManager)
    (h : SpeechRecognitionManager.detectStuttering s = some s') : Settled s' := by
  obtain ⟨t, ht, hA, -, hC⟩ := detectStuttering_spec s
  rw [h] at ht
  injection ht with ht
  subst ht
  intro m p c hp hc hpair
  have hp' := hA m
  have hc' := hA (m + 1)
  rw [hp] at hp'
  rw [hc] at hc'
  cases hp0 : s.transcript[m]? with
  | none => rw [hp0] at hp'; cases hp'
  | some p0 =>
    cases hc0 : s.transcript[m + 1]? with
    | none => rw [hc0] at hc'; cases hc'
    | some c0 =>
      rw [hp0] at hp'
      rw [hc0] at hc'
      simp only [Option.map_some', Option.some.injEq] at hp' hc'
      have hpw : p.word = p0.word := by
        rw [hp']; split_ifs <;> rfl
      have hcw : c.word = c0.word := by
        rw [hc']; split_ifs <;> rfl
      have hpair0 : stutterPair p0 c0 = true := by
        rw [← stutterPair_congr p p0 c c0 hpw hcw]; exact hpair
      have hat : pairAt s.transcript m = true := by
        unfold pairAt
        rw [hp0, hc0]
        exact hpair0
      obtain ⟨ht1, ht2⟩ := touched_of_pairAt _ _ hat
      rw [if_pos ht1] at hp'
      rw [if_pos ht2] at hc'
      refine ⟨by rw [hp']; rfl, by rw [hc']; rfl, ?_⟩
      rw [hcw]
      exact hC m p0 c0 hp0 hc0 hpair0

namespace SpeechRecognitionManager

/-- The marking statements add at most one record, and only for a word that has none. -/
theorem markStutter_records (s : SpeechRecognitionManager) (i : Nat) (w : JsString)
    (prev current : TranscriptItem)
    (hp : s.transcript[i - 1]? = some prev) (hc : s.transcript[i]? = some current) :
    ∃ s', markStutter s i w = some s' ∧ s'.transcript.length = s.transcript.length ∧
      (s'.difficultList = s.difficultList ∨
        ∃ r, r.word = w ∧ (∀ r' ∈ s.difficultList, r'.word ≠ w) ∧
          s'.difficultList = s.difficultList ++ [r]) := by
  unfold markStutter
  simp only [hp, hc]
  cases hf : s.difficultList.find? (fun cw => decide (cw.word = w)) with
  | some r =>
    exact ⟨_, rfl, by simp, Or.inl rfl⟩
  | none =>
    refine ⟨_, rfl, by simp [pushDifficult], Or.inr ⟨_, ?_, ?_, rfl⟩⟩
    · rfl
    · intro r' hr'
      rw [List.find?_eq_none] at hf
      simpa using hf r' hr'

end SpeechRecognitionManager

/-- The records that `detectStuttering` adds have pairwise different words, none of which
had a record before. -/
theorem detectStuttering_fresh_records (s0 : SpeechRecognitionManager) :
    ∃ s' extra, SpeechRecognitionManager.detectStuttering s0 = some s' ∧
      s'.difficultList = s0.difficultList ++ extra ∧
      extra.Pairwise (fun a b => a.word ≠ b.word) ∧
      ∀ r ∈ extra, ∀ r' ∈ s0.difficultList, r'.word ≠ r.word := by
  have hloop := forLoop_inv SpeechRecognitionManager.stutterStep
    (fun _ t =>
      t.transcript.length = s0.transcript.length ∧
      ∃ extra, t.difficultList = s0.difficultList ++ extra ∧
        extra.Pairwise (fun a b => a.word ≠ b.word) ∧
        ∀ r ∈ extra, ∀ r' ∈ s0.difficultList, r'.word ≠ r.word)
    (s0.transcript.length - 1) 1 s0 ?_ ?_
  · obtain ⟨s', hs', -, extra, h1, h2, h3⟩ := hloop
    exact ⟨s', extra, hs', h1, h2, h3⟩
  · exact ⟨rfl, [], by simp, List.Pairwise.nil, by simp⟩
  · rintro k t hk1 hk2 ⟨hlen, extra, hd, hpw, hfresh⟩
    have hlt : k < t.transcript.length := by omega
    obtain ⟨p, hp⟩ : ∃ p, t.transcript[k - 1]? = some p :=
      ⟨_, List.getElem?_eq_getElem (by omega)⟩
    obtain ⟨c, hc⟩ : ∃ c, t.transcript[k]? = some c := ⟨_, List.getElem?_eq_getElem hlt⟩
    rw [SpeechRecognitionManager.stutterStep_eq t k hk1 p c hp hc]
    split_ifs with hpair
    · obtain ⟨t', ht', hlen', hcase⟩ :=
        SpeechRecognitionManager.markStutter_records t k (cleaned c.word) p c hp hc
      refine ⟨t', ht', hlen'.trans hlen, ?_⟩
      rcases hcase with h | ⟨r, hrw, hnone, h⟩
      · exact ⟨extra, h.trans hd, hpw, hfresh⟩
      · refine ⟨extra ++ [r], by rw [h, hd, List.append_assoc], ?_, ?_⟩
        · rw [List.pairwise_append]
          refine ⟨hpw, List.pairwise_singleton _ _, ?_⟩
          intro a ha b hb
          rw [List.mem_singleton] at hb
          rw [hb, hrw]
          exact hnone a (by rw [hd]; exact List.mem_append_right _ ha)
        · intro x hx r' hr'
          rcases List.mem_append.mp hx with hx | hx
          · exact hfresh x hx r' hr'
          · rw [List.mem_singleton] at hx
            rw [hx, hrw]
            exact hnone r' (by rw [hd]; exact List.mem_append_left _ hr')
    · exact ⟨t, rfl, hlen, extra, hd, hpw, hfresh⟩

/-- C29: `detectStuttering` is idempotent. On every state it returns, and run again on the
state it returned it returns that very state: the transcript statuses and the difficult
list after two runs are those after one run. The records that one run adds have pairwise
different words, none of which had a record before, so that scanning the whole transcript
again never adds a second stutter record for a word. -/
theorem detectStuttering_idempotent (s : SpeechRecognitionManager) :
    ∃ s1, SpeechRecognitionManager.detectStuttering s = some s1 ∧
      SpeechRecognitionManager.detectStuttering s1 = some s1 ∧
      ((SpeechRecognitionManager.detectStuttering s).bind
          SpeechRecognitionManager.detectStuttering).map
        (fun s2 => (s2.transcript.map (fun item => item.status), s2.difficultList)) =
        some (s1.transcript.map (fun item => item.status), s1.difficultList) ∧
      ∃ extra, s1.difficultList = s.difficultList ++ extra ∧
        extra.Pairwise (fun a b => a.word ≠ b.word) ∧
        ∀ r ∈ extra, ∀ r' ∈ s.difficultList, r'.word ≠ r.word := by
  obtain ⟨s1, extra, hs1, h1, h2, h3⟩ := detectStuttering_fresh_records s
  have hfix := detectStuttering_of_settled s1 (settled_of_detectStuttering s s1 hs1)
  refine ⟨s1, hs1, hfix, ?_, extra, h1, h2, h3⟩
  rw [hs1, Option.some_bind, hfix]
  rfl

/-! ## `getRandomPracticeWords` -/

/-- C30 fails on the code: whatever order the shuffle leaves and for every `count` of at
least 1, `getRandomPracticeWords(count)` raises a `TypeError` in its first iteration, because
it hands the element `{ word, sound, pronunciation }` of `getAllExampleWords()` to
`getSoundForWord`, which calls `toLowerCase` on it; only `count = 0` returns, with the empty
list. In particular the default call, with `count = 10` on the dataset of 224 words,
raises. -/
theorem getRandomPracticeWords_raises (word : ExampleWord) (rest : List ExampleWord)
    (count : Nat) :
    getRandomPracticeWords (word :: rest) (count + 1) = Except.error JsError.typeError ∧
    getRandomPracticeWords (word :: rest) 0 = Except.ok [] ∧
    getAllExampleWords.length = 224 ∧
    getRandomPracticeWords getAllExampleWords 10 = Except.error JsError.typeError := by
  exact ⟨rfl, rfl, rfl, rfl⟩

/-! ## `processTranscriptSegment`: one item per token -/

set_option maxRecDepth 100000 in
/-- The example words of the dataset are in lower case. -/
theorem dataset_lowercase :
    getAllExampleWords.all (fun ew => decide (toLowerCase ew.word = ew.word)) = true := by
  decide

theorem find?_congr_mem {α : Type} (l : List α) (p q : α → Bool)
    (h : ∀ a ∈ l, p a = q a) : l.find? p = l.find? q := by
  induction l with
  | nil => rfl
  | cons a rest ih =>
    have ha := h a (List.mem_cons_self _ _)
    have hrest := ih (fun b hb => h b (List.mem_cons_of_mem _ hb))
    simp only [List.find?, ha, hrest]

/-- The dataset lookup of `processTranscriptSegment` finds the first entry whose word is
the cleaned token. -/
theorem find_example_word (c : JsString) :
    getAllExampleWords.find? (fun ew => decide (toLowerCase ew.word = c)) =
      getAllExampleWords.find? (fun ew => decide (ew.word = c)) := by
  apply find?_congr_mem
  intro ew hew
  have h := List.all_eq_true.mp dataset_lowercase ew hew
  rw [decide_eq_true_eq] at h
  rw [h]

/-- One token: the loop body does what `tokenOutcome` prescribes, with the next draw. -/
theorem processWord_outcome (random : Nat → ℚ) (s : SpeechRecognitionManager)
    (token : JsString) :
    SpeechRecognitionManager.processWord random s token =
      match tokenOutcome token (random s.randomCalls) with
      | none => s
      | some o =>
        { s with
          transcript := s.transcript ++ [{ word := token, status := o.status }]
          difficultList := s.difficultList ++ o.record.toList
          randomCalls := if o.drew then s.randomCalls + 1 else s.randomCalls } := by
  unfold SpeechRecognitionManager.processWord tokenOutcome
  simp only [find_example_word]
  by_cases hempty : cleaned token = []
  · simp [hempty]
  · have hlen : (cleaned token).length ≠ 0 := fun h => hempty (List.length_eq_zero.mp h)
    simp only [hlen, hempty, if_false]
    cases getAllExampleWords.find? (fun ew => decide (ew.word = cleaned token)) with
    | some entry =>
      simp only []
      split_ifs
      · simp [SpeechRecognitionManager.pushItem, SpeechRecognitionManager.pushDifficult]
      · simp [SpeechRecognitionManager.pushItem]
    | none =>
      simp only []
      split_ifs
      · simp [SpeechRecognitionManager.pushItem, SpeechRecognitionManager.pushDifficult]
      · simp [SpeechRecognitionManager.pushItem]
      · cases s
        simp [SpeechRecognitionManager.pushItem]

/-- A sequence of tokens: the loop does what `segmentOutcome` prescribes. -/
theorem foldl_processWord_outcome (random : Nat → ℚ) (tokens : List JsString) :
    ∀ s : SpeechRecognitionManager,
      tokens.foldl (SpeechRecognitionManager.processWord random) s =
        { s with
          transcript := s.transcript ++ (segmentOutcome random s.randomCalls tokens).1
          difficultList := s.difficultList ++ (segmentOutcome random s.randomCalls tokens).2.1
          randomCalls := (segmentOutcome random s.randomCalls tokens).2.2 } := by
  induction tokens with
  | nil =>
    intro s
    cases s
    simp [segmentOutcome]
  | cons token rest ih =>
    intro s
    rw [List.foldl_cons, ih, processWord_outcome]
    cases ho : tokenOutcome token (random s.randomCalls) with
    | none => simp only [segmentOutcome, ho]
    | some o =>
      simp only [segmentOutcome, ho, List.append_assoc, List.singleton_append]

theorem tokenOutcome_eq_none_iff (token : JsString) (r : ℚ) :
    tokenOutcome token r = none ↔ cleaned token = [] := by
  unfold tokenOutcome
  by_cases h : cleaned token = []
  · simp [h]
  · simp only [h, if_false, iff_false]
    cases getAllExampleWords.find? (fun ew => decide (ew.word = cleaned token)) with
    | some entry => simp only []; split_ifs <;> simp
    | none => simp only []; split_ifs <;> simp

/-- The prescribed items are the tokens with a non-empty cleaned form, in token order, each
with its original text. -/
theorem segmentOutcome_words (random : Nat → ℚ) (tokens : List JsString) :
    ∀ n, (segmentOutcome random n tokens).1.map (fun item => item.word) =
      tokens.filter (fun token => decide (cleaned token ≠ [])) := by
  induction tokens with
  | nil => intro n; rfl
  | cons token rest ih =>
    intro n
    cases ho : tokenOutcome token (random n) with
    | none =>
      have hc := (tokenOutcome_eq_none_iff token (random n)).mp ho
      simp only [segmentOutcome, ho, ih, List.filter_cons, hc, ne_eq, not_true_eq_false,
        decide_False, Bool.false_eq_true, if_false]
    | some o =>
      have hc : cleaned token ≠ [] := by
        intro h
        rw [(tokenOutcome_eq_none_iff token (random n)).mpr h] at ho
        cases ho
      simp only [segmentOutcome, ho, List.map_cons, ih, List.filter_cons, hc, ne_eq,
        not_false_eq_true, decide_True, if_true]

/-- C25: with the draws given as the sequence `random`, of which the state has used
`randomCalls`, `processTranscriptSegment` appends before its stutter pass exactly what
`segmentOutcome` prescribes for the whitespace-delimited tokens of the segment: one item
per token whose cleaned form is non-empty, in token order and with the original token
text, with the status and the record of `tokenOutcome` (dataset word: incorrect iff its
draw exceeds 0.6, else correct, with a pronunciation record carrying the sound of the first
dataset entry; other token with a cleaned form longer than 3: incorrect iff its draw
exceeds 0.85, else neutral, with a general record; any other token: neutral, no record, no
draw). The stutter pass then runs on that state. -/
theorem processTranscriptSegment_tokens (random : Nat → ℚ) (s : SpeechRecognitionManager)
    (segment : JsString) :
    (splitWords segment []).foldl (SpeechRecognitionManager.processWord random) s =
      { s with
        transcript := s.transcript ++
          (segmentOutcome random s.randomCalls (splitWords segment [])).1
        difficultList := s.difficultList ++
          (segmentOutcome random s.randomCalls (splitWords segment [])).2.1
        randomCalls := (segmentOutcome random s.randomCalls (splitWords segment [])).2.2 } ∧
    SpeechRecognitionManager.processTranscriptSegment random s segment =
      SpeechRecognitionManager.detectStuttering
        { s with
          transcript := s.transcript ++
            (segmentOutcome random s.randomCalls (splitWords segment [])).1
          difficultList := s.difficultList ++
            (segmentOutcome random s.randomCalls (splitWords segment [])).2.1
          randomCalls := (segmentOutcome random s.randomCalls (splitWords segment [])).2.2 } ∧
    (segmentOutcome random s.randomCalls (splitWords segment [])).1.map
        (fun item => item.word) =
      (splitWords segment []).filter (fun token => decide (cleaned token ≠ [])) := by
  refine ⟨foldl_processWord_outcome random _ s, ?_, segmentOutcome_words random _ _⟩
  unfold SpeechRecognitionManager.processTranscriptSegment
  simp only [foldl_processWord_outcome random (splitWords segment []) s]

/-! ## `analyzeTranscript`: the random selection -/

namespace SpeechRecognitionManager

/-- The `while` loop of `analyzeTranscript`, when it finishes: it has pushed one record of
a word of `wordsToAnalyze` per index that it selected, it has left the transcript alone,
and it has stopped because enough indices are selected. -/
theorem selectLoop_spec (random : Nat → ℚ) (wordsToAnalyze : List JsString)
    (numChallenging : Nat) :
    ∀ (fuel : Nat) (selectedIndices : List Int) (s s' : SpeechRecognitionManager),
      selectLoop random wordsToAnalyze numChallenging fuel selectedIndices s = some s' →
      ∃ records, s'.difficultList = s.difficultList ++ records ∧
        s'.transcript = s.transcript ∧
        (∀ r ∈ records, ∃ w ∈ wordsToAnalyze, r = analysisRecord w) ∧
        (selectedIndices.length ≤ min numChallenging wordsToAnalyze.length →
          selectedIndices.length + records.length =
            min numChallenging wordsToAnalyze.length) := by
  intro fuel
  induction fuel with
  | zero =>
    intro sel s s' h
    rw [selectLoop] at h
    by_cases hcond : sel.length < numChallenging ∧ sel.length < wordsToAnalyze.length
    · rw [if_pos hcond] at h
      cases h
    · rw [if_neg hcond] at h
      injection h with h
      subst h
      refine ⟨[], by simp, rfl, by simp, ?_⟩
      intro hle
      simp only [List.length_nil, Nat.add_zero]
      omega
  | succ fuel ih =>
    intro sel s s' h
    rw [selectLoop] at h
    by_cases hcond : sel.length < numChallenging ∧ sel.length < wordsToAnalyze.length
    · rw [if_pos hcond] at h
      simp only [] at h
      by_cases hsel : sel.contains ⌊random s.randomCalls * (wordsToAnalyze.length : ℚ)⌋ = true
      · rw [if_pos hsel] at h
        obtain ⟨records, hd, ht, hrec, hlen⟩ := ih sel _ s' h
        exact ⟨records, hd, ht, hrec, hlen⟩
      · rw [if_neg hsel] at h
        by_cases h0 : 0 ≤ ⌊random s.randomCalls * (wordsToAnalyze.length : ℚ)⌋
        · rw [if_pos h0] at h
          cases hw : wordsToAnalyze[
              (⌊random s.randomCalls * (wordsToAnalyze.length : ℚ)⌋).toNat]? with
          | none => rw [hw] at h; cases h
          | some word =>
            rw [hw] at h
            simp only [] at h
            obtain ⟨records, hd, ht, hrec, hlen⟩ := ih _ _ s' h
            have hmem : word ∈ wordsToAnalyze := List.getElem?_mem hw
            refine ⟨analysisRecord word :: records, ?_, ?_, ?_, ?_⟩
            · rw [hd]
              simp [pushDifficult]
            · rw [ht]
              rfl
            · intro r hr
              rcases List.mem_cons.mp hr with h1 | h1
              · exact ⟨word, hmem, h1⟩
              · exact hrec r h1
            · intro hle
              have hl : (sel ++ [⌊random s.randomCalls * (wordsToAnalyze.length : ℚ)⌋]).length =
                  sel.length + 1 := by simp
              have h' := hlen (by rw [hl]; omega)
              rw [hl] at h'
              rw [List.length_cons]
              omega
        · rw [if_neg h0] at h
          cases h
    · rw [if_neg hcond] at h
      injection h with h
      subst h
      refine ⟨[], by simp, rfl, by simp, ?_⟩
      intro hle
      simp only [List.length_nil, Nat.add_zero]
      omega

theorem analysisRecord_word (word : JsString) : (analysisRecord word).word = word := by
  unfold analysisRecord
  cases getAllExampleWords.find? (fun ew => decide (toLowerCase ew.word = word)) <;> rfl

theorem analysisRecord_type (word : JsString) :
    (analysisRecord word).type = "pronunciation".toList := by
  unfold analysisRecord
  cases getAllExampleWords.find? (fun ew => decide (toLowerCase ew.word = word)) <;> rfl

end SpeechRecognitionManager

/-- The words that `analyzeTranscript` selects from: the cleaned forms, longer than 3, of
the items that are not interim. -/
theorem mem_wordsToAnalyze (s : SpeechRecognitionManager) (w : JsString) :
    w ∈ ((s.transcript.filter (fun item => decide (item.status ≠ Status.interim))).map
        (fun item => cleaned item.word)).filter (fun word => decide (word.length > 3)) ↔
      ∃ item ∈ s.transcript, item.status ≠ Status.interim ∧
        (cleaned item.word).length > 3 ∧ w = cleaned item.word := by
  simp only [List.mem_filter, List.mem_map, decide_eq_true_eq]
  constructor
  · rintro ⟨⟨item, ⟨hmem, hst⟩, rfl⟩, hlen⟩
    exact ⟨item, hmem, hst, hlen, rfl⟩
  · rintro ⟨item, hmem, hst, hlen, rfl⟩
    exact ⟨⟨item, ⟨hmem, hst⟩, rfl⟩, hlen⟩

/-- The number of selected words is at most the cap computed from all items that are not
interim. -/
theorem numChallenging_le (k n : Nat) (h : k ≤ n) :
    min ⌈(k : ℚ) / 5⌉₊ 3 ≤ min ⌈(n : ℚ) / 5⌉₊ 3 := by
  have hq : (k : ℚ) / 5 ≤ (n : ℚ) / 5 := by
    have : (k : ℚ) ≤ (n : ℚ) := by exact_mod_cast h
    linarith
  have := Nat.ceil_mono hq
  omega

theorem one_le_numChallenging (k : Nat) (h : 0 < k) : 1 ≤ min ⌈(k : ℚ) / 5⌉₊ 3 := by
  have hpos : 0 < ⌈(k : ℚ) / 5⌉₊ := by
    rw [Nat.ceil_pos]
    have : (0 : ℚ) < (k : ℚ) := by exact_mod_cast h
    positivity
  omega

/-- The random selection of `analyzeTranscript` on an empty difficult list, when its loop
finishes: the transcript is kept, and the words of the difficult list are as many as the
cap allows, each the record of a word to analyze. -/
theorem analyzeSelection_spec (random : Nat → ℚ) (fuel : Nat)
    (s before : SpeechRecognitionManager) (hempty : s.difficultList = [])
    (h : SpeechRecognitionManager.analyzeSelection random fuel s = some before) :
    before.transcript = s.transcript ∧
    (∀ r ∈ before.difficultList, ∃ w ∈ ((s.transcript.filter
        (fun item => decide (item.status ≠ Status.interim))).map
        (fun item => cleaned item.word)).filter (fun word => decide (word.length > 3)),
      r = SpeechRecognitionManager.analysisRecord w) ∧
    before.difficultList.length ≤
      min ⌈((s.transcript.filter
        (fun item => decide (item.status ≠ Status.interim))).length : ℚ) / 5⌉₊ 3 ∧
    ((((s.transcript.filter (fun item => decide (item.status ≠ Status.interim))).map
        (fun item => cleaned item.word)).filter (fun word => decide (word.length > 3))) ≠ [] →
      before.difficultList ≠ []) := by
  unfold SpeechRecognitionManager.analyzeSelection at h
  by_cases hc : s.difficultList.length = 0 ∧ s.transcript.length > 0
  · rw [if_pos hc] at h
    simp only [] at h
    by_cases hw : (((s.transcript.filter (fun item => decide (item.status ≠ Status.interim))).map
        (fun item => cleaned item.word)).filter
          (fun word => decide (word.length > 3))).length > 0
    · rw [if_pos hw] at h
      obtain ⟨records, hd, ht, hrec, hlen⟩ :=
        SpeechRecognitionManager.selectLoop_spec random _ _ fuel [] s before h
      rw [hempty, List.nil_append] at hd
      have hlen' := hlen (Nat.zero_le _)
      simp only [List.length_nil, Nat.zero_add] at hlen'
      have hk : (((s.transcript.filter
          (fun item => decide (item.status ≠ Status.interim))).map
          (fun item => cleaned item.word)).filter
            (fun word => decide (word.length > 3))).length ≤
          (s.transcript.filter (fun item => decide (item.status ≠ Status.interim))).length := by
        refine le_trans (List.length_filter_le _ _) ?_
        rw [List.length_map]
      have hcap := numChallenging_le _ _ hk
      have hone := one_le_numChallenging _ hw
      refine ⟨ht, ?_, ?_, ?_⟩
      · rw [hd]; exact hrec
      · rw [hd, hlen']
        omega
      · intro _ hnil
        rw [hd] at hnil
        rw [hnil] at hlen'
        simp only [List.length_nil] at hlen'
        omega
    · rw [if_neg hw] at h
      injection h with h
      subst h
      refine ⟨rfl, ?_, ?_, ?_⟩
      · rw [hempty]; intro r hr; cases hr
      · rw [hempty]; exact Nat.zero_le _
      · intro hne
        exact absurd (List.length_pos.mpr hne) hw
  · rw [if_neg hc] at h
    injection h with h
    subst h
    refine ⟨rfl, ?_, ?_, ?_⟩
    · rw [hempty]; intro r hr; cases hr
    · rw [hempty]; exact Nat.zero_le _
    · intro hne
      exfalso
      apply hc
      refine ⟨by rw [hempty]; rfl, ?_⟩
      by_contra hlen
      have hnil : s.transcript = [] := List.length_eq_zero.mp (by omega)
      rw [hnil] at hne
      exact hne rfl

/-- C26: when `analyzeTranscript` is called and its random selection loop finishes, then,
on an empty difficult list and a non-empty transcript, the number of words it marks
difficult is at most `min(ceil(n / 5), 3)`, `n` being the number of items that are not
interim; every marked word is the cleaned form, longer than 3, of an item that is not
interim, and has the type pronunciation; and the difficult list is non-empty whenever such
an item exists. When the difficult list is non-empty already, no word is added: the list is
only de-duplicated. -/
theorem analyzeTranscript_selection (random : Nat → ℚ) (fuel : Nat)
    (s s' : SpeechRecognitionManager)
    (h : SpeechRecognitionManager.analyzeTranscript random fuel s = some s') :
    s'.transcript = s.transcript ∧
    (s.difficultList = [] → s.transcript ≠ [] →
      s'.difficultList.length ≤
        min ⌈((s.transcript.filter
          (fun item => decide (item.status ≠ Status.interim))).length : ℚ) / 5⌉₊ 3 ∧
      (∀ r ∈ s'.difficultList, r.type = "pronunciation".toList ∧
        ∃ item ∈ s.transcript, item.status ≠ Status.interim ∧
          (cleaned item.word).length > 3 ∧ r.word = cleaned item.word) ∧
      ((∃ item ∈ s.transcript, item.status ≠ Status.interim ∧
          (cleaned item.word).length > 3) → s'.difficultList ≠ [])) ∧
    (s.difficultList ≠ [] →
      s'.difficultList = SpeechRecognitionManager.uniqueWords s.difficultList ∧
      s'.difficultList.Sublist s.difficultList) := by
  unfold SpeechRecognitionManager.analyzeTranscript at h
  cases hsel : SpeechRecognitionManager.analyzeSelection random fuel s with
  | none => rw [hsel] at h; cases h
  | some before =>
    rw [hsel] at h
    simp only [Option.some.injEq] at h
    subst h
    have huniq := SpeechRecognitionManager.uniqueWords_eq_firstOccurrences before.difficultList
    have hsub := SpeechRecognitionManager.firstOccurrences_sublist before.difficultList
    refine ⟨?_, ?_, ?_⟩
    · by_cases hempty : s.difficultList = []
      · exact (analyzeSelection_spec random fuel s before hempty hsel).1
      · have hno : ¬ (s.difficultList.length = 0 ∧ s.transcript.length > 0) :=
          fun hc => hempty (List.length_eq_zero.mp hc.1)
        unfold SpeechRecognitionManager.analyzeSelection at hsel
        rw [if_neg hno] at hsel
        injection hsel with hsel
        rw [← hsel]
    · intro hempty _
      obtain ⟨-, hrec, hlen, hne⟩ := analyzeSelection_spec random fuel s before hempty hsel
      simp only [huniq]
      refine ⟨le_trans hsub.length_le hlen, ?_, ?_⟩
      · intro r hr
        obtain ⟨w, hw, rfl⟩ := hrec r (hsub.subset hr)
        obtain ⟨item, hmem, hst, hl, rfl⟩ := (mem_wordsToAnalyze s w).mp hw
        exact ⟨SpeechRecognitionManager.analysisRecord_type _, item, hmem, hst, hl,
          SpeechRecognitionManager.analysisRecord_word _⟩
      · rintro ⟨item, hmem, hst, hl⟩ hnil
        have hw : cleaned item.word ∈ ((s.transcript.filter
            (fun item => decide (item.status ≠ Status.interim))).map
            (fun item => cleaned item.word)).filter (fun word => decide (word.length > 3)) :=
          (mem_wordsToAnalyze s _).mpr ⟨item, hmem, hst, hl, rfl⟩
        have hb := hne (List.ne_nil_of_mem hw)
        cases hbl : before.difficultList with
        | nil => exact hb hbl
        | cons x xs =>
          rw [hbl] at hnil
          simp [SpeechRecognitionManager.firstOccurrences] at hnil
    · intro hne
      have hno : ¬ (s.difficultList.length = 0 ∧ s.transcript.length > 0) :=
        fun hc => hne (List.length_eq_zero.mp hc.1)
      unfold SpeechRecognitionManager.analyzeSelection at hsel
      rw [if_neg hno] at hsel
      injection hsel with hsel
      subst hsel
      exact ⟨rfl, by rw [huniq]; exact hsub⟩

/-- Witness of C26: on the transcript `think water`, with an empty difficult list and a
first draw of 0, the loop finishes and `think` is the one word marked difficult. -/
theorem analyzeTranscript_selection_witness :
    SpeechRecognitionManager.analyzeTranscript (fun _ => 0) 1 sampleSpoken =
      some { sampleSpoken with
        difficultList := [SpeechRecognitionManager.analysisRecord "think".toList]
        randomCalls := 1 } ∧
    [SpeechRecognitionManager.analysisRecord "think".toList].length ≤
      min ⌈((sampleSpoken.transcript.filter
        (fun item => decide (item.status ≠ Status.interim))).length : ℚ) / 5⌉₊ 3 ∧
    ∀ r ∈ [SpeechRecognitionManager.analysisRecord "think".toList],
      r.type = "pronunciation".toList ∧
        ∃ item ∈ sampleSpoken.transcript, item.status ≠ Status.interim ∧
          (cleaned item.word).length > 3 ∧ r.word = cleaned item.word := by
  have h := (analyzeTranscript_selection (fun _ => 0) 1 sampleSpoken _
    analyzeTranscript_selection_example).2.1 rfl (by decide)
  exact ⟨analyzeTranscript_selection_example, h.1, h.2.1⟩

/-! ## The recognition lifecycle: errors and ended events -/

/-- C21 fails on the code: `handleRecognitionError` sets the status to error and hands the
message to `onError`, but it never schedules a restart, whatever the error kind and the
state. It tests `currentStatus === LISTENING` after its own first statement has set the
status to error. So a `no-speech` error received while listening, with `manualStop` false,
leaves no restart callback pending. -/
theorem handleRecognitionError_never_restarts (rt : RecognitionSession) (kind : ErrorKind) :
    (RecognitionSession.handleRecognitionError rt kind).manager.currentStatus =
      RecognitionStatus.error ∧
    (RecognitionSession.handleRecognitionError rt kind).errors =
      rt.errors ++ [errorMessage kind] ∧
    (RecognitionSession.handleRecognitionError rt kind).timers = rt.timers ∧
    RecognitionSession.listeningSession.manager.isListening = true ∧
    RecognitionSession.listeningSession.manager.currentStatus = RecognitionStatus.listening ∧
    RecognitionSession.listeningSession.manager.manualStop = false ∧
    canRestart ErrorKind.noSpeech = true ∧
    (RecognitionSession.handleRecognitionError RecognitionSession.listeningSession
      ErrorKind.noSpeech).timers = [] := by
  have hno : ∀ (r : RecognitionSession) (k : ErrorKind),
      RecognitionSession.handleRecognitionError r k =
        { RecognitionSession.updateStatus r RecognitionStatus.error with
          errors := r.errors ++ [errorMessage k] } := by
    intro r k
    unfold RecognitionSession.handleRecognitionError
    simp only []
    rw [if_neg]
    · rfl
    · rintro ⟨-, -, h⟩
      cases h
  refine ⟨?_, ?_, ?_, rfl, rfl, rfl, rfl, ?_⟩
  · rw [hno]; rfl
  · rw [hno]
  · rw [hno]; rfl
  · rw [hno]; rfl

namespace RecognitionSession

/-- The handler `onend` when the stop was not requested and the status is listening: the
restart callback becomes pending and the status stays. -/
theorem onend_restart (rt : RecognitionSession) (hm : rt.manager.manualStop = false)
    (hs : rt.manager.currentStatus = RecognitionStatus.listening) :
    onend rt =
      { rt with
        manager := { rt.manager with isListening := false }
        timers := rt.timers ++ [Timer.restartAfterEnd] } := by
  unfold onend
  simp only [hm, hs, Bool.not_false, and_self, if_true]

/-- The handler `onend` otherwise: no callback becomes pending, and the status becomes
ready unless it is error or processing. -/
theorem onend_no_restart (rt : RecognitionSession)
    (h : ¬ (rt.manager.manualStop = false ∧
      rt.manager.currentStatus = RecognitionStatus.listening)) :
    (onend rt).timers = rt.timers ∧
    (onend rt).manager.manualStop = rt.manager.manualStop ∧
    (onend rt).manager.isListening = false ∧
    (onend rt).manager.currentStatus =
      (if rt.manager.currentStatus = RecognitionStatus.error ∨
          rt.manager.currentStatus = RecognitionStatus.processing
       then rt.manager.currentStatus else RecognitionStatus.ready) := by
  have hcond : ¬ ((!rt.manager.manualStop) = true ∧
      rt.manager.currentStatus = RecognitionStatus.listening) := by
    rintro ⟨h1, h2⟩
    exact h ⟨by simpa using h1, h2⟩
  unfold onend
  simp only [hcond, if_false]
  by_cases he : rt.manager.currentStatus = RecognitionStatus.error
  · simp [he]
  · by_cases hp : rt.manager.currentStatus = RecognitionStatus.processing
    · simp [hp]
    · simp [he, hp, updateStatus]

/-- No event writes the flag `manualStop`. -/
theorem step_manualStop (rt : RecognitionSession) (e : SessionEvent) :
    (step rt e).manager.manualStop = rt.manager.manualStop := by
  cases e with
  | started => rfl
  | ended =>
    simp only [step, onend]
    split_ifs <;> rfl
  | error kind =>
    simp only [step, handleRecognitionError]
    split_ifs <;> rfl
  | restartAfterEndFires =>
    simp only [step, restartAfterEnd, recognitionStart]
    split_ifs <;> rfl
  | restartAfterErrorFires =>
    simp only [step, restartAfterError, recognitionStart]
    split_ifs <;> rfl

/-- Once `manualStop` is set, no event makes a callback pending. -/
theorem step_timers_of_manualStop (rt : RecognitionSession) (e : SessionEvent)
    (h : rt.manager.manualStop = true) : (step rt e).timers.Sublist rt.timers := by
  cases e with
  | started => exact List.Sublist.refl _
  | ended =>
    have hno : ¬ (rt.manager.manualStop = false ∧
        rt.manager.currentStatus = RecognitionStatus.listening) := by
      rw [h]
      rintro ⟨h1, -⟩
      cases h1
    have := (onend_no_restart { rt with platformActive := false } hno).1
    simp only [step, this]
    exact List.Sublist.refl _
  | error kind =>
    simp only [step, handleRecognitionError]
    split_ifs with hc
    · exact absurd hc.2.2 (by simp [updateStatus])
    · exact List.Sublist.refl _
  | restartAfterEndFires =>
    simp only [step, restartAfterEnd, recognitionStart]
    split_ifs <;> first | exact List.erase_sublist _ _ | exact List.Sublist.refl _
  | restartAfterErrorFires =>
    simp only [step, restartAfterError, recognitionStart]
    split_ifs <;> first | exact List.erase_sublist _ _ | exact List.Sublist.refl _

/-- Once `manualStop` is set, it stays set through any sequence of events, none of which
makes a callback pending. -/
theorem run_of_manualStop (events : List SessionEvent) :
    ∀ rt : RecognitionSession, rt.manager.manualStop = true →
      (run rt events).manager.manualStop = true ∧ (run rt events).timers.Sublist rt.timers := by
  induction events with
  | nil => intro rt h; exact ⟨h, List.Sublist.refl _⟩
  | cons e events ih =>
    intro rt h
    have h1 : (step rt e).manager.manualStop = true := (step_manualStop rt e).trans h
    obtain ⟨h2, h3⟩ := ih (step rt e) h1
    exact ⟨h2, h3.trans (step_timers_of_manualStop rt e h)⟩

/-- The method `stop()` on a listening manager. -/
theorem stop_listening (rt : RecognitionSession) (hr : rt.manager.hasRecognition = true)
    (hl : rt.manager.isListening = true) :
    (stop rt).manager.manualStop = true ∧
    (stop rt).manager.currentStatus = RecognitionStatus.processing ∧
    (stop rt).timers = rt.timers ++ [Timer.analyze] := by
  unfold stop
  simp only [hr, hl, and_self, if_true]
  exact ⟨rfl, rfl, rfl⟩

/-- The restart callback of `onend` does nothing when the stop was requested or the manager
is listening already. -/
theorem restartAfterEnd_skipped (rt : RecognitionSession)
    (h : rt.manager.manualStop = true ∨ rt.manager.isListening = true) :
    restartAfterEnd rt = rt := by
  unfold restartAfterEnd
  rw [if_neg]
  rintro ⟨h1, h2⟩
  rcases h with h | h
  · rw [h] at h2; cases h2
  · rw [h] at h1; cases h1

end RecognitionSession

/-- C22: the platform event `end` makes the restart callback pending if and only if
`manualStop` is false and the status is listening, and then the status is left unchanged;
when no restart is scheduled, the status becomes ready unless it is error or processing, in
which case it is unchanged. Once `stop()`, called on a listening manager, has set
`manualStop`, the flag stays set through every sequence of platform events and restart
callbacks, and no `end` event after it schedules a restart. The restart callback itself does
nothing when `manualStop` is true or `isListening` is true already. -/
theorem onend_restart_policy (rt : RecognitionSession) :
    ((RecognitionSession.onend rt).timers = rt.timers ++ [Timer.restartAfterEnd] ↔
      (rt.manager.manualStop = false ∧
        rt.manager.currentStatus = RecognitionStatus.listening)) ∧
    ((rt.manager.manualStop = false ∧
        rt.manager.currentStatus = RecognitionStatus.listening) →
      (RecognitionSession.onend rt).manager.currentStatus = rt.manager.currentStatus) ∧
    (¬ (rt.manager.manualStop = false ∧
        rt.manager.currentStatus = RecognitionStatus.listening) →
      (RecognitionSession.onend rt).timers = rt.timers ∧
      (RecognitionSession.onend rt).manager.currentStatus =
        (if rt.manager.currentStatus = RecognitionStatus.error ∨
            rt.manager.currentStatus = RecognitionStatus.processing
         then rt.manager.currentStatus else RecognitionStatus.ready)) ∧
    (rt.manager.hasRecognition = true → rt.manager.isListening = true →
      (RecognitionSession.stop rt).manager.manualStop = true ∧
      ∀ events : List SessionEvent,
        (RecognitionSession.run (RecognitionSession.stop rt) events).manager.manualStop =
          true ∧
        (RecognitionSession.onend
          (RecognitionSession.run (RecognitionSession.stop rt) events)).timers =
          (RecognitionSession.run (RecognitionSession.stop rt) events).timers) ∧
    (rt.manager.manualStop = true ∨ rt.manager.isListening = true →
      RecognitionSession.restartAfterEnd rt = rt) := by
  refine ⟨?_, ?_, ?_, ?_, RecognitionSession.restartAfterEnd_skipped rt⟩
  · constructor
    · intro h
      by_contra hno
      have := (RecognitionSession.onend_no_restart rt hno).1
      rw [this] at h
      have hlen := congrArg List.length h
      simp at hlen
    · rintro ⟨hm, hs⟩
      rw [RecognitionSession.onend_restart rt hm hs]
  · rintro ⟨hm, hs⟩
    rw [RecognitionSession.onend_restart rt hm hs]
  · intro hno
    have h := RecognitionSession.onend_no_restart rt hno
    exact ⟨h.1, h.2.2.2⟩
  · intro hr hl
    obtain ⟨hm, -, -⟩ := RecognitionSession.stop_listening rt hr hl
    refine ⟨hm, ?_⟩
    intro events
    obtain ⟨hm', -⟩ := RecognitionSession.run_of_manualStop events _ hm
    refine ⟨hm', ?_⟩
    refine (RecognitionSession.onend_no_restart _ ?_).1
    rw [hm']
    rintro ⟨h1, -⟩
    cases h1

/-- Witness of C22: a listening manager gets the restart callback on an `end` event; after
`stop()`, the events `end`, `error` and `end` leave the flag set, and a further `end` event
leaves only the analysis callback of `stop()` pending. -/
theorem onend_restart_policy_witness :
    (RecognitionSession.onend RecognitionSession.listeningSession).timers =
      [Timer.restartAfterEnd] ∧
    (RecognitionSession.stop RecognitionSession.listeningSession).manager.manualStop = true ∧
    (RecognitionSession.onend
      (RecognitionSession.run (RecognitionSession.stop RecognitionSession.listeningSession)
        [SessionEvent.ended, SessionEvent.error ErrorKind.noSpeech,
          SessionEvent.ended])).timers = [Timer.analyze] := by
  have h := onend_restart_policy RecognitionSession.listeningSession
  refine ⟨h.1.mpr ⟨rfl, rfl⟩, (h.2.2.2.1 rfl rfl).1, ?_⟩
  rw [((h.2.2.2.1 rfl rfl).2 _).2]
  decide

/-! ## `handleRecognitionResult`: the stored transcript -/

theorem keepsItems_refl (t : List TranscriptItem) : KeepsItems t t := by
  constructor
  · intro m item h
    exact ⟨item, h, rfl, Or.inl rfl⟩
  · intro m item' hm h
    rw [List.getElem?_eq_none hm] at h
    cases h

theorem keepsItems_length (a b : List TranscriptItem) (h : KeepsItems a b) :
    a.length ≤ b.length := by
  by_contra hlt
  have hpos : b.length < a.length := by omega
  obtain ⟨item', h', -⟩ := h.1 b.length a[b.length] (List.getElem?_eq_getElem hpos)
  rw [List.getElem?_eq_none (Nat.le_refl _)] at h'
  cases h'

theorem keepsItems_trans (a b c : List TranscriptItem) (hab : KeepsItems a b)
    (hbc : KeepsItems b c) : KeepsItems a c := by
  constructor
  · intro m item h
    obtain ⟨item1, h1, hw1, hs1⟩ := hab.1 m item h
    obtain ⟨item2, h2, hw2, hs2⟩ := hbc.1 m item1 h1
    refine ⟨item2, h2, hw2.trans hw1, ?_⟩
    rcases hs2 with hs2 | hs2
    · rcases hs1 with hs1 | hs1
      · exact Or.inl (hs2.trans hs1)
      · exact Or.inr (hs2.trans hs1)
    · exact Or.inr hs2
  · intro m item2 hm h2
    by_cases hb : b.length ≤ m
    · exact hbc.2 m item2 hb h2
    · have hlt : m < b.length := by omega
      obtain ⟨item2', h2', -, hs⟩ := hbc.1 m b[m] (List.getElem?_eq_getElem hlt)
      rw [h2] at h2'
      injection h2' with h2'
      subst h2'
      have hb1 := hab.2 m b[m] hm (List.getElem?_eq_getElem hlt)
      rcases hs with hs | hs
      · rw [hs]; exact hb1
      · rw [hs]; decide

/-- The items prescribed for the tokens of a segment are neither interim nor stutter. -/
theorem segmentOutcome_status (random : Nat → ℚ) (tokens : List JsString) :
    ∀ n, ∀ item ∈ (segmentOutcome random n tokens).1,
      item.status = Status.neutral ∨ item.status = Status.correct ∨
        item.status = Status.incorrect := by
  induction tokens with
  | nil => intro n item h; cases h
  | cons token rest ih =>
    intro n item h
    cases ho : tokenOutcome token (random n) with
    | none =>
      simp only [segmentOutcome, ho] at h
      exact ih n item h
    | some o =>
      simp only [segmentOutcome, ho, List.mem_cons] at h
      rcases h with h | h
      · rw [h]
        simp only []
        unfold tokenOutcome at ho
        split_ifs at ho with h1
        all_goals
          cases hf : getAllExampleWords.find? (fun ew => decide (ew.word = cleaned token)) with
          | some entry =>
            rw [hf] at ho
            simp only [] at ho
            injection ho with ho
            subst ho
            simp
          | none =>
            rw [hf] at ho
            simp only [] at ho
            injection ho with ho
            subst ho
            simp
      · exact ih _ item h

/-- The method `processTranscriptSegment` returns, and the transcript it leaves keeps the
items of the transcript it found. -/
theorem processTranscriptSegment_keeps (random : Nat → ℚ) (s : SpeechRecognitionManager)
    (segment : JsString) :
    ∃ s', SpeechRecognitionManager.processTranscriptSegment random s segment = some s' ∧
      KeepsItems s.transcript s'.transcript := by
  have hfold := foldl_processWord_outcome random (splitWords segment []) s
  have hstat := segmentOutcome_status random (splitWords segment []) s.randomCalls
  generalize (segmentOutcome random s.randomCalls (splitWords segment [])) = out at hfold hstat
  obtain ⟨s', hs', hA, -, -⟩ := detectStuttering_spec
    ((splitWords segment []).foldl (SpeechRecognitionManager.processWord random) s)
  refine ⟨s', hs', ?_, ?_⟩
  · intro m item hm
    have hm1 : ((splitWords segment []).foldl (SpeechRecognitionManager.processWord random)
        s).transcript[m]? = some item := by
      rw [hfold]
      simp only []
      rw [List.getElem?_append_left (List.getElem?_eq_some_iff.mp hm).1]
      exact hm
    have h := hA m
    rw [hm1, Option.map_some'] at h
    refine ⟨_, h, ?_, ?_⟩
    · split_ifs <;> rfl
    · split_ifs
      · exact Or.inr rfl
      · exact Or.inl rfl
  · intro m item' hm h'
    have h := hA m
    rw [h'] at h
    cases hx : ((splitWords segment []).foldl (SpeechRecognitionManager.processWord random)
        s).transcript[m]? with
    | none => rw [hx] at h; cases h
    | some x =>
      rw [hx, Option.map_some'] at h
      injection h with h
      have hmem : x ∈ out.1 := by
        rw [hfold] at hx
        simp only [] at hx
        rw [List.getElem?_append_right hm] at hx
        exact List.getElem?_mem hx
      have hxs := hstat x hmem
      rw [h]
      split_ifs
      · simp [toStutter]
      · rcases hxs with e | e | e <;> rw [e] <;> decide

namespace SpeechRecognitionManager

/-- The loop of `handleRecognitionResult` returns, and the transcript it leaves keeps the
items of the transcript it found. -/
theorem resultLoop_keeps (random : Nat → ℚ) (results : List RecognitionResult) :
    ∀ (s : SpeechRecognitionManager) (interimTranscript : JsString),
      ∃ s' interimTranscript',
        resultLoop random results s interimTranscript = some (s', interimTranscript') ∧
        KeepsItems s.transcript s'.transcript := by
  induction results with
  | nil => intro s interim; exact ⟨s, interim, rfl, keepsItems_refl _⟩
  | cons result rest ih =>
    intro s interim
    by_cases hf : result.isFinal = true
    · obtain ⟨s1, hs1, hk1⟩ := processTranscriptSegment_keeps random s (trim result.transcript)
      obtain ⟨s', interim', hs', hk'⟩ := ih s1 interim
      refine ⟨s', interim', ?_, keepsItems_trans _ _ _ hk1 hk'⟩
      simp only [resultLoop, hf, if_true, hs1]
      exact hs'
    · obtain ⟨s', interim', hs', hk'⟩ := ih s (interim ++ [' '] ++ trim result.transcript)
      refine ⟨s', interim', ?_, hk'⟩
      simp only [resultLoop, hf, if_false]
      exact hs'

end SpeechRecognitionManager

/-- C23: for every stored transcript and every recognition result event,
`handleRecognitionResult` (with `processTranscriptSegment` within it) returns; each item
that the transcript held is still at its place with its word unchanged and with its status
either unchanged or changed to stutter; no item stored after them is interim, so that a
transcript without interim items stays without them; and the interim items exist only in
the array handed to `onTranscriptUpdate`, after a copy of the stored transcript. The same
holds of `processTranscriptSegment` on every segment. -/
theorem handleRecognitionResult_keeps (random : Nat → ℚ) (s : SpeechRecognitionManager)
    (event : ResultEvent) :
    ∃ s' preview,
      SpeechRecognitionManager.handleRecognitionResult random s event = some (s', preview) ∧
      s.transcript.length ≤ s'.transcript.length ∧
      (∀ (m : Nat) (item : TranscriptItem), s.transcript[m]? = some item →
        ∃ item' : TranscriptItem, s'.transcript[m]? = some item' ∧ item'.word = item.word ∧
          (item'.status = item.status ∨ item'.status = Status.stutter)) ∧
      (∀ (m : Nat) (item' : TranscriptItem), s.transcript.length ≤ m →
        s'.transcript[m]? = some item' → item'.status ≠ Status.interim) ∧
      ((∀ item ∈ s.transcript, item.status ≠ Status.interim) →
        ∀ item ∈ s'.transcript, item.status ≠ Status.interim) ∧
      (∀ shown, preview = some shown →
        ∃ interimItems : List TranscriptItem, shown = s'.transcript ++ interimItems ∧
          ∀ item ∈ interimItems, item.status = Status.interim) ∧
      (∀ segment : JsString, ∃ s1,
        SpeechRecognitionManager.processTranscriptSegment random s segment = some s1 ∧
        KeepsItems s.transcript s1.transcript) := by
  obtain ⟨s', interim', hs', hk⟩ := SpeechRecognitionManager.resultLoop_keeps random
    (event.results.drop event.resultIndex) s []
  refine ⟨s',
    (if interim'.length > 0 then
      some (s'.transcript ++ (splitWords interim' []).map (fun word =>
        ({ word := word, status := Status.interim } : TranscriptItem)))
     else none),
    ?_, keepsItems_length _ _ hk, hk.1, hk.2, ?_, ?_,
    fun segment => processTranscriptSegment_keeps random s segment⟩
  · unfold SpeechRecognitionManager.handleRecognitionResult
    rw [hs']
  · intro hno item hmem
    obtain ⟨m, hm⟩ := List.getElem?_of_mem hmem
    by_cases hlt : m < s.transcript.length
    · obtain ⟨item', h', -, hst⟩ := hk.1 m s.transcript[m] (List.getElem?_eq_getElem hlt)
      rw [hm] at h'
      injection h' with h'
      subst h'
      rcases hst with e | e
      · rw [e]; exact hno _ (List.getElem_mem hlt)
      · rw [e]; decide
    · exact hk.2 m item (by omega) hm
  · intro shown hshown
    split_ifs at hshown with hi
    injection hshown with hshown
    refine ⟨_, hshown.symm, ?_⟩
    intro item hitem
    obtain ⟨w, -, rfl⟩ := List.mem_map.mp hitem
    rfl

/-- Witness of C23: from the empty state, the event with the final segment `the cat sat`
and the interim text `on the` stores items none of which is interim. -/
theorem handleRecognitionResult_keeps_witness :
    ∃ s' preview,
      SpeechRecognitionManager.handleRecognitionResult (fun _ => 0)
        SpeechRecognitionManager.create sampleEvent = some (s', preview) ∧
      ∀ item ∈ s'.transcript, item.status ≠ Status.interim := by
  obtain ⟨s', preview, hs', -, -, -, hno, -, -⟩ :=
    handleRecognitionResult_keeps (fun _ => 0) SpeechRecognitionManager.create sampleEvent
  exact ⟨s', preview, hs', hno (fun item hmem => by cases hmem)⟩

end PronunciationAI
